import Mathlib

/-!
# IntoneCount audio matcher (`app/src/main/cpp/audio_matcher.cpp`)

A shallow embedding of the MFCC extraction and DTW scoring code, and theorems
about it.

Modelling conventions.

* Finite `float` and `double` values are elements of an arbitrary linearly
  ordered field `F`, and the arithmetic on them is exact.  Every definition
  that embeds code is computable; the theorems hold for every such `F` unless
  they name `ℝ`, where the complex exponential is needed.
* Rounding is modelled where the source compares a rounded value with a
  `float` constant in the energy gate of `extractMFCC`: `ENERGY_THRESHOLD` is
  the exact value of the literal `0.01f`, and `compute_energy` converts its
  result to `float` with `static_cast_float`.
* NaN and the infinities are modelled for `computeDTW`: the type `FloatVal`
  adds them to `F`, and the namespace `Ieee` embeds `cosineSimilarity`,
  `trim_silence` and `computeDTW` over `FloatVal`, with `std::min` and
  `std::max` as the comparisons they perform.  On frames of finite values this
  embedding returns the value of the one over `F` (`ieee_computeDTW_fin`).
* The `<cmath>` functions the code calls (`std::sqrt`, `std::cos`, ...) are
  not part of the repository.  They are the fields of the class `CMath`; a
  theorem that needs a property of one of them states it as a hypothesis, and
  the instance for `ℝ` supplies the real functions.
* `+infinity` in the DTW table is the top element of `WithTop F`.
* `std::vector` is `List`; `v[i]` is `List.getD` and `v[i] = x` is `List.set`.
  Counted `for` loops are folds over the index range, loops whose bound
  changes use a fuel argument that is shown to be sufficient.
* `size_t` and `int` are `Nat` and `Int`; array sizes are assumed to be in the
  range where the 32-bit `int` casts of the source do not wrap.
* JNI arrays are lists; a `jobjectArray` of frames is a list of lists (null
  elements and allocation failures are outside the data model), an empty
  `jfloatArray` result is `[]`.
-/

namespace AudioMatcher

/-- The `<cmath>` functions used by the source, over the scalar type `F`. -/
class CMath (F : Type) where
  /-- The function `std::acos`. -/
  acos : F → F
  /-- The function `std::cos`. -/
  cos : F → F
  /-- The function `std::sin`. -/
  sin : F → F
  /-- The function `std::sqrt`. -/
  sqrt : F → F
  /-- The function `std::log`. -/
  log : F → F
  /-- The function `std::log10`. -/
  log10 : F → F
  /-- The function `std::pow`. -/
  pow : F → F → F

/-- The real-number math library. -/
noncomputable instance realCMath : CMath ℝ where
  acos := Real.arccos
  cos := Real.cos
  sin := Real.sin
  sqrt := Real.sqrt
  log := Real.log
  log10 := fun x => Real.log x / Real.log 10
  pow := fun x y => x ^ y

section Defs

variable {F : Type} [LinearOrderedField F]

/-! ## Constants (lines 14-18) -/

/-- Source: `const double PI = std::acos(-1.0);` -/
def PI [CMath F] : F := CMath.acos (-1)

/-- Source: `const int SAMPLE_RATE = 48000;` -/
def SAMPLE_RATE : Int := 48000

/-- Source: `const float C0_SILENCE_THRESHOLD = -40.0f;` -/
def C0_SILENCE_THRESHOLD : F := -40

/-- Source: `const float ENERGY_THRESHOLD = 0.01f;`  The value is the `float`
nearest to `0.01`, which is `10737418 * 2 ^ (-30) = 5368709 / 536870912`
(bit pattern `0x3C23D70A`), a little below `1 / 100`. -/
def ENERGY_THRESHOLD : F := 5368709 / 536870912

/-- Source: `const float ZCR_THRESHOLD = 0.1f;`  The zero-crossing rate is
modelled without rounding (`compute_zcr`), so the threshold is the number
`1 / 10` that the literal denotes: the `float` quotient `zcr / n` of the source
is the rounding of the exact quotient, `0.1f` is the rounding of `1 / 10`, and
for a frame of fewer than `2 ^ 24` samples the rounded quotient is below `0.1f`
exactly when the exact one is below `1 / 10`. -/
def ZCR_THRESHOLD : F := 1 / 10

/-! ## Cosine similarity (lines 392-409) -/

/-- The accumulation loop of `cosineSimilarity` (lines 399-403): the state is
`(dot, norm1, norm2)`. -/
def cosineSimilarity_sums (vec1 vec2 : List F) : F × F × F :=
  (List.range vec1.length).foldl
    (fun (s : F × F × F) (i : Nat) =>
      (s.1 + vec1.getD i 0 * vec2.getD i 0,
       s.2.1 + vec1.getD i 0 * vec1.getD i 0,
       s.2.2 + vec2.getD i 0 * vec2.getD i 0))
    (0, 0, 0)

/-- Source: `float cosineSimilarity(const std::vector<float>&, const std::vector<float>&)`. -/
def cosineSimilarity [CMath F] (vec1 vec2 : List F) : F :=
  if vec1.length ≠ vec2.length ∨ vec1.isEmpty then 0
  else
    let dot := (cosineSimilarity_sums vec1 vec2).1
    let norm1 := (cosineSimilarity_sums vec1 vec2).2.1
    let norm2 := (cosineSimilarity_sums vec1 vec2).2.2
    let denom_cs := CMath.sqrt norm1 * CMath.sqrt norm2
    if denom_cs < 1 / 1000000000 then
      (if norm1 < 1 / 1000000000 ∧ norm2 < 1 / 1000000000 then 1 else 0)
    else dot / denom_cs

/-! ## Silence trimming (lines 205-237) -/

/-- The test `!mfcc_seq[i].empty() && mfcc_seq[i][0] > C0_SILENCE_THRESHOLD`
of lines 213 and 219. -/
def exceeds_c0_threshold (frame : List F) : Bool :=
  !frame.isEmpty && decide (frame.getD 0 0 > C0_SILENCE_THRESHOLD)

/-- The forward scan of `trim_silence` (lines 209, 212-217): `start` is the
first index whose frame passes the test, and stays `0` when there is none. -/
def trim_silence_start (mfcc_seq : List (List F)) : Nat :=
  ((List.range mfcc_seq.length).find?
    (fun i => exceeds_c0_threshold (mfcc_seq.getD i []))).getD 0

/-- The backward scan of `trim_silence` (lines 210, 218-223): `i` runs from
`size` down to `start + 1`; `end` is the first such `i` whose frame `i - 1`
passes the test, and stays `size` when there is none. -/
def trim_silence_end (mfcc_seq : List (List F)) (start : Nat) : Nat :=
  ((List.range' (start + 1) (mfcc_seq.length - start)).reverse.find?
    (fun i => exceeds_c0_threshold (mfcc_seq.getD (i - 1) []))).getD mfcc_seq.length

/-- Source: `trim_silence`.  The `difference_type` range check of lines
226-230 cannot fire for a `std::vector` and is not modelled. -/
def trim_silence (mfcc_seq : List (List F)) : List (List F) :=
  if mfcc_seq.isEmpty then []
  else
    let start := trim_silence_start mfcc_seq
    let end_ := trim_silence_end mfcc_seq start
    if start ≥ end_ then []
    else (mfcc_seq.drop start).take (end_ - start)

/-! ## DTW (lines 302-389) -/

/-- The frame-copy loops of `computeDTW` (lines 317-332 and 334-349): `none`
is the early `return 0.0f` at the first frame whose length is not 13. -/
def readFrames : List (List F) → Option (List (List F))
  | [] => some []
  | frame :: rest =>
    if frame.length ≠ 13 then none
    else (readFrames rest).map (fun seq => frame :: seq)

/-- Read `dp[i][j]`. -/
def get2 (dp : List (List (WithTop F))) (i j : Nat) : WithTop F :=
  (dp.getD i []).getD j ⊤

/-- Write `dp[i][j] = v`. -/
def set2 (dp : List (List (WithTop F))) (i j : Nat) (v : WithTop F) :
    List (List (WithTop F)) :=
  dp.set i ((dp.getD i []).set j v)

/-- The body of the inner loop of the DTW table (lines 368-372), on frames of
finite values.  No cell is NaN then, and `std::min({val_a, val_b, val_c})` is the
minimum of the three cells whatever their order; `Ieee.dtw_cell` has the scan
that `std::min` performs, and `ieee_dtw_cell_fin` shows that it computes the same
cell. -/
def dtw_cell [CMath F] (trimmed_seq1 trimmed_seq2 : List (List F))
    (i : Nat) (dp : List (List (WithTop F))) (j : Nat) : List (List (WithTop F)) :=
  let cost : F :=
    1 - cosineSimilarity (trimmed_seq1.getD (i - 1) []) (trimmed_seq2.getD (j - 1) [])
  let val_a := get2 dp (i - 1) j
  let val_b := get2 dp i (j - 1)
  let val_c := get2 dp (i - 1) (j - 1)
  set2 dp i j ((cost : WithTop F) + min val_a (min val_b val_c))

/-- The DTW table of `computeDTW` after initialisation and the two nested
loops (lines 361-374). -/
def dtw_table [CMath F] (trimmed_seq1 trimmed_seq2 : List (List F)) :
    List (List (WithTop F)) :=
  let R := trimmed_seq1.length + 1
  let C := trimmed_seq2.length + 1
  let dp := List.replicate R (List.replicate C (⊤ : WithTop F))
  let dp := set2 dp 0 0 0
  (List.range' 1 (R - 1)).foldl
    (fun dp i => (List.range' 1 (C - 1)).foldl (dtw_cell trimmed_seq1 trimmed_seq2 i) dp) dp

/-- The score computation of `computeDTW` (lines 376-385) from the final cell
`dp[R-1][C-1]`, the denominator and the table dimensions.  For an infinite
final cell the float code computes `1 - inf / denom = -inf` in the first branch
and skips the second, so the clamped result is `0`. -/
def dtw_similarity (cell : WithTop F) (denom_val : F) (R C : Nat) : F :=
  match cell with
  | none => 0
  | some d =>
    let similarity : F :=
      if denom_val > 1 / 1000000 then 1 - d / denom_val
      else if d < 1 / 1000000 ∧ (R - 1 > 0 ∨ C - 1 > 0) then 1
      else 0
    max 0 (min 1 similarity)

/-- The part of `computeDTW` after the frames have been copied (lines 351-388). -/
def dtw_score [CMath F] (seq1 seq2 : List (List F)) : F :=
  let trimmed_seq1 := trim_silence seq1
  let trimmed_seq2 := trim_silence seq2
  if trimmed_seq1.isEmpty ∨ trimmed_seq2.isEmpty then 0
  else
    let R := trimmed_seq1.length + 1
    let C := trimmed_seq2.length + 1
    let dp := dtw_table trimmed_seq1 trimmed_seq2
    let denom_val : F := ((trimmed_seq1.length + trimmed_seq2.length : Nat) : F)
    dtw_similarity (get2 dp (R - 1) (C - 1)) denom_val R C

/-- Source: `Java_com_example_mkproject_javaPackages_MantraRecognizer_computeDTW`. -/
def computeDTW [CMath F] (mfccSeq1 mfccSeq2 : List (List F)) : F :=
  if mfccSeq1.length ≤ 0 ∨ mfccSeq2.length ≤ 0 then 0
  else
    match readFrames mfccSeq1 with
    | none => 0
    | some seq1 =>
      match readFrames mfccSeq2 with
      | none => 0
      | some seq2 => dtw_score seq1 seq2

end Defs

/-! ## IEEE special values (for `computeDTW`)

A JNI `float` array can hold NaN and the infinities.  The definitions of this
section embed `cosineSimilarity`, `trim_silence` and `computeDTW` a second
time, over values that are a finite number, an infinity or NaN.  The
arithmetic on finite values is exact, as in the definitions above; what is
added is the propagation of the special values and the order in which
`std::min` and `std::max` compare their arguments.  On frames of finite values
the two embeddings agree (`ieee_computeDTW_fin`). -/

/-- A `float` or `double` value with the special values of IEEE 754: a finite
number (exact, with a single zero), an infinity, or NaN. -/
inductive FloatVal (F : Type) where
  /-- A finite number. -/
  | fin (x : F) : FloatVal F
  /-- Positive infinity. -/
  | pinf : FloatVal F
  /-- Negative infinity. -/
  | ninf : FloatVal F
  /-- Not a number. -/
  | nan : FloatVal F

namespace FloatVal

variable {F : Type} [LinearOrderedField F]

/-- Negation. -/
def neg : FloatVal F → FloatVal F
  | fin x => fin (-x)
  | pinf => ninf
  | ninf => pinf
  | nan => nan

/-- Addition: NaN propagates and `inf + (-inf)` is NaN. -/
def add : FloatVal F → FloatVal F → FloatVal F
  | fin x, fin y => fin (x + y)
  | fin _, pinf => pinf
  | fin _, ninf => ninf
  | pinf, fin _ => pinf
  | pinf, pinf => pinf
  | ninf, fin _ => ninf
  | ninf, ninf => ninf
  | _, _ => nan

/-- Subtraction. -/
def sub (x y : FloatVal F) : FloatVal F := add x (neg y)

/-- Multiplication: NaN propagates and `0 * inf` is NaN. -/
def mul : FloatVal F → FloatVal F → FloatVal F
  | fin x, fin y => fin (x * y)
  | fin x, pinf => if 0 < x then pinf else if x < 0 then ninf else nan
  | fin x, ninf => if 0 < x then ninf else if x < 0 then pinf else nan
  | pinf, fin y => if 0 < y then pinf else if y < 0 then ninf else nan
  | ninf, fin y => if 0 < y then ninf else if y < 0 then pinf else nan
  | pinf, pinf => pinf
  | pinf, ninf => ninf
  | ninf, pinf => ninf
  | ninf, ninf => pinf
  | _, _ => nan

/-- Division: NaN propagates, `0 / 0` and `inf / inf` are NaN, a finite value
divided by an infinity is `0`; the zero of the model is the positive zero. -/
def div : FloatVal F → FloatVal F → FloatVal F
  | fin x, fin y =>
    if y = 0 then (if 0 < x then pinf else if x < 0 then ninf else nan) else fin (x / y)
  | fin _, pinf => fin 0
  | fin _, ninf => fin 0
  | pinf, fin y => if y < 0 then ninf else pinf
  | ninf, fin y => if y < 0 then pinf else ninf
  | _, _ => nan

/-- The comparison `x < y`, false when an operand is NaN. -/
def lt : FloatVal F → FloatVal F → Bool
  | fin x, fin y => decide (x < y)
  | fin _, pinf => true
  | ninf, fin _ => true
  | ninf, pinf => true
  | _, _ => false

/-- The function `std::sqrt`: NaN for a negative argument. -/
def sqrt [CMath F] : FloatVal F → FloatVal F
  | fin x => if x < 0 then nan else fin (CMath.sqrt x)
  | pinf => pinf
  | _ => nan

/-- The function `std::min(a, b)`: `(b < a) ? b : a`. -/
def std_min (a b : FloatVal F) : FloatVal F := if lt b a then b else a

/-- The function `std::max(a, b)`: `(a < b) ? b : a`. -/
def std_max (a b : FloatVal F) : FloatVal F := if lt a b then b else a

/-- The function `std::min({a, b, c})`: the scan of `std::min_element`, which
starts with `a` and moves to a later element when it is less than the
smallest so far. -/
def std_min3 (a b c : FloatVal F) : FloatVal F :=
  let smallest := a
  let smallest := if lt b smallest then b else smallest
  if lt c smallest then c else smallest

/-- The IEEE value of a cell of the DTW table of the exact model. -/
def ofWithTop : WithTop F → FloatVal F
  | none => pinf
  | some x => fin x

end FloatVal

namespace Ieee

variable {F : Type} [LinearOrderedField F]

/-- The accumulation loop of `cosineSimilarity` (lines 399-403) on IEEE values. -/
def cosineSimilarity_sums (vec1 vec2 : List (FloatVal F)) :
    FloatVal F × FloatVal F × FloatVal F :=
  (List.range vec1.length).foldl
    (fun (s : FloatVal F × FloatVal F × FloatVal F) (i : Nat) =>
      (s.1.add ((vec1.getD i (.fin 0)).mul (vec2.getD i (.fin 0))),
       s.2.1.add ((vec1.getD i (.fin 0)).mul (vec1.getD i (.fin 0))),
       s.2.2.add ((vec2.getD i (.fin 0)).mul (vec2.getD i (.fin 0)))))
    (.fin 0, .fin 0, .fin 0)

/-- Source: `cosineSimilarity`, on IEEE values. -/
def cosineSimilarity [CMath F] (vec1 vec2 : List (FloatVal F)) : FloatVal F :=
  if vec1.length ≠ vec2.length ∨ vec1.isEmpty then .fin 0
  else
    let dot := (cosineSimilarity_sums vec1 vec2).1
    let norm1 := (cosineSimilarity_sums vec1 vec2).2.1
    let norm2 := (cosineSimilarity_sums vec1 vec2).2.2
    let denom_cs := (FloatVal.sqrt norm1).mul (FloatVal.sqrt norm2)
    if denom_cs.lt (.fin (1 / 1000000000)) then
      (if norm1.lt (.fin (1 / 1000000000)) ∧ norm2.lt (.fin (1 / 1000000000)) then .fin 1
        else .fin 0)
    else dot.div denom_cs

/-- The test `!mfcc_seq[i].empty() && mfcc_seq[i][0] > C0_SILENCE_THRESHOLD`. -/
def exceeds_c0_threshold (frame : List (FloatVal F)) : Bool :=
  !frame.isEmpty && FloatVal.lt (.fin C0_SILENCE_THRESHOLD) (frame.getD 0 (.fin 0))

/-- The forward scan of `trim_silence` (lines 209, 212-217). -/
def trim_silence_start (mfcc_seq : List (List (FloatVal F))) : Nat :=
  ((List.range mfcc_seq.length).find?
    (fun i => exceeds_c0_threshold (mfcc_seq.getD i []))).getD 0

/-- The backward scan of `trim_silence` (lines 210, 218-223). -/
def trim_silence_end (mfcc_seq : List (List (FloatVal F))) (start : Nat) : Nat :=
  ((List.range' (start + 1) (mfcc_seq.length - start)).reverse.find?
    (fun i => exceeds_c0_threshold (mfcc_seq.getD (i - 1) []))).getD mfcc_seq.length

/-- Source: `trim_silence`, on IEEE values. -/
def trim_silence (mfcc_seq : List (List (FloatVal F))) : List (List (FloatVal F)) :=
  if mfcc_seq.isEmpty then []
  else
    let start := trim_silence_start mfcc_seq
    let end_ := trim_silence_end mfcc_seq start
    if start ≥ end_ then []
    else (mfcc_seq.drop start).take (end_ - start)

/-- The frame-copy loops of `computeDTW` (lines 317-332 and 334-349). -/
def readFrames : List (List (FloatVal F)) → Option (List (List (FloatVal F)))
  | [] => some []
  | frame :: rest =>
    if frame.length ≠ 13 then none
    else (readFrames rest).map (fun seq => frame :: seq)

/-- Read `dp[i][j]`. -/
def get2 (dp : List (List (FloatVal F))) (i j : Nat) : FloatVal F :=
  (dp.getD i []).getD j .pinf

/-- Write `dp[i][j] = v`. -/
def set2 (dp : List (List (FloatVal F))) (i j : Nat) (v : FloatVal F) :
    List (List (FloatVal F)) :=
  dp.set i ((dp.getD i []).set j v)

/-- The body of the inner loop of the DTW table (lines 368-372). -/
def dtw_cell [CMath F] (trimmed_seq1 trimmed_seq2 : List (List (FloatVal F)))
    (i : Nat) (dp : List (List (FloatVal F))) (j : Nat) : List (List (FloatVal F)) :=
  let cost : FloatVal F :=
    (FloatVal.fin 1).sub
      (cosineSimilarity (trimmed_seq1.getD (i - 1) []) (trimmed_seq2.getD (j - 1) []))
  let val_a := get2 dp (i - 1) j
  let val_b := get2 dp i (j - 1)
  let val_c := get2 dp (i - 1) (j - 1)
  set2 dp i j (cost.add (FloatVal.std_min3 val_a val_b val_c))

/-- The DTW table of `computeDTW` (lines 361-374). -/
def dtw_table [CMath F] (trimmed_seq1 trimmed_seq2 : List (List (FloatVal F))) :
    List (List (FloatVal F)) :=
  let R := trimmed_seq1.length + 1
  let C := trimmed_seq2.length + 1
  let dp := List.replicate R (List.replicate C (FloatVal.pinf : FloatVal F))
  let dp := set2 dp 0 0 (.fin 0)
  (List.range' 1 (R - 1)).foldl
    (fun dp i => (List.range' 1 (C - 1)).foldl (dtw_cell trimmed_seq1 trimmed_seq2 i) dp) dp

/-- The score computation of `computeDTW` (lines 376-385). -/
def dtw_similarity (cell denom_val : FloatVal F) (R C : Nat) : FloatVal F :=
  let similarity : FloatVal F :=
    if FloatVal.lt (.fin (1 / 1000000)) denom_val then (FloatVal.fin 1).sub (cell.div denom_val)
    else if cell.lt (.fin (1 / 1000000)) ∧ (R - 1 > 0 ∨ C - 1 > 0) then .fin 1
    else .fin 0
  FloatVal.std_max (.fin 0) (FloatVal.std_min (.fin 1) similarity)

/-- The part of `computeDTW` after the frames have been copied (lines 351-388). -/
def dtw_score [CMath F] (seq1 seq2 : List (List (FloatVal F))) : FloatVal F :=
  let trimmed_seq1 := trim_silence seq1
  let trimmed_seq2 := trim_silence seq2
  if trimmed_seq1.isEmpty ∨ trimmed_seq2.isEmpty then .fin 0
  else
    let R := trimmed_seq1.length + 1
    let C := trimmed_seq2.length + 1
    let dp := dtw_table trimmed_seq1 trimmed_seq2
    let denom_val : FloatVal F := .fin ((trimmed_seq1.length + trimmed_seq2.length : Nat) : F)
    dtw_similarity (get2 dp (R - 1) (C - 1)) denom_val R C

/-- Source: `computeDTW`, on IEEE values. -/
def computeDTW [CMath F] (mfccSeq1 mfccSeq2 : List (List (FloatVal F))) : FloatVal F :=
  if mfccSeq1.length ≤ 0 ∨ mfccSeq2.length ≤ 0 then .fin 0
  else
    match readFrames mfccSeq1 with
    | none => .fin 0
    | some seq1 =>
      match readFrames mfccSeq2 with
      | none => .fin 0
      | some seq2 => dtw_score seq1 seq2

end Ieee

/-! ## Complex numbers (line 13) -/

/-- Source: `using cd = std::complex<double>;` -/
structure cd (F : Type) where
  /-- Real part. -/
  re : F
  /-- Imaginary part. -/
  im : F

namespace cd

variable {F : Type} [LinearOrderedField F]

/-- Complex zero, `cd(0.0, 0.0)`. -/
def zero : cd F := ⟨0, 0⟩

/-- Complex one, `cd(1.0)`. -/
def one : cd F := ⟨1, 0⟩

/-- Complex sum, `operator+`. -/
def add (x y : cd F) : cd F := ⟨x.re + y.re, x.im + y.im⟩

/-- Complex difference, `operator-`. -/
def sub (x y : cd F) : cd F := ⟨x.re - y.re, x.im - y.im⟩

/-- Complex product, `operator*`. -/
def mul (x y : cd F) : cd F := ⟨x.re * y.re - x.im * y.im, x.re * y.im + x.im * y.re⟩

/-- Division of a complex number by a real, `x /= d`. -/
def divReal (x : cd F) (d : F) : cd F := ⟨x.re / d, x.im / d⟩

/-- Squared magnitude, `std::norm`. -/
def norm (x : cd F) : F := x.re * x.re + x.im * x.im

end cd

section Pipeline

variable {F : Type} [LinearOrderedField F]

/-! ## FFT (lines 24-55) -/

/-- The loop `while ((1 << lg_n) < n) ++lg_n;` of line 27, with a fuel
argument. -/
def fft_lg_n (n : Nat) : Nat → Nat → Nat
  | 0, lg_n => lg_n
  | fuel + 1, lg_n => if (1 <<< lg_n) < n then fft_lg_n n fuel (lg_n + 1) else lg_n

/-- The bit-reversed index `rev` of `i` (lines 30-33). -/
def fft_rev (lg_n i : Nat) : Nat :=
  (List.range lg_n).foldl
    (fun rev j => if i &&& (1 <<< j) ≠ 0 then rev ||| (1 <<< (lg_n - 1 - j)) else rev) 0

/-- The bit-reversal permutation loop (lines 29-35). -/
def fft_bit_reverse (n lg_n : Nat) (a : List (cd F)) : List (cd F) :=
  (List.range n).foldl
    (fun a i =>
      let rev := fft_rev lg_n i
      if i < rev then (a.set i (a.getD rev cd.zero)).set rev (a.getD i cd.zero) else a) a

/-- The butterfly loop over `j` (lines 41-48) for the block starting at `i`. -/
def fft_butterfly (wlen : cd F) (i len : Nat) (a : List (cd F)) : List (cd F) :=
  ((List.range (len / 2)).foldl
    (fun (st : List (cd F) × cd F) j =>
      let u := st.1.getD (i + j) cd.zero
      let v := cd.mul (st.1.getD (i + j + len / 2) cd.zero) st.2
      ((st.1.set (i + j) (cd.add u v)).set (i + j + len / 2) (cd.sub u v),
       cd.mul st.2 wlen))
    (a, cd.one)).1

/-- The loop `for (int i = 0; i < n; i += len)` of lines 40-49, with a fuel
argument. -/
def fft_blocks (wlen : cd F) (n len : Nat) : Nat → Nat → List (cd F) → List (cd F)
  | 0, _, a => a
  | fuel + 1, i, a =>
    if i < n then fft_blocks wlen n len fuel (i + len) (fft_butterfly wlen i len a) else a

/-- The loop `for (int len = 2; len <= n; len <<= 1)` of lines 37-50, with a
fuel argument; `bfuel` is the fuel of the inner loop over the blocks. -/
def fft_stages [CMath F] (invert : Bool) (n bfuel : Nat) :
    Nat → Nat → List (cd F) → List (cd F)
  | 0, _, a => a
  | fuel + 1, len, a =>
    if len ≤ n then
      let ang : F := 2 * PI / (len : F) * (if invert then -1 else 1)
      let wlen : cd F := ⟨CMath.cos ang, CMath.sin ang⟩
      fft_stages invert n bfuel fuel (len <<< 1) (fft_blocks wlen n len bfuel 0 a)
    else a

/-- The body of `fft` where each of the three loops whose bound is not a plain
counter runs with the given fuel. -/
def fft_with_fuel [CMath F] (fuel : Nat) (a : List (cd F)) (invert : Bool) : List (cd F) :=
  let n := a.length
  let lg_n := fft_lg_n n fuel 0
  let a := fft_bit_reverse n lg_n a
  let a := fft_stages invert n fuel fuel 2 a
  if invert then a.map (fun x => cd.divReal x (n : F)) else a

/-- Source: `void fft(std::vector<cd>& a, bool invert)`; the updated vector is
returned.  The loops get fuel `n`; `fft_with_fuel_eq` shows that no loop uses
it up. -/
def fft [CMath F] (a : List (cd F)) (invert : Bool) : List (cd F) :=
  fft_with_fuel a.length a invert

/-! ## Power spectrum (lines 58-74) -/

/-- The loop `while (fft_size < n) fft_size <<= 1;` of line 61, with a fuel
argument. -/
def power_spectrum_fft_size (n : Nat) : Nat → Nat → Nat
  | 0, fft_size => fft_size
  | fuel + 1, fft_size =>
    if fft_size < n then power_spectrum_fft_size n fuel (fft_size <<< 1) else fft_size

/-- Source: `std::vector<double> power_spectrum(const std::vector<float>& frame)`.
The size loop gets fuel `n`; `power_spectrum_fft_size_fuel` shows that the loop
does not use it up. -/
def power_spectrum [CMath F] (frame : List F) : List F :=
  let n := frame.length
  let fft_size := power_spectrum_fft_size n n 1
  let fft_input : List (cd F) := List.replicate fft_size cd.zero
  let fft_input := (List.range n).foldl
    (fun fft_input i => fft_input.set i ⟨frame.getD i 0, 0⟩) fft_input
  let fft_input := fft fft_input false
  let half := fft_size / 2
  let power : List F := List.replicate (half + 1) 0
  (List.range (half + 1)).foldl
    (fun power i => power.set i (cd.norm (fft_input.getD i cd.zero) / (fft_size : F))) power

/-! ## Frame conditioning (lines 77-93) -/

/-- Source: `void pre_emphasis(std::vector<float>& signal)`; `i` runs from
`size - 1` down to `1`. -/
def pre_emphasis (signal : List F) : List F :=
  if signal.length < 2 then signal
  else
    (List.range' 1 (signal.length - 1)).reverse.foldl
      (fun signal i => signal.set i (signal.getD i 0 - 95 / 100 * signal.getD (i - 1) 0)) signal

/-- Source: `void hamming_window(std::vector<float>& frame)`. -/
def hamming_window [CMath F] (frame : List F) : List F :=
  let n := frame.length
  if n < 2 then frame
  else
    (List.range n).foldl
      (fun (frame : List F) (i : Nat) =>
        let idx : F := (i : F)
        let denom : F := ((n - 1 : Nat) : F)
        frame.set i (frame.getD i 0 * (54 / 100 - 46 / 100 * CMath.cos (2 * PI * idx / denom))))
      frame

/-! ## Mel filterbank (lines 96-143) -/

/-- Source: `double hz_to_mel(double hz)`. -/
def hz_to_mel [CMath F] (hz : F) : F := 2595 * CMath.log10 (1 + hz / 700)

/-- Source: `double mel_to_hz(double mel)`. -/
def mel_to_hz [CMath F] (mel : F) : F := 700 * (CMath.pow 10 (mel / 2595) - 1)

/-- The vector `bin` of `create_mel_filterbanks` (lines 106-121): the FFT bin of
each of the `num_filters + 2` equally spaced mel points. -/
def mel_bins [CMath F] [FloorRing F] (num_filters fft_size sample_rate : Int) : List Int :=
  let low_freq_mel : F := 0
  let high_freq_mel : F := hz_to_mel ((sample_rate : F) / 2)
  let mel_points : List F := (List.range (num_filters + 2).toNat).map
    (fun (i : Nat) =>
      low_freq_mel + (high_freq_mel - low_freq_mel) * (i : F) / ((num_filters + 1 : Int) : F))
  let hz_points : List F := (List.range (num_filters + 2).toNat).map
    (fun i => mel_to_hz (mel_points.getD i 0))
  (List.range (num_filters + 2).toNat).map
    (fun i => Int.floor (((fft_size : F) + 1) * hz_points.getD i 0 / (sample_rate : F)))

/-- The clamped boundaries `(start, center, end)` of filter `m` (lines 127-133). -/
def mel_bounds (bin : List Int) (m : Nat) : Int × Int × Int :=
  let start := bin.getD (m - 1) 0
  let center := bin.getD m 0
  let end_ := bin.getD (m + 1) 0
  let start := max 0 start
  let center := max start center
  let end_ := max center end_
  (start, center, end_)

/-- Write `filters[m][k] = v`. -/
def setWeight (filters : List (List F)) (m k : Nat) (v : F) : List (List F) :=
  filters.set m ((filters.getD m []).set k v)

/-- The body of the loop over `m` (lines 127-140): the rising and the falling
edge of filter `m`; `k` runs over `[start, min(center, half))` and then over
`[center, min(end, half))`. -/
def mel_filter_edges (bin : List Int) (half : Nat) (filters : List (List F)) (m : Nat) :
    List (List F) :=
  let start := (mel_bounds bin m).1
  let center := (mel_bounds bin m).2.1
  let end_ := (mel_bounds bin m).2.2
  let filters := ((List.range (min center (half : Int) - start).toNat).map
      (fun (d : Nat) => start + (d : Int))).foldl
    (fun (filters : List (List F)) (k : Int) =>
      setWeight filters (m - 1) k.toNat
        (((k : F) - (start : F)) / (((center - start : Int) : F) + 1 / 1000000000000)))
    filters
  ((List.range (min end_ (half : Int) - center).toNat).map
      (fun (d : Nat) => center + (d : Int))).foldl
    (fun (filters : List (List F)) (k : Int) =>
      setWeight filters (m - 1) k.toNat
        (((end_ : F) - (k : F)) / (((end_ - center : Int) : F) + 1 / 1000000000000)))
    filters

/-- Source: `create_mel_filterbanks(int num_filters, int fft_size, int sample_rate)`. -/
def create_mel_filterbanks [CMath F] [FloorRing F] (num_filters fft_size sample_rate : Int) :
    List (List F) :=
  let bin := mel_bins (F := F) num_filters fft_size sample_rate
  let half : Nat := (Int.tdiv fft_size 2 + 1).toNat
  let filters : List (List F) := List.replicate num_filters.toNat (List.replicate half 0)
  (List.range' 1 num_filters.toNat).foldl (mel_filter_edges bin half) filters

/-! ## Cepstral extraction (lines 146-180) -/

/-- Source: `apply_mel_filters(power, filterbanks)`. -/
def apply_mel_filters [CMath F] (power : List F) (filterbanks : List (List F)) : List F :=
  let pw_size := power.length
  filterbanks.map (fun filt =>
    let filt_size := filt.length
    let lim := min pw_size filt_size
    let acc : F := (List.range lim).foldl (fun acc k => acc + power.getD k 0 * filt.getD k 0) 0
    if acc > 0 then CMath.log acc else CMath.log (1 / 10000000000))

/-- Source: `std::vector<float> dct(const std::vector<double>& mel_energies)`. -/
def dct [CMath F] (mel_energies : List F) : List F :=
  let num_mfcc : Nat := 13
  let num_filters := mel_energies.length
  let mfcc : List F := List.replicate num_mfcc 0
  if num_filters = 0 then mfcc
  else
    (List.range num_mfcc).foldl
      (fun (mfcc : List F) (k : Nat) =>
        let sum : F := (List.range num_filters).foldl
          (fun (sum : F) (m : Nat) =>
            sum + mel_energies.getD m 0 *
              CMath.cos (PI * (k : F) * ((m : F) + 1 / 2) / (num_filters : F))) 0
        mfcc.set k sum)
      mfcc

/-! ## Voice activity detection (lines 183-202) -/

/-- The conversion `static_cast<float>(x)` of a `double` (line 189): IEEE 754
rounding to the nearest binary32 value, ties to even.  A binary32 value is an
integer multiple of `2 ^ (e - 23)`, where `e` is the binary exponent of `x`,
at least `-126`.  The overflow to infinity of values beyond the `float` range
is not represented. -/
def static_cast_float [FloorRing F] (x : F) : F :=
  let e : Int := max (Int.log 2 |x|) (-126)
  let ulp : F := (2 : F) ^ (e - 23)
  let q : F := x / ulp
  let lo : Int := Int.floor q
  let r : Int :=
    if q - (lo : F) < 1 / 2 then lo
    else if 1 / 2 < q - (lo : F) then lo + 1
    else if lo % 2 = 0 then lo
    else lo + 1
  (r : F) * ulp

/-- Source: `float compute_energy(const std::vector<float>& frame)`.  The sum
and the quotient are `double` operations on squares of `float` values and are
taken as exact; the result is converted to `float`. -/
def compute_energy [FloorRing F] (frame : List F) : F :=
  if frame.isEmpty then 0
  else
    let energy : F := frame.foldl (fun energy sample => energy + sample * sample) 0
    static_cast_float (energy / (frame.length : F))

/-- Source: `float compute_zcr(const std::vector<float>& frame)`. -/
def compute_zcr (frame : List F) : F :=
  if frame.length < 2 then 0
  else
    let zcr : Nat := (List.range' 1 (frame.length - 1)).foldl
      (fun zcr i =>
        if (frame.getD i 0 ≥ 0 ∧ frame.getD (i - 1) 0 < 0) ∨
            (frame.getD i 0 < 0 ∧ frame.getD (i - 1) 0 ≥ 0) then zcr + 1
        else zcr) 0
    (zcr : F) / (frame.length : F)

/-! ## MFCC extraction (lines 240-299) -/

/-- Source: `Java_com_example_mkproject_javaPackages_MantraRecognizer_extractMFCC`. -/
def extractMFCC [CMath F] [FloorRing F] (audioData : List F) : List F :=
  if audioData.length ≤ 0 then []
  else
    let frame := audioData
    let energy := compute_energy frame
    let zcr := compute_zcr frame
    if energy < ENERGY_THRESHOLD ∨ zcr < ZCR_THRESHOLD then []
    else
      let frame := pre_emphasis frame
      let frame := hamming_window frame
      let power := power_spectrum frame
      if power.isEmpty then []
      else
        let fft_size_for_filters : Int := (power.length : Int) * 2 - 2
        let fft_size_for_filters : Int :=
          if fft_size_for_filters < 2 then 2 else fft_size_for_filters
        let filterbanks : List (List F) :=
          create_mel_filterbanks 40 fft_size_for_filters SAMPLE_RATE
        let mel_energies := apply_mel_filters power filterbanks
        let mfcc := dct mel_energies
        if !mfcc.isEmpty ∧ mfcc.getD 0 0 ≤ C0_SILENCE_THRESHOLD then []
        else mfcc

end Pipeline

/-! ## Definitions used to state and prove the properties -/

section ProofDefs

variable {F : Type} [LinearOrderedField F]

/-- The cost of aligning frame `i` of the first sequence with frame `j` of the
second (line 368), with the 1-based indices of the DTW table. -/
def dtw_cost [CMath F] (seq1 seq2 : List (List F)) (i j : Nat) : F :=
  1 - cosineSimilarity (seq1.getD (i - 1) []) (seq2.getD (j - 1) [])

/-- The DTW recurrence as a recursive function of the cell. -/
def dtw_rec (cost : Nat → Nat → F) : Nat → Nat → WithTop F
  | 0, 0 => 0
  | 0, _ + 1 => ⊤
  | _ + 1, 0 => ⊤
  | i + 1, j + 1 =>
    (cost (i + 1) (j + 1) : WithTop F) +
      min (dtw_rec cost i (j + 1)) (min (dtw_rec cost (i + 1) j) (dtw_rec cost i j))

/-- A table with `R` rows of `C` cells each. -/
def TableShape (dp : List (List (WithTop F))) (R C : Nat) : Prop :=
  dp.length = R ∧ ∀ i, i < R → (dp.getD i []).length = C

/-- The part of the table that is final when the loops are at row `i`, column
`j`: row `0`, column `0`, the rows above `i`, and row `i` left of `j`. -/
def Filled (i j a b : Nat) : Prop := a = 0 ∨ b = 0 ∨ a < i ∨ (a = i ∧ b < j)

/-- Loop invariant of the DTW loops: the table has its shape and every final
cell holds the value of the recurrence. -/
def DtwInv (cost : Nat → Nat → F) (R C i j : Nat) (dp : List (List (WithTop F))) : Prop :=
  TableShape dp R C ∧
    ∀ a b, a < R → b < C → Filled i j a b → get2 dp a b = dtw_rec cost a b

/-- The dot product of two vectors. -/
def dot_product (v w : List F) : F := (List.zipWith (fun x y => x * y) v w).sum

/-- The squared Euclidean norm of a vector. -/
def sq_norm (v : List F) : F := (v.map (fun x => x * x)).sum

/-- The warping paths from cell `(1, 1)`: `WarpingPath i j p` says that `p` is a
list of cells that starts at `(1, 1)`, ends at `(i, j)`, and moves from each
cell to the next by `(1, 0)`, `(0, 1)` or `(1, 1)`. -/
inductive WarpingPath : Nat → Nat → List (Nat × Nat) → Prop
  | start : WarpingPath 1 1 [(1, 1)]
  | down {i j : Nat} {p : List (Nat × Nat)} :
      WarpingPath i j p → WarpingPath (i + 1) j (p ++ [(i + 1, j)])
  | right {i j : Nat} {p : List (Nat × Nat)} :
      WarpingPath i j p → WarpingPath i (j + 1) (p ++ [(i, j + 1)])
  | diag {i j : Nat} {p : List (Nat × Nat)} :
      WarpingPath i j p → WarpingPath (i + 1) (j + 1) (p ++ [(i + 1, j + 1)])

/-- The sum of the cell costs along a path. -/
def path_cost (cost : Nat → Nat → F) (p : List (Nat × Nat)) : F :=
  (p.map (fun c => cost c.1 c.2)).sum

/-- The reversal of the low `s` bits of `t`, peeling the lowest bit of `t`: it
becomes bit `s - 1` of the result. -/
def brev : Nat → Nat → Nat
  | 0, _ => 0
  | s + 1, t => (t % 2) * 2 ^ s + brev s (t / 2)

/-- The transform of size `2 ^ s` of the bit-reversed values `g (brev s t)`, with
`ω s` as the root of unity of order `2 ^ s`: what a block of `2 ^ s` cells holds
after the stage `len = 2 ^ s` of `fft`, when `g` is the block after the
bit-reversal pass. -/
def dft_rev {K : Type} [CommRing K] (ω : Nat → K) (s : Nat) (g : Nat → K) (k : Nat) : K :=
  Finset.sum (Finset.range (2 ^ s)) (fun t => g (brev s t) * ω s ^ (k * t))

/-- A `cd` value over the reals as a complex number. -/
def toC (z : cd ℝ) : ℂ := ⟨z.re, z.im⟩

/-- The complex root of unity `exp (2 π i / 2 ^ s)` of order `2 ^ s`. -/
noncomputable def root_of_unity (s : Nat) : ℂ :=
  Complex.exp (2 * (Real.pi : ℂ) * Complex.I / (2 : ℂ) ^ s)

/-- Loop invariant of the stage loop of `fft` on a vector of `2 ^ L` cells whose
values after the bit-reversal pass were `A0`: after the stage `len = 2 ^ s`,
every block of `2 ^ s` cells holds the transform `dft_rev` of its initial
content. -/
def StageInv (L s : Nat) (A0 : Nat → ℂ) (a : List (cd ℝ)) : Prop :=
  a.length = 2 ^ L ∧
    ∀ B k, B < 2 ^ (L - s) → k < 2 ^ s →
      toC (a.getD (B * 2 ^ s + k) cd.zero) =
        dft_rev root_of_unity s (fun t => A0 (B * 2 ^ s + t)) k

/-- The frame `[1, NaN, 0, ..., 0]` of 13 values. -/
def nan_frame : List (FloatVal F) :=
  [.fin 1, .nan, .fin 0, .fin 0, .fin 0, .fin 0, .fin 0, .fin 0, .fin 0, .fin 0, .fin 0,
    .fin 0, .fin 0]

/-- The frame `[1, 0, ..., 0]` of 13 values. -/
def unit_frame : List (FloatVal F) :=
  [.fin 1, .fin 0, .fin 0, .fin 0, .fin 0, .fin 0, .fin 0, .fin 0, .fin 0, .fin 0, .fin 0,
    .fin 0, .fin 0]

end ProofDefs

/-! ## Lemmas -/

set_option linter.unusedSectionVars false

section Lemmas

variable {F : Type} [LinearOrderedField F]

/-- Loop invariant rule for a counted loop over `[s, s + n)`. -/
theorem foldl_range'_inv {α : Type} (P : Nat → α → Prop) (f : α → Nat → α) :
    ∀ (n s : Nat) (a : α), P s a →
      (∀ k x, s ≤ k → k < s + n → P k x → P (k + 1) (f x k)) →
      P (s + n) ((List.range' s n).foldl f a) := by
  intro n
  induction n with
  | zero => intro s a h0 _; simpa using h0
  | succ n ih =>
    intro s a h0 hstep
    rw [List.range'_succ, List.foldl_cons]
    have h1 : P (s + 1) (f a s) := hstep s a (le_refl s) (by omega) h0
    have := ih (s + 1) (f a s) h1 (fun k x hk hk2 hp => hstep k x (by omega) (by omega) hp)
    have e : s + 1 + n = s + (n + 1) := by omega
    rw [e] at this
    exact this

/-- Loop invariant rule for a counted loop over `[0, n)`. -/
theorem foldl_range_inv {α : Type} (P : Nat → α → Prop) (f : α → Nat → α)
    (n : Nat) (a : α) (h0 : P 0 a)
    (hstep : ∀ k x, k < n → P k x → P (k + 1) (f x k)) :
    P n ((List.range n).foldl f a) := by
  have := foldl_range'_inv P f n 0 a h0 (fun k x _ hk hp => hstep k x (by omega) hp)
  rw [List.range_eq_range']
  simpa using this

/-- Reading index `j` after writing index `i` of a list. -/
theorem getD_set_eq {α : Type} (l : List α) (i j : Nat) (v d : α) :
    (l.set i v).getD j d = if i = j ∧ i < l.length then v else l.getD j d := by
  simp only [List.getD_eq_getElem?_getD, List.getElem?_set]
  by_cases h : i = j
  · subst h
    by_cases h2 : i < l.length
    · simp [h2]
    · simp [h2]
      have : l[i]? = none := by simp; omega
      simp [this]
  · simp [h]

/-- Writing a cell keeps the shape of the table. -/
theorem tableShape_set2 (dp : List (List (WithTop F))) (R C i j : Nat) (v : WithTop F)
    (h : TableShape dp R C) : TableShape (set2 dp i j v) R C := by
  obtain ⟨h1, h2⟩ := h
  refine ⟨by simp [set2, h1], ?_⟩
  intro a ha
  unfold set2
  rw [getD_set_eq]
  split
  · rename_i hc
    rw [List.length_set]
    exact h2 i (by omega)
  · exact h2 a ha

/-- Reading cell `(a, b)` after writing cell `(i, j)` of a table. -/
theorem get2_set2 (dp : List (List (WithTop F))) (R C i j a b : Nat) (v : WithTop F)
    (h : TableShape dp R C) (hi : i < R) (hj : j < C) :
    get2 (set2 dp i j v) a b = if a = i ∧ b = j then v else get2 dp a b := by
  obtain ⟨h1, h2⟩ := h
  unfold get2 set2
  rw [getD_set_eq]
  by_cases ha : i = a
  · subst ha
    have hl : i < dp.length := by omega
    simp only [hl, and_self, if_true, true_and]
    rw [getD_set_eq, h2 i hi]
    by_cases hb : j = b
    · subst hb; simp [hj]
    · have : ¬ b = j := fun e => hb e.symm
      simp [hb, this]
  · have : ¬ a = i := fun e => ha e.symm
    simp [ha, this]

/-- The initial DTW table has `R` rows of `C` cells. -/
theorem tableShape_init (R C : Nat) :
    TableShape (set2 (List.replicate R (List.replicate C (⊤ : WithTop F))) 0 0 0) R C := by
  apply tableShape_set2
  refine ⟨by simp, ?_⟩
  intro i hi
  simp [List.getD_eq_getElem?_getD, List.getElem?_replicate, hi]

/-- Every cell of the freshly allocated table is `+infinity`. -/
theorem get2_replicate (R C a b : Nat) :
    get2 (List.replicate R (List.replicate C (⊤ : WithTop F))) a b = ⊤ := by
  unfold get2
  simp only [List.getD_eq_getElem?_getD, List.getElem?_replicate]
  split <;> simp

/-- The invariant holds when the loops start: row `0` and column `0` are final. -/
theorem dtwInv_init (cost : Nat → Nat → F) (R C : Nat) (hR : 0 < R) (hC : 0 < C) :
    DtwInv cost R C 1 1 (set2 (List.replicate R (List.replicate C (⊤ : WithTop F))) 0 0 0) := by
  refine ⟨tableShape_init R C, ?_⟩
  intro a b ha hb hf
  have hs : TableShape (List.replicate R (List.replicate C (⊤ : WithTop F))) R C := by
    refine ⟨by simp, ?_⟩
    intro i hi
    simp [List.getD_eq_getElem?_getD, List.getElem?_replicate, hi]
  rw [get2_set2 _ R C 0 0 a b 0 hs hR hC, get2_replicate]
  unfold Filled at hf
  rcases a with _ | a
  · rcases b with _ | b
    · simp [dtw_rec]
    · simp [dtw_rec]
  · rcases b with _ | b
    · simp [dtw_rec]
    · omega

/-- One iteration of the inner loop keeps the invariant. -/
theorem dtwInv_cell [CMath F] (seq1 seq2 : List (List F)) (R C i j : Nat)
    (dp : List (List (WithTop F))) (hi : 1 ≤ i) (hiR : i < R) (hj : 1 ≤ j) (hjC : j < C)
    (h : DtwInv (dtw_cost seq1 seq2) R C i j dp) :
    DtwInv (dtw_cost seq1 seq2) R C i (j + 1) (dtw_cell seq1 seq2 i dp j) := by
  obtain ⟨hs, hv⟩ := h
  refine ⟨tableShape_set2 _ _ _ _ _ _ hs, ?_⟩
  intro a b ha hb hf
  unfold dtw_cell
  simp only []
  rw [get2_set2 _ R C i j a b _ hs hiR hjC]
  by_cases hc : a = i ∧ b = j
  · obtain ⟨rfl, rfl⟩ := hc
    simp only [and_self, if_true]
    rw [hv (a - 1) b (by omega) hb (by unfold Filled; omega),
      hv a (b - 1) ha (by omega) (by unfold Filled; omega),
      hv (a - 1) (b - 1) (by omega) (by omega) (by unfold Filled; omega)]
    obtain ⟨a, rfl⟩ : ∃ a', a = a' + 1 := ⟨a - 1, by omega⟩
    obtain ⟨b, rfl⟩ : ∃ b', b = b' + 1 := ⟨b - 1, by omega⟩
    simp [dtw_rec, dtw_cost]
  · rw [if_neg hc]
    apply hv a b ha hb
    unfold Filled at hf ⊢
    omega

/-- One iteration of the outer loop keeps the invariant. -/
theorem dtwInv_row [CMath F] (seq1 seq2 : List (List F)) (R C i : Nat)
    (dp : List (List (WithTop F))) (hi : 1 ≤ i) (hiR : i < R) (hC : 0 < C)
    (h : DtwInv (dtw_cost seq1 seq2) R C i 1 dp) :
    DtwInv (dtw_cost seq1 seq2) R C (i + 1) 1
      ((List.range' 1 (C - 1)).foldl (dtw_cell seq1 seq2 i) dp) := by
  have key := foldl_range'_inv (fun j dp => DtwInv (dtw_cost seq1 seq2) R C i j dp)
    (dtw_cell seq1 seq2 i) (C - 1) 1 dp h
    (fun k x hk hk2 hp => dtwInv_cell seq1 seq2 R C i k x hi hiR hk (by omega) hp)
  obtain ⟨hs, hv⟩ := key
  refine ⟨hs, ?_⟩
  intro a b ha hb hf
  apply hv a b ha hb
  unfold Filled at hf ⊢
  omega

/-- Every cell of the table built by the loops of `computeDTW` holds the value of the
recurrence `dtw_rec`. -/
theorem dtw_table_spec [CMath F] (seq1 seq2 : List (List F)) (a b : Nat)
    (ha : a ≤ seq1.length) (hb : b ≤ seq2.length) :
    get2 (dtw_table seq1 seq2) a b = dtw_rec (dtw_cost seq1 seq2) a b := by
  unfold dtw_table
  simp only [Nat.add_sub_cancel]
  have key := foldl_range'_inv
    (fun i dp => DtwInv (dtw_cost seq1 seq2) (seq1.length + 1) (seq2.length + 1) i 1 dp)
    (fun dp i => (List.range' 1 (seq2.length + 1 - 1)).foldl (dtw_cell seq1 seq2 i) dp)
    seq1.length 1 _ (dtwInv_init _ _ _ (by omega) (by omega))
    (fun k x hk hk2 hp => dtwInv_row seq1 seq2 _ _ k x hk (by omega) (by omega) hp)
  simp only [Nat.add_sub_cancel] at key
  apply key.2 a b (by omega) (by omega)
  unfold Filled
  omega

/-- The three sums of `cosineSimilarity` with the arguments exchanged. -/
theorem cosineSimilarity_sums_swap (vec1 vec2 : List F) (h : vec1.length = vec2.length) :
    (cosineSimilarity_sums vec2 vec1).1 = (cosineSimilarity_sums vec1 vec2).1 ∧
    (cosineSimilarity_sums vec2 vec1).2.1 = (cosineSimilarity_sums vec1 vec2).2.2 ∧
    (cosineSimilarity_sums vec2 vec1).2.2 = (cosineSimilarity_sums vec1 vec2).2.1 := by
  unfold cosineSimilarity_sums
  rw [← h]
  have : ∀ (l : List Nat) (s t : F × F × F), t.1 = s.1 → t.2.1 = s.2.2 → t.2.2 = s.2.1 →
      (l.foldl (fun (s : F × F × F) (i : Nat) =>
        (s.1 + vec2.getD i 0 * vec1.getD i 0, s.2.1 + vec2.getD i 0 * vec2.getD i 0,
          s.2.2 + vec1.getD i 0 * vec1.getD i 0)) t).1 =
      (l.foldl (fun (s : F × F × F) (i : Nat) =>
        (s.1 + vec1.getD i 0 * vec2.getD i 0, s.2.1 + vec1.getD i 0 * vec1.getD i 0,
          s.2.2 + vec2.getD i 0 * vec2.getD i 0)) s).1 ∧
      (l.foldl (fun (s : F × F × F) (i : Nat) =>
        (s.1 + vec2.getD i 0 * vec1.getD i 0, s.2.1 + vec2.getD i 0 * vec2.getD i 0,
          s.2.2 + vec1.getD i 0 * vec1.getD i 0)) t).2.1 =
      (l.foldl (fun (s : F × F × F) (i : Nat) =>
        (s.1 + vec1.getD i 0 * vec2.getD i 0, s.2.1 + vec1.getD i 0 * vec1.getD i 0,
          s.2.2 + vec2.getD i 0 * vec2.getD i 0)) s).2.2 ∧
      (l.foldl (fun (s : F × F × F) (i : Nat) =>
        (s.1 + vec2.getD i 0 * vec1.getD i 0, s.2.1 + vec2.getD i 0 * vec2.getD i 0,
          s.2.2 + vec1.getD i 0 * vec1.getD i 0)) t).2.2 =
      (l.foldl (fun (s : F × F × F) (i : Nat) =>
        (s.1 + vec1.getD i 0 * vec2.getD i 0, s.2.1 + vec1.getD i 0 * vec1.getD i 0,
          s.2.2 + vec2.getD i 0 * vec2.getD i 0)) s).2.1 := by
    intro l
    induction l with
    | nil => intro s t h1 h2 h3; exact ⟨h1, h2, h3⟩
    | cons i l ih =>
      intro s t h1 h2 h3
      simp only [List.foldl_cons]
      apply ih
      · simp [h1, mul_comm]
      · simp [h2]
      · simp [h3]
  exact this _ (0, 0, 0) (0, 0, 0) rfl rfl rfl

/-- The function `cosineSimilarity` is commutative. -/
theorem cosineSimilarity_comm [CMath F] (vec1 vec2 : List F) :
    cosineSimilarity vec1 vec2 = cosineSimilarity vec2 vec1 := by
  unfold cosineSimilarity
  by_cases h : vec1.length = vec2.length
  · obtain ⟨h1, h2, h3⟩ := cosineSimilarity_sums_swap vec1 vec2 h
    have hemp : vec2.isEmpty = vec1.isEmpty := by
      cases vec1 <;> cases vec2 <;> simp_all
    simp only [h1, h2, h3, hemp, h]
    rw [mul_comm (CMath.sqrt (cosineSimilarity_sums vec1 vec2).2.2)]
    simp only [and_comm]
  · have h' : ¬ vec2.length = vec1.length := fun e => h e.symm
    simp [h, h']

/-- The three sums of `cosineSimilarity` of a vector with itself coincide and
are non-negative. -/
theorem cosineSimilarity_sums_self (vec : List F) :
    (cosineSimilarity_sums vec vec).1 = (cosineSimilarity_sums vec vec).2.1 ∧
    (cosineSimilarity_sums vec vec).2.2 = (cosineSimilarity_sums vec vec).2.1 ∧
    0 ≤ (cosineSimilarity_sums vec vec).2.1 := by
  unfold cosineSimilarity_sums
  apply foldl_range_inv (fun _ (s : F × F × F) => s.1 = s.2.1 ∧ s.2.2 = s.2.1 ∧ 0 ≤ s.2.1)
  · simp
  · intro k x _ hx
    obtain ⟨h1, h2, h3⟩ := hx
    refine ⟨by simp [h1], by simp [h2], ?_⟩
    have := mul_self_nonneg (vec.getD k 0)
    simp only []
    linarith

/-- With a square root inverse to squaring on the non-negative numbers, the cosine
similarity of a non-empty vector with itself is `1`. -/
theorem cosineSimilarity_self [CMath F]
    (hsqrt : ∀ x : F, 0 ≤ x → CMath.sqrt x * CMath.sqrt x = x)
    (vec : List F) (hne : vec ≠ []) : cosineSimilarity vec vec = 1 := by
  obtain ⟨h1, h2, h3⟩ := cosineSimilarity_sums_self vec
  unfold cosineSimilarity
  have hemp : vec.isEmpty = false := by cases vec <;> simp_all
  simp only [hemp, h1, h2, hsqrt _ h3]
  simp only [ne_eq, not_true_eq_false, Bool.false_eq_true, or_self, if_false, and_self]
  split
  · rfl
  · rename_i hge
    have : (cosineSimilarity_sums vec vec).2.1 ≠ 0 := by
      intro e
      rw [e] at hge
      norm_num at hge
    exact div_self this

/-- Transposing the cost transposes the recurrence. -/
theorem dtw_rec_transpose (cost : Nat → Nat → F) :
    ∀ i j, dtw_rec (fun a b => cost b a) j i = dtw_rec cost i j := by
  intro i
  induction i with
  | zero =>
    intro j
    cases j <;> simp [dtw_rec]
  | succ i ihi =>
    intro j
    induction j with
    | zero => simp [dtw_rec]
    | succ j ihj =>
      simp only [dtw_rec]
      rw [ihi (j + 1), ihi j, ihj]
      congr 1
      rw [min_left_comm, min_comm (dtw_rec cost (i + 1) j)]

/-- Every cell of the recurrence off row `0` and column `0` is finite. -/
theorem dtw_rec_finite (cost : Nat → Nat → F) :
    ∀ i j, dtw_rec cost (i + 1) (j + 1) ≠ ⊤ := by
  intro i
  induction i with
  | zero =>
    intro j
    induction j with
    | zero => simp [dtw_rec]
    | succ j ihj =>
      rw [dtw_rec]
      simp only [ne_eq, WithTop.add_eq_top, WithTop.coe_ne_top, min_eq_top, false_or, not_and]
      intro _ h
      exact absurd h ihj
  | succ i ihi =>
    intro j
    rw [dtw_rec]
    simp only [ne_eq, WithTop.add_eq_top, WithTop.coe_ne_top, min_eq_top, false_or, not_and]
    intro h
    exact absurd h (ihi j)

/-- With non-positive diagonal costs the diagonal cells are non-positive. -/
theorem dtw_rec_diag_nonpos (cost : Nat → Nat → F) (n : Nat)
    (h : ∀ i, 1 ≤ i → i ≤ n → cost i i ≤ 0) :
    ∀ i, i ≤ n → dtw_rec cost i i ≤ 0 := by
  intro i
  induction i with
  | zero => intro _; simp [dtw_rec]
  | succ i ih =>
    intro hi
    rw [dtw_rec]
    have h1 : ((cost (i + 1) (i + 1) : F) : WithTop F) ≤ 0 := by
      exact_mod_cast h (i + 1) (by omega) hi
    have h2 : min (dtw_rec cost i (i + 1)) (min (dtw_rec cost (i + 1) i) (dtw_rec cost i i)) ≤ 0 :=
      le_trans (le_trans (min_le_right _ _) (min_le_right _ _)) (ih (by omega))
    calc _ ≤ (0 : WithTop F) + 0 := add_le_add h1 h2
      _ = 0 := by simp

/-- The score of a finite final cell when the denominator exceeds `1e-6`. -/
theorem dtw_similarity_coe (d denom_val : F) (R C : Nat) (h : 1 / 1000000 < denom_val) :
    dtw_similarity (d : WithTop F) denom_val R C = max 0 (min 1 (1 - d / denom_val)) := by
  show dtw_similarity (some d) denom_val R C = _
  simp only [dtw_similarity]
  rw [if_pos h]

/-- The score lies in `[0, 1]`. -/
theorem dtw_similarity_range (cell : WithTop F) (denom_val : F) (R C : Nat) :
    0 ≤ dtw_similarity cell denom_val R C ∧ dtw_similarity cell denom_val R C ≤ 1 := by
  cases cell using Option.rec with
  | none => simp [dtw_similarity]
  | some d =>
    simp only [dtw_similarity]
    exact ⟨le_max_left _ _, max_le zero_le_one (min_le_left _ _)⟩

/-- The index `start` lies inside a non-empty sequence. -/
theorem trim_silence_start_lt (mfcc_seq : List (List F)) (h : mfcc_seq ≠ []) :
    trim_silence_start mfcc_seq < mfcc_seq.length := by
  unfold trim_silence_start
  have hpos : 0 < mfcc_seq.length := List.length_pos.mpr h
  cases hf : (List.range mfcc_seq.length).find?
      (fun i => exceeds_c0_threshold (mfcc_seq.getD i [])) with
  | none => simpa using hpos
  | some s =>
    have := List.mem_of_find?_eq_some hf
    simpa using this

/-- The index `end` lies strictly above `start` and within the sequence. -/
theorem trim_silence_end_bounds (mfcc_seq : List (List F)) (start : Nat)
    (h : start < mfcc_seq.length) :
    start < trim_silence_end mfcc_seq start ∧
      trim_silence_end mfcc_seq start ≤ mfcc_seq.length := by
  unfold trim_silence_end
  cases hf : (List.range' (start + 1) (mfcc_seq.length - start)).reverse.find?
      (fun i => exceeds_c0_threshold (mfcc_seq.getD (i - 1) [])) with
  | none => simp; omega
  | some e =>
    have := List.mem_of_find?_eq_some hf
    simp [List.mem_range'] at this
    simp
    omega

/-- On a non-empty sequence `trim_silence` returns the range `[start, end)`. -/
theorem trim_silence_eq (mfcc_seq : List (List F)) (h : mfcc_seq ≠ []) :
    trim_silence mfcc_seq =
      (mfcc_seq.drop (trim_silence_start mfcc_seq)).take
        (trim_silence_end mfcc_seq (trim_silence_start mfcc_seq) -
          trim_silence_start mfcc_seq) := by
  have h1 := trim_silence_start_lt mfcc_seq h
  have h2 := trim_silence_end_bounds mfcc_seq _ h1
  unfold trim_silence
  have hemp : mfcc_seq.isEmpty = false := by cases mfcc_seq <;> simp_all
  simp only [hemp, Bool.false_eq_true, if_false]
  rw [if_neg (by omega)]

/-- On a non-empty sequence `trim_silence` returns a non-empty sequence. -/
theorem trim_silence_ne_nil (mfcc_seq : List (List F)) (h : mfcc_seq ≠ []) :
    trim_silence mfcc_seq ≠ [] := by
  have h1 := trim_silence_start_lt mfcc_seq h
  have h2 := trim_silence_end_bounds mfcc_seq _ h1
  rw [trim_silence_eq mfcc_seq h]
  intro e
  have := congrArg List.length e
  simp at this
  omega

/-- Every frame of the trimmed sequence is a frame of the input. -/
theorem mem_of_mem_trim_silence (mfcc_seq : List (List F)) (frame : List F)
    (h : frame ∈ trim_silence mfcc_seq) : frame ∈ mfcc_seq := by
  unfold trim_silence at h
  split at h
  · simp at h
  · simp only [] at h
    split at h
    · simp at h
    · exact List.mem_of_mem_drop (List.mem_of_mem_take h)

/-- The frame-copy loop succeeds when every frame has 13 coefficients. -/
theorem readFrames_eq_some (seq : List (List F)) (h : ∀ frame ∈ seq, frame.length = 13) :
    readFrames seq = some seq := by
  induction seq with
  | nil => rfl
  | cons frame rest ih =>
    have h1 : frame.length = 13 := h frame (by simp)
    have h2 := ih (fun f hf => h f (by simp [hf]))
    simp [readFrames, h1, h2]

/-- The frame-copy loop fails when some frame does not have 13 coefficients. -/
theorem readFrames_eq_none (seq : List (List F)) (h : ∃ frame ∈ seq, frame.length ≠ 13) :
    readFrames seq = none := by
  induction seq with
  | nil => simp at h
  | cons frame rest ih =>
    by_cases h1 : frame.length = 13
    · have : ∃ f ∈ rest, f.length ≠ 13 := by
        obtain ⟨f, hf, hl⟩ := h
        simp at hf
        rcases hf with rfl | hf
        · exact absurd h1 hl
        · exact ⟨f, hf, hl⟩
      simp [readFrames, h1, ih this]
    · simp [readFrames, h1]

/-- When the frame-copy loop succeeds it returns its input, whose frames all have 13
coefficients. -/
theorem readFrames_some_eq (seq seq' : List (List F)) (h : readFrames seq = some seq') :
    seq' = seq ∧ ∀ frame ∈ seq, frame.length = 13 := by
  by_cases hall : ∀ frame ∈ seq, frame.length = 13
  · rw [readFrames_eq_some seq hall] at h
    exact ⟨(Option.some.inj h).symm, hall⟩
  · push_neg at hall
    rw [readFrames_eq_none seq hall] at h
    exact absurd h (by simp)

/-- The prefix of length `k + 1` is the prefix of length `k` followed by element `k`. -/
theorem take_succ_getD {α : Type} (l : List α) (k : Nat) (d : α) (h : k < l.length) :
    l.take (k + 1) = l.take k ++ [l.getD k d] := by
  rw [List.take_succ, List.getD_eq_getElem?_getD, List.getElem?_eq_getElem h]
  simp

/-- The three sums of `cosineSimilarity` are the dot product and the two squared
norms. -/
theorem cosineSimilarity_sums_eq (vec1 vec2 : List F) (h : vec1.length = vec2.length) :
    cosineSimilarity_sums vec1 vec2 = (dot_product vec1 vec2, sq_norm vec1, sq_norm vec2) := by
  unfold cosineSimilarity_sums
  have key := foldl_range_inv
    (fun k (s : F × F × F) =>
      s = (dot_product (vec1.take k) (vec2.take k), sq_norm (vec1.take k), sq_norm (vec2.take k)))
    (fun (s : F × F × F) (i : Nat) =>
      (s.1 + vec1.getD i 0 * vec2.getD i 0,
       s.2.1 + vec1.getD i 0 * vec1.getD i 0,
       s.2.2 + vec2.getD i 0 * vec2.getD i 0))
    vec1.length (0, 0, 0) (by simp [dot_product, sq_norm])
    (by
      intro k x hk hx
      rw [hx, take_succ_getD vec1 k 0 hk, take_succ_getD vec2 k 0 (by omega)]
      simp only [dot_product, sq_norm]
      rw [List.zipWith_append _ _ _ _ _ (by simp; omega)]
      simp)
  have key' : _ = _ := key
  have e2 : vec2.take vec1.length = vec2 := by rw [h, List.take_length]
  rw [key', List.take_length, e2]

/-- A squared norm is non-negative. -/
theorem sq_norm_nonneg (v : List F) : 0 ≤ sq_norm v := by
  unfold sq_norm
  apply List.sum_nonneg
  intro x hx
  simp only [List.mem_map] at hx
  obtain ⟨y, _, rfl⟩ := hx
  exact mul_self_nonneg y

/-- The induction step of the Cauchy-Schwarz inequality. -/
theorem cauchy_schwarz_step (a b d n1 n2 : F) (h : d * d ≤ n1 * n2) (h1 : 0 ≤ n1)
    (h2 : 0 ≤ n2) : (a * b + d) * (a * b + d) ≤ (a * a + n1) * (b * b + n2) := by
  have hX : 0 ≤ a * a * n2 + n1 * (b * b) :=
    add_nonneg (mul_nonneg (mul_self_nonneg a) h2) (mul_nonneg h1 (mul_self_nonneg b))
  have hsq : (2 * (a * b) * d) ^ 2 ≤ (a * a * n2 + n1 * (b * b)) ^ 2 := by
    have h3 := mul_le_mul_of_nonneg_left h (mul_self_nonneg (a * b))
    nlinarith [sq_nonneg (a * a * n2 - n1 * (b * b))]
  have hY := (abs_le_of_sq_le_sq' hsq hX).2
  nlinarith

/-- Cauchy-Schwarz for lists. -/
theorem dot_product_sq_le (v w : List F) :
    dot_product v w * dot_product v w ≤ sq_norm v * sq_norm w := by
  induction v generalizing w with
  | nil => simp [dot_product, sq_norm]
  | cons a v ih =>
    cases w with
    | nil => simp [dot_product, sq_norm]
    | cons b w =>
      have h := ih w
      have h1 := sq_norm_nonneg v
      have h2 := sq_norm_nonneg w
      have e1 : dot_product (a :: v) (b :: w) = a * b + dot_product v w := by
        simp [dot_product]
      have e2 : sq_norm (a :: v) = a * a + sq_norm v := by simp [sq_norm]
      have e3 : sq_norm (b :: w) = b * b + sq_norm w := by simp [sq_norm]
      rw [e1, e2, e3]
      exact cauchy_schwarz_step a b _ _ _ h h1 h2

/-- With a square root that is non-negative and inverts squaring on the
non-negative numbers, `cosineSimilarity` lies in `[-1, 1]`. -/
theorem cosineSimilarity_abs_le_one [CMath F]
    (hsqrt : ∀ x : F, 0 ≤ x → 0 ≤ CMath.sqrt x ∧ CMath.sqrt x * CMath.sqrt x = x)
    (vec1 vec2 : List F) :
    -1 ≤ cosineSimilarity vec1 vec2 ∧ cosineSimilarity vec1 vec2 ≤ 1 := by
  unfold cosineSimilarity
  split
  · constructor <;> norm_num
  · rename_i hc
    have hlen : vec1.length = vec2.length := by
      by_contra hne
      exact hc (Or.inl hne)
    rw [cosineSimilarity_sums_eq vec1 vec2 hlen]
    simp only []
    split
    · split <;> constructor <;> norm_num
    · rename_i hden
      obtain ⟨s1, e1⟩ := hsqrt _ (sq_norm_nonneg vec1)
      obtain ⟨s2, e2⟩ := hsqrt _ (sq_norm_nonneg vec2)
      have hpos : 0 < CMath.sqrt (sq_norm vec1) * CMath.sqrt (sq_norm vec2) := by
        have : (0 : F) < 1 / 1000000000 := by norm_num
        exact lt_of_lt_of_le this (not_lt.mp hden)
      have hcs := dot_product_sq_le vec1 vec2
      have hsq : (dot_product vec1 vec2) ^ 2 ≤
          (CMath.sqrt (sq_norm vec1) * CMath.sqrt (sq_norm vec2)) ^ 2 := by
        calc (dot_product vec1 vec2) ^ 2 = dot_product vec1 vec2 * dot_product vec1 vec2 := sq _
          _ ≤ sq_norm vec1 * sq_norm vec2 := hcs
          _ = (CMath.sqrt (sq_norm vec1) * CMath.sqrt (sq_norm vec1)) *
                (CMath.sqrt (sq_norm vec2) * CMath.sqrt (sq_norm vec2)) := by rw [e1, e2]
          _ = _ := by ring
      have habs := abs_le_of_sq_le_sq' hsq hpos.le
      constructor
      · rw [le_div_iff₀ hpos]; linarith [habs.1]
      · rw [div_le_iff₀ hpos]; linarith [habs.2]

/-- With non-negative costs every cell of the recurrence is non-negative. -/
theorem dtw_rec_nonneg (cost : Nat → Nat → F) (h : ∀ i j, 0 ≤ cost i j) :
    ∀ i j, 0 ≤ dtw_rec cost i j := by
  intro i
  induction i with
  | zero => intro j; cases j <;> simp [dtw_rec]
  | succ i ihi =>
    intro j
    induction j with
    | zero => simp [dtw_rec]
    | succ j ihj =>
      rw [dtw_rec]
      have h1 : (0 : WithTop F) ≤ ((cost (i + 1) (j + 1) : F) : WithTop F) := by
        exact_mod_cast h (i + 1) (j + 1)
      exact add_nonneg h1 (le_min (ihi (j + 1)) (le_min ihj (ihi j)))

/-- When no frame passes the threshold test, `trim_silence` returns its input. -/
theorem trim_silence_all_silent (mfcc_seq : List (List F))
    (h : ∀ frame ∈ mfcc_seq, exceeds_c0_threshold frame = false) :
    trim_silence mfcc_seq = mfcc_seq := by
  by_cases hne : mfcc_seq = []
  · subst hne; rfl
  have hget : ∀ i, exceeds_c0_threshold (mfcc_seq.getD i []) = false := by
    intro i
    by_cases hi : i < mfcc_seq.length
    · apply h
      rw [List.getD_eq_getElem?_getD, List.getElem?_eq_getElem hi]
      simp
    · rw [List.getD_eq_getElem?_getD, List.getElem?_eq_none (by omega)]
      simp [exceeds_c0_threshold]
  have hs : trim_silence_start mfcc_seq = 0 := by
    unfold trim_silence_start
    rw [List.find?_eq_none.mpr (by intro x _; rw [hget x]; simp)]
    rfl
  have he : trim_silence_end mfcc_seq 0 = mfcc_seq.length := by
    unfold trim_silence_end
    rw [List.find?_eq_none.mpr (by intro x _; rw [hget (x - 1)]; simp)]
    rfl
  rw [trim_silence_eq mfcc_seq hne, hs, he]
  simp

/-- The score does not depend on the order of the two table dimensions. -/
theorem dtw_similarity_swap (cell : WithTop F) (denom_val : F) (R C : Nat) :
    dtw_similarity cell denom_val R C = dtw_similarity cell denom_val C R := by
  cases cell using Option.rec with
  | none => rfl
  | some d =>
    simp only [dtw_similarity]
    simp only [or_comm]

/-- Exchanging the sequences transposes the cost. -/
theorem dtw_cost_swap [CMath F] (seq1 seq2 : List (List F)) :
    (fun a b => dtw_cost seq1 seq2 b a) = dtw_cost seq2 seq1 := by
  funext a b
  unfold dtw_cost
  rw [cosineSimilarity_comm]

/-- Exchanging the sequences keeps the final cell of the DTW table. -/
theorem dtw_final_comm [CMath F] (seq1 seq2 : List (List F)) :
    get2 (dtw_table seq1 seq2) seq1.length seq2.length =
      get2 (dtw_table seq2 seq1) seq2.length seq1.length := by
  rw [dtw_table_spec seq1 seq2 _ _ (le_refl _) (le_refl _),
    dtw_table_spec seq2 seq1 _ _ (le_refl _) (le_refl _),
    ← dtw_rec_transpose (dtw_cost seq1 seq2), dtw_cost_swap]

/-- The function `dtw_score` is commutative. -/
theorem dtw_score_comm [CMath F] (seq1 seq2 : List (List F)) :
    dtw_score seq1 seq2 = dtw_score seq2 seq1 := by
  unfold dtw_score
  simp only [Nat.add_sub_cancel]
  rw [dtw_final_comm, dtw_similarity_swap, Nat.add_comm (trim_silence seq1).length]
  simp only [or_comm]

/-- The value of `dtw_score` when both trimmed sequences are non-empty. -/
theorem dtw_score_eq [CMath F] (seq1 seq2 : List (List F))
    (h1 : trim_silence seq1 ≠ []) (h2 : trim_silence seq2 ≠ []) :
    ∃ d : F,
      get2 (dtw_table (trim_silence seq1) (trim_silence seq2))
        (trim_silence seq1).length (trim_silence seq2).length = (d : WithTop F) ∧
      dtw_score seq1 seq2 =
        max 0 (min 1 (1 - d /
          (((trim_silence seq1).length + (trim_silence seq2).length : Nat) : F))) := by
  have hl1 : 0 < (trim_silence seq1).length := List.length_pos.mpr h1
  have hl2 : 0 < (trim_silence seq2).length := List.length_pos.mpr h2
  have hfin : get2 (dtw_table (trim_silence seq1) (trim_silence seq2))
      (trim_silence seq1).length (trim_silence seq2).length ≠ ⊤ := by
    rw [dtw_table_spec _ _ _ _ (le_refl _) (le_refl _)]
    obtain ⟨a, ha⟩ : ∃ a, (trim_silence seq1).length = a + 1 := ⟨_, (Nat.succ_pred_eq_of_pos hl1).symm⟩
    obtain ⟨b, hb⟩ : ∃ b, (trim_silence seq2).length = b + 1 := ⟨_, (Nat.succ_pred_eq_of_pos hl2).symm⟩
    rw [ha, hb]
    exact dtw_rec_finite _ a b
  obtain ⟨d, hd⟩ := WithTop.ne_top_iff_exists.mp hfin
  refine ⟨d, hd.symm, ?_⟩
  unfold dtw_score
  have e1 : (trim_silence seq1).isEmpty = false := by
    cases h : trim_silence seq1 <;> simp_all
  have e2 : (trim_silence seq2).isEmpty = false := by
    cases h : trim_silence seq2 <;> simp_all
  simp only [e1, e2, Bool.false_eq_true, or_self, if_false, Nat.add_sub_cancel]
  rw [← hd, dtw_similarity_coe]
  have : (2 : F) ≤ (((trim_silence seq1).length + (trim_silence seq2).length : Nat) : F) := by
    have : 2 ≤ (trim_silence seq1).length + (trim_silence seq2).length := by omega
    exact_mod_cast this
  linarith

/-- The value of `dtw_score` lies in `[0, 1]`. -/
theorem dtw_score_range [CMath F] (seq1 seq2 : List (List F)) :
    0 ≤ dtw_score seq1 seq2 ∧ dtw_score seq1 seq2 ≤ 1 := by
  unfold dtw_score
  simp only []
  split
  · simp
  · exact dtw_similarity_range _ _ _ _

/-- On valid input `computeDTW` is `dtw_score`. -/
theorem computeDTW_eq_dtw_score [CMath F] (A B : List (List F)) (hA : A ≠ []) (hB : B ≠ [])
    (h1 : ∀ frame ∈ A, frame.length = 13) (h2 : ∀ frame ∈ B, frame.length = 13) :
    computeDTW A B = dtw_score A B := by
  unfold computeDTW
  have hl1 : 0 < A.length := List.length_pos.mpr hA
  have hl2 : 0 < B.length := List.length_pos.mpr hB
  rw [if_neg (by omega), readFrames_eq_some A h1, readFrames_eq_some B h2]

/-- The function `computeDTW` is commutative. -/
theorem computeDTW_comm [CMath F] (A B : List (List F)) :
    computeDTW A B = computeDTW B A := by
  unfold computeDTW
  by_cases h : A.length ≤ 0 ∨ B.length ≤ 0
  · rw [if_pos h, if_pos (Or.symm h)]
  · rw [if_neg h, if_neg (fun h' => h (Or.symm h'))]
    cases hA : readFrames A with
    | none => cases hB : readFrames B <;> rfl
    | some seq1 =>
      cases hB : readFrames B with
      | none => rfl
      | some seq2 => exact dtw_score_comm seq1 seq2

/-- With a square root inverse to squaring on the non-negative numbers, `computeDTW`
of a valid sequence against itself is `1`. -/
theorem computeDTW_self [CMath F]
    (hsqrt : ∀ x : F, 0 ≤ x → CMath.sqrt x * CMath.sqrt x = x)
    (S : List (List F)) (hne : S ≠ []) (h13 : ∀ frame ∈ S, frame.length = 13) :
    computeDTW S S = 1 := by
  rw [computeDTW_eq_dtw_score S S hne hne h13 h13]
  have ht := trim_silence_ne_nil S hne
  obtain ⟨d, hd, hs⟩ := dtw_score_eq S S ht ht
  rw [hs]
  have hcost : ∀ i, 1 ≤ i → i ≤ (trim_silence S).length →
      dtw_cost (trim_silence S) (trim_silence S) i i ≤ 0 := by
    intro i h1 h2
    unfold dtw_cost
    have hmem : (trim_silence S).getD (i - 1) [] ∈ trim_silence S := by
      rw [List.getD_eq_getElem?_getD, List.getElem?_eq_getElem (by omega)]
      simp
    have hlen := h13 _ (mem_of_mem_trim_silence S _ hmem)
    have hne' : (trim_silence S).getD (i - 1) [] ≠ [] := by
      intro e
      rw [e] at hlen
      simp at hlen
    rw [cosineSimilarity_self hsqrt _ hne']
    simp
  have hd0 : d ≤ 0 := by
    have := dtw_rec_diag_nonpos _ _ hcost (trim_silence S).length (le_refl _)
    rw [← dtw_table_spec _ _ _ _ (le_refl _) (le_refl _), hd] at this
    exact_mod_cast this
  have hpos : (0 : F) < (((trim_silence S).length + (trim_silence S).length : Nat) : F) := by
    have : 0 < (trim_silence S).length + (trim_silence S).length := by
      have := List.length_pos.mpr ht
      omega
    exact_mod_cast this
  have : 1 ≤ 1 - d / (((trim_silence S).length + (trim_silence S).length : Nat) : F) := by
    have := div_nonpos_of_nonpos_of_nonneg hd0 hpos.le
    linarith
  rw [min_eq_left this]
  exact max_eq_right zero_le_one

/-- The function `computeDTW` returns `0` on invalid input. -/
theorem computeDTW_invalid [CMath F] (A B : List (List F))
    (h : A = [] ∨ B = [] ∨ (∃ frame ∈ A, frame.length ≠ 13) ∨ (∃ frame ∈ B, frame.length ≠ 13)) :
    computeDTW A B = 0 := by
  unfold computeDTW
  split
  · rfl
  · rename_i hlen
    have hA : A ≠ [] := by
      intro e; apply hlen; left; simp [e]
    have hB : B ≠ [] := by
      intro e; apply hlen; right; simp [e]
    rcases h with h | h | h | h
    · exact absurd h hA
    · exact absurd h hB
    · rw [readFrames_eq_none A h]
    · rw [readFrames_eq_none B h]
      cases readFrames A <;> rfl

/-- The size loop of `power_spectrum`, started at a power of two with enough
fuel, stops at the least power of two that is at least `n`. -/
theorem power_spectrum_fft_size_spec (n : Nat) :
    ∀ fuel k, n ≤ 2 ^ (k + fuel) → (k = 0 ∨ 2 ^ (k - 1) < n) →
      ∃ r, power_spectrum_fft_size n fuel (2 ^ k) = 2 ^ r ∧ n ≤ 2 ^ r ∧
        (r = 0 ∨ 2 ^ (r - 1) < n) := by
  intro fuel
  induction fuel with
  | zero =>
    intro k h1 h2
    exact ⟨k, rfl, by simpa using h1, h2⟩
  | succ fuel ih =>
    intro k h1 h2
    rw [power_spectrum_fft_size]
    split
    · rename_i hlt
      have e : 2 ^ k <<< 1 = 2 ^ (k + 1) := by
        rw [Nat.shiftLeft_eq]; ring
      rw [e]
      apply ih (k + 1)
      · have : k + 1 + fuel = k + (fuel + 1) := by omega
        rw [this]; exact h1
      · right; simpa using hlt
    · rename_i hge
      exact ⟨k, rfl, by omega, h2⟩

/-- A loop that only overwrites elements keeps the length of the vector. -/
theorem length_foldl_set {α : Type} (g : List α → Nat → α) (idx : List Nat) (l : List α) :
    (idx.foldl (fun l i => l.set i (g l i)) l).length = l.length := by
  induction idx generalizing l with
  | nil => rfl
  | cons i idx ih => rw [List.foldl_cons, ih]; simp

/-- The length of the power spectrum is `fft_size / 2 + 1`. -/
theorem power_spectrum_length [CMath F] (frame : List F) :
    (power_spectrum frame).length = power_spectrum_fft_size frame.length frame.length 1 / 2 + 1 := by
  unfold power_spectrum
  simp only []
  rw [length_foldl_set (fun _ i => _)]
  simp

/-- The function `dct` returns 13 coefficients. -/
theorem dct_length [CMath F] (mel_energies : List F) : (dct mel_energies).length = 13 := by
  unfold dct
  simp only []
  split
  · simp
  · rw [length_foldl_set (fun _ k => _)]
    simp

/-- The gate of line 284 on a vector of 13 coefficients. -/
theorem c0_gate (mfcc : List F) (h : mfcc.length = 13) :
    (if (!mfcc.isEmpty) = true ∧ mfcc.getD 0 0 ≤ C0_SILENCE_THRESHOLD then [] else mfcc) = [] ∨
      ((if (!mfcc.isEmpty) = true ∧ mfcc.getD 0 0 ≤ C0_SILENCE_THRESHOLD then [] else mfcc).length
          = 13 ∧
        (if (!mfcc.isEmpty) = true ∧ mfcc.getD 0 0 ≤ C0_SILENCE_THRESHOLD then []
          else mfcc).getD 0 0 > C0_SILENCE_THRESHOLD) := by
  split
  · left; rfl
  · rename_i hgate
    right
    refine ⟨h, ?_⟩
    by_contra hle
    apply hgate
    refine ⟨?_, not_lt.mp hle⟩
    cases mfcc with
    | nil => simp at h
    | cons x xs => rfl

/-- The result of `extractMFCC` is empty or has 13 coefficients with `C0` above the
threshold. -/
theorem extractMFCC_nil_or [CMath F] [FloorRing F] (frame : List F) :
    extractMFCC frame = [] ∨
      ((extractMFCC frame).length = 13 ∧ (extractMFCC frame).getD 0 0 > C0_SILENCE_THRESHOLD) := by
  unfold extractMFCC
  split
  · left; rfl
  · simp only []
    split
    · left; rfl
    · split
      · left; rfl
      · exact c0_gate _ (dct_length _)

/-- The real square root satisfies what the theorems ask of `std::sqrt`. -/
theorem real_sqrt_spec :
    ∀ x : ℝ, 0 ≤ x → 0 ≤ CMath.sqrt x ∧ CMath.sqrt x * CMath.sqrt x = x :=
  fun x hx => ⟨Real.sqrt_nonneg x, Real.mul_self_sqrt hx⟩

/-- The value of `computeDTW` lies in `[0, 1]`. -/
theorem computeDTW_range [CMath F] (A B : List (List F)) :
    0 ≤ computeDTW A B ∧ computeDTW A B ≤ 1 := by
  unfold computeDTW
  split
  · simp
  · cases readFrames A with
    | none => simp
    | some seq1 =>
      cases readFrames B with
      | none => simp
      | some seq2 => exact dtw_score_range seq1 seq2

/-- The final cell of the DTW table of a sequence against itself is `0`. -/
theorem dtw_final_self [CMath F]
    (hsqrt : ∀ x : F, 0 ≤ x → 0 ≤ CMath.sqrt x ∧ CMath.sqrt x * CMath.sqrt x = x)
    (seq : List (List F)) (h : ∀ frame ∈ seq, frame ≠ []) :
    get2 (dtw_table seq seq) seq.length seq.length = 0 := by
  rw [dtw_table_spec _ _ _ _ (le_refl _) (le_refl _)]
  apply le_antisymm
  · apply dtw_rec_diag_nonpos _ seq.length _ _ (le_refl _)
    intro i h1 h2
    unfold dtw_cost
    have hmem : seq.getD (i - 1) [] ∈ seq := by
      rw [List.getD_eq_getElem?_getD, List.getElem?_eq_getElem (by omega)]
      simp
    rw [cosineSimilarity_self (fun x hx => (hsqrt x hx).2) _ (h _ hmem)]
    simp
  · apply dtw_rec_nonneg
    intro i j
    unfold dtw_cost
    have := (cosineSimilarity_abs_le_one hsqrt (seq.getD (i - 1) []) (seq.getD (j - 1) [])).2
    linarith

/-- The function `trim_silence` returns the empty sequence exactly on the empty
sequence. -/
theorem trim_silence_nil_iff (mfcc_seq : List (List F)) :
    trim_silence mfcc_seq = [] ↔ mfcc_seq = [] := by
  constructor
  · intro h
    by_contra hne
    exact trim_silence_ne_nil mfcc_seq hne h
  · rintro rfl; rfl

/-- Loop invariant rule for a loop that counts down from `m` to `1`. -/
theorem foldl_range'_reverse_inv {α : Type} (Q : Nat → α → Prop) (f : α → Nat → α) :
    ∀ (m : Nat) (a : α), Q m a →
      (∀ k x, 1 ≤ k → k ≤ m → Q k x → Q (k - 1) (f x k)) →
      Q 0 ((List.range' 1 m).reverse.foldl f a) := by
  intro m
  induction m with
  | zero => intro a h0 _; simpa using h0
  | succ m ih =>
    intro a h0 hstep
    rw [List.range'_concat, List.reverse_append, List.reverse_singleton, List.singleton_append,
      List.foldl_cons]
    have h1 := hstep (m + 1) a (by omega) (le_refl _) h0
    simp only [Nat.add_sub_cancel] at h1
    rw [show 1 + 1 * m = m + 1 by omega]
    exact ih _ h1 (fun k x hk hk2 hq => hstep k x hk (by omega) hq)

/-- The result of `pre_emphasis` on a signal with at least 2 samples. -/
theorem pre_emphasis_spec (signal : List F) :
    (pre_emphasis signal).length = signal.length ∧
      ∀ i, (pre_emphasis signal).getD i 0 =
        if 1 ≤ i ∧ i < signal.length then signal.getD i 0 - 95 / 100 * signal.getD (i - 1) 0
        else signal.getD i 0 := by
  unfold pre_emphasis
  split
  · rename_i h
    refine ⟨rfl, fun i => ?_⟩
    rw [if_neg (by omega)]
  · rename_i h
    have key := foldl_range'_reverse_inv
      (fun k (s : List F) => s.length = signal.length ∧
        ∀ i, s.getD i 0 =
          if k < i ∧ i < signal.length then signal.getD i 0 - 95 / 100 * signal.getD (i - 1) 0
          else signal.getD i 0)
      (fun (s : List F) i => s.set i (s.getD i 0 - 95 / 100 * s.getD (i - 1) 0))
      (signal.length - 1) signal
      ⟨rfl, fun i => by rw [if_neg (by omega)]⟩
      (by
        intro k x hk hk2 hx
        obtain ⟨hl, hv⟩ := hx
        refine ⟨by simp [hl], fun i => ?_⟩
        rw [getD_set_eq]
        by_cases hi : k = i
        · subst hi
          rw [if_pos ⟨rfl, by omega⟩, if_pos ⟨by omega, by omega⟩, hv k, hv (k - 1),
            if_neg (by omega), if_neg (by omega)]
        · rw [if_neg (fun h => hi h.1), hv i]
          by_cases h1 : k < i ∧ i < signal.length
          · rw [if_pos h1, if_pos ⟨by omega, h1.2⟩]
          · rw [if_neg h1, if_neg (by omega)])
    obtain ⟨hl, hv⟩ := key
    refine ⟨hl, fun i => ?_⟩
    rw [hv i]
    by_cases h1 : 1 ≤ i ∧ i < signal.length
    · rw [if_pos h1, if_pos ⟨by omega, h1.2⟩]
    · rw [if_neg h1, if_neg (by omega)]

/-- A forward scan with `break` over `[a, a + n)` stops at the first index that
passes the test. -/
theorem find?_range'_first (p : Nat → Bool) :
    ∀ (n a s : Nat), a ≤ s → s < a + n → p s = true →
      (∀ i, a ≤ i → i < s → p i = false) → (List.range' a n).find? p = some s := by
  intro n
  induction n with
  | zero => intro a s h1 h2; omega
  | succ n ih =>
    intro a s h1 h2 hp hnot
    rw [List.range'_succ, List.find?_cons]
    by_cases e : a = s
    · subst e; rw [hp]
    · rw [hnot a (le_refl _) (by omega)]
      exact ih (a + 1) s (by omega) (by omega) hp (fun i hi hi2 => hnot i (by omega) hi2)

/-- A backward scan with `break` over `[a, a + n)` stops at the last index that
passes the test. -/
theorem find?_range'_reverse_last (p : Nat → Bool) :
    ∀ (n a e : Nat), a ≤ e → e < a + n → p e = true →
      (∀ i, e < i → i < a + n → p i = false) →
      (List.range' a n).reverse.find? p = some e := by
  intro n
  induction n with
  | zero => intro a e h1 h2; omega
  | succ n ih =>
    intro a e h1 h2 hp hnot
    rw [List.range'_concat, List.reverse_append, List.reverse_singleton, List.singleton_append,
      List.find?_cons, Nat.one_mul]
    by_cases h : a + n = e
    · subst h; rw [hp]
    · rw [hnot (a + n) (by omega) (by omega)]
      exact ih a e h1 (by omega) hp (fun i hi hi2 => hnot i hi (by omega))

/-- The threshold test on a frame: the frame is not empty and its first
coefficient exceeds `-40`. -/
theorem exceeds_c0_threshold_iff (frame : List F) :
    exceeds_c0_threshold frame = true ↔ ∃ c0 rest, frame = c0 :: rest ∧ c0 > -40 := by
  cases frame with
  | nil => simp [exceeds_c0_threshold]
  | cons c0 rest => simp [exceeds_c0_threshold, C0_SILENCE_THRESHOLD]

/-- When frame `s` is the first and frame `e - 1` the last that passes the
threshold test, `trim_silence` returns the range `[s, e)`. -/
theorem trim_silence_range (mfcc_seq : List (List F)) (s e : Nat)
    (hs : s < mfcc_seq.length) (hps : exceeds_c0_threshold (mfcc_seq.getD s []) = true)
    (hfirst : ∀ i, i < s → exceeds_c0_threshold (mfcc_seq.getD i []) = false)
    (he : e ≤ mfcc_seq.length)
    (hpe : exceeds_c0_threshold (mfcc_seq.getD (e - 1) []) = true)
    (hlast : ∀ i, e ≤ i → i < mfcc_seq.length →
      exceeds_c0_threshold (mfcc_seq.getD i []) = false) :
    trim_silence_start mfcc_seq = s ∧ trim_silence_end mfcc_seq s = e ∧
      trim_silence mfcc_seq = (mfcc_seq.drop s).take (e - s) := by
  have hse : s < e := by
    by_contra hc
    have := hlast s (by omega) hs
    rw [hps] at this
    exact absurd this (by simp)
  have h1 : trim_silence_start mfcc_seq = s := by
    unfold trim_silence_start
    rw [List.range_eq_range',
      find?_range'_first (fun i => exceeds_c0_threshold (mfcc_seq.getD i [])) _ 0 s
        (by omega) (by omega) hps (fun i _ hi => hfirst i hi)]
    rfl
  have h2 : trim_silence_end mfcc_seq s = e := by
    unfold trim_silence_end
    rw [find?_range'_reverse_last (fun i => exceeds_c0_threshold (mfcc_seq.getD (i - 1) []))
        _ (s + 1) e (by omega) (by omega) hpe
        (fun i hi hi2 => hlast (i - 1) (by omega) (by omega))]
    rfl
  have hne : mfcc_seq ≠ [] := by
    intro e0
    rw [e0] at hs
    simp at hs
  refine ⟨h1, h2, ?_⟩
  rw [trim_silence_eq mfcc_seq hne, h1, h2]

/-- On a non-empty frame the threshold test compares the first coefficient
with `-40`. -/
theorem exceeds_c0_threshold_of_ne_nil (frame : List F) (h : frame ≠ []) :
    exceeds_c0_threshold frame = decide (frame.getD 0 0 > -40) := by
  cases frame with
  | nil => exact absurd rfl h
  | cons c0 rest => simp [exceeds_c0_threshold, C0_SILENCE_THRESHOLD]

/-- A frame of 13 coefficients is not empty. -/
theorem ne_nil_of_length_13 (frame : List F) (h : frame.length = 13) : frame ≠ [] := by
  intro e
  rw [e] at h
  simp at h

/-- Element `i` of a list, for an index inside the list, is a member of it. -/
theorem getD_mem {α : Type} (l : List α) (i : Nat) (d : α) (h : i < l.length) :
    l.getD i d ∈ l := by
  rw [List.getD_eq_getElem?_getD, List.getElem?_eq_getElem h]
  simp

/-- Silent frames before and after a sequence that begins and ends with a
frame above the threshold are trimmed away. -/
theorem trim_silence_append (P A Q : List (List F)) (hA : A ≠ [])
    (hfirst : exceeds_c0_threshold (A.getD 0 []) = true)
    (hlast : exceeds_c0_threshold (A.getD (A.length - 1) []) = true)
    (hP : ∀ frame ∈ P, exceeds_c0_threshold frame = false)
    (hQ : ∀ frame ∈ Q, exceeds_c0_threshold frame = false) :
    trim_silence (P ++ A ++ Q) = A := by
  have hl : 0 < A.length := List.length_pos.mpr hA
  have hget : ∀ i, (P ++ A ++ Q).getD i [] =
      if i < P.length then P.getD i []
      else if i < P.length + A.length then A.getD (i - P.length) []
      else Q.getD (i - P.length - A.length) [] := by
    intro i
    simp only [List.getD_eq_getElem?_getD, List.getElem?_append, List.length_append,
      Nat.sub_sub]
    by_cases h1 : i < P.length
    · have h2 : i < P.length + A.length := by omega
      simp only [h1, h2, if_true]
    · by_cases h2 : i < P.length + A.length
      · simp only [h1, h2, if_true, if_false]
      · simp only [h1, h2, if_false]
  obtain ⟨_, _, h3⟩ := trim_silence_range (P ++ A ++ Q) P.length (P.length + A.length)
    (by simp; omega)
    (by rw [hget, if_neg (by omega), if_pos (by omega), Nat.sub_self]; exact hfirst)
    (by
      intro i hi
      rw [hget, if_pos hi]
      exact hP _ (getD_mem P i [] hi))
    (by simp)
    (by
      rw [hget, if_neg (by omega), if_pos (by omega)]
      rw [show P.length + A.length - 1 - P.length = A.length - 1 by omega]
      exact hlast)
    (by
      intro i hi hi2
      rw [hget, if_neg (by omega), if_neg (by omega)]
      apply hQ
      apply getD_mem
      simp at hi2
      omega)
  rw [h3, List.append_assoc, List.drop_left, Nat.add_sub_cancel_left, List.take_left]

/-- The function `dtw_score` depends on its first argument through
`trim_silence` only. -/
theorem dtw_score_congr [CMath F] (seq1 seq1' seq2 : List (List F))
    (h : trim_silence seq1 = trim_silence seq1') : dtw_score seq1 seq2 = dtw_score seq1' seq2 := by
  unfold dtw_score
  rw [h]

/-- Leading and trailing silent frames do not change `computeDTW`. -/
theorem computeDTW_append_silence [CMath F] (P A Q B : List (List F)) (hA : A ≠ [])
    (h13A : ∀ frame ∈ A, frame.length = 13)
    (h13P : ∀ frame ∈ P, frame.length = 13) (h13Q : ∀ frame ∈ Q, frame.length = 13)
    (hfirst : exceeds_c0_threshold (A.getD 0 []) = true)
    (hlast : exceeds_c0_threshold (A.getD (A.length - 1) []) = true)
    (hP : ∀ frame ∈ P, exceeds_c0_threshold frame = false)
    (hQ : ∀ frame ∈ Q, exceeds_c0_threshold frame = false) :
    computeDTW (P ++ A ++ Q) B = computeDTW A B := by
  have hne : P ++ A ++ Q ≠ [] := by simp [hA]
  have h13 : ∀ frame ∈ P ++ A ++ Q, frame.length = 13 := by
    intro frame hf
    simp only [List.mem_append] at hf
    rcases hf with (hf | hf) | hf
    · exact h13P _ hf
    · exact h13A _ hf
    · exact h13Q _ hf
  have ht : trim_silence (P ++ A ++ Q) = trim_silence A := by
    rw [trim_silence_append P A Q hA hfirst hlast hP hQ]
    have := trim_silence_append [] A [] hA hfirst hlast (by simp) (by simp)
    simpa using this.symm
  unfold computeDTW
  have hl1 : 0 < (P ++ A ++ Q).length := List.length_pos.mpr hne
  have hl2 : 0 < A.length := List.length_pos.mpr hA
  by_cases hB : B.length ≤ 0
  · rw [if_pos (Or.inr hB), if_pos (Or.inr hB)]
  · rw [if_neg (by omega), if_neg (by omega), readFrames_eq_some _ h13, readFrames_eq_some _ h13A]
    cases readFrames B with
    | none => rfl
    | some seq2 => exact dtw_score_congr _ _ _ ht

/-- The Hamming window keeps the length of the frame. -/
theorem hamming_window_length [CMath F] (frame : List F) :
    (hamming_window frame).length = frame.length := by
  unfold hamming_window
  simp only []
  split
  · rfl
  · exact length_foldl_set (fun (fr : List F) (i : Nat) => _) _ _

/-- Writing one weight keeps the length of every filter. -/
theorem setWeight_shape (filters : List (List F)) (m k half : Nat) (v : F)
    (h : ∀ filt ∈ filters, filt.length = half) :
    (setWeight filters m k v).length = filters.length ∧
      ∀ filt ∈ setWeight filters m k v, filt.length = half := by
  unfold setWeight
  refine ⟨by simp, ?_⟩
  intro filt hf
  rcases List.mem_or_eq_of_mem_set hf with h1 | h1
  · exact h filt h1
  · by_cases hm : m < filters.length
    · rw [h1, List.length_set]
      exact h _ (getD_mem filters m [] hm)
    · rw [List.set_eq_of_length_le (by omega)] at hf
      exact h filt hf

/-- A loop of weight writes keeps the number of filters and their lengths. -/
theorem foldl_setWeight_shape {β : Type} (m half : Nat) (kf : β → Nat) (vf : β → F)
    (idx : List β) (filters : List (List F)) (h : ∀ filt ∈ filters, filt.length = half) :
    (idx.foldl (fun fs k => setWeight fs m (kf k) (vf k)) filters).length = filters.length ∧
      ∀ filt ∈ idx.foldl (fun fs k => setWeight fs m (kf k) (vf k)) filters,
        filt.length = half := by
  induction idx generalizing filters with
  | nil => exact ⟨rfl, h⟩
  | cons k idx ih =>
    rw [List.foldl_cons]
    obtain ⟨h1, h2⟩ := setWeight_shape filters m (kf k) half (vf k) h
    obtain ⟨h3, h4⟩ := ih _ h2
    exact ⟨h3.trans h1, h4⟩

/-- Building the two edges of one filter keeps the number of filters and their
lengths. -/
theorem mel_filter_edges_shape (bin : List Int) (half : Nat) (filters : List (List F))
    (m : Nat) (h : ∀ filt ∈ filters, filt.length = half) :
    (mel_filter_edges bin half filters m).length = filters.length ∧
      ∀ filt ∈ mel_filter_edges bin half filters m, filt.length = half := by
  unfold mel_filter_edges
  simp only []
  obtain ⟨h1, h2⟩ := foldl_setWeight_shape (m - 1) half (fun k : Int => k.toNat)
    (fun k : Int => (((k : F) - ((mel_bounds bin m).1 : F)) /
      ((((mel_bounds bin m).2.1 - (mel_bounds bin m).1 : Int) : F) + 1 / 1000000000000)))
    ((List.range (min (mel_bounds bin m).2.1 (half : Int) - (mel_bounds bin m).1).toNat).map
      (fun (d : Nat) => (mel_bounds bin m).1 + (d : Int))) filters h
  obtain ⟨h3, h4⟩ := foldl_setWeight_shape (m - 1) half (fun k : Int => k.toNat)
    (fun k : Int => ((((mel_bounds bin m).2.2 : F) - (k : F)) /
      ((((mel_bounds bin m).2.2 - (mel_bounds bin m).2.1 : Int) : F) + 1 / 1000000000000)))
    ((List.range (min (mel_bounds bin m).2.2 (half : Int) - (mel_bounds bin m).2.1).toNat).map
      (fun (d : Nat) => (mel_bounds bin m).2.1 + (d : Int))) _ h2
  exact ⟨h3.trans h1, h4⟩

/-- The filterbank has `num_filters` filters of `fft_size / 2 + 1` weights each. -/
theorem create_mel_filterbanks_shape [CMath F] [FloorRing F]
    (num_filters fft_size sample_rate : Int) :
    (create_mel_filterbanks (F := F) num_filters fft_size sample_rate).length =
        num_filters.toNat ∧
      ∀ filt ∈ create_mel_filterbanks (F := F) num_filters fft_size sample_rate,
        filt.length = (Int.tdiv fft_size 2 + 1).toNat := by
  unfold create_mel_filterbanks
  simp only []
  generalize mel_bins (F := F) num_filters fft_size sample_rate = bin
  generalize (Int.tdiv fft_size 2 + 1).toNat = half
  have : ∀ (idx : List Nat) (filters : List (List F)),
      (∀ filt ∈ filters, filt.length = half) →
      (idx.foldl (mel_filter_edges bin half) filters).length = filters.length ∧
        ∀ filt ∈ idx.foldl (mel_filter_edges bin half) filters, filt.length = half := by
    intro idx
    induction idx with
    | nil => intro filters h; exact ⟨rfl, h⟩
    | cons m idx ih =>
      intro filters h
      rw [List.foldl_cons]
      obtain ⟨h1, h2⟩ := mel_filter_edges_shape bin half filters m h
      obtain ⟨h3, h4⟩ := ih _ h2
      exact ⟨h3.trans h1, h4⟩
  obtain ⟨h1, h2⟩ := this (List.range' 1 num_filters.toNat)
    (List.replicate num_filters.toNat (List.replicate half 0))
    (by intro filt hf; rw [List.eq_of_mem_replicate hf]; simp)
  exact ⟨by rw [h1]; simp, h2⟩

/-- The FFT size of a frame with at least 2 samples is even and at least 2. -/
theorem power_spectrum_fft_size_even (n : Nat) (h : 2 ≤ n) :
    2 ≤ power_spectrum_fft_size n n 1 ∧
      power_spectrum_fft_size n n 1 / 2 * 2 = power_spectrum_fft_size n n 1 := by
  obtain ⟨r, hr, hle, _⟩ := power_spectrum_fft_size_spec n n 0
    (by simpa using (Nat.lt_two_pow n).le) (Or.inl rfl)
  rw [pow_zero] at hr
  rw [hr]
  cases r with
  | zero => simp at hle; omega
  | succ r =>
    rw [pow_succ]
    have := @Nat.one_le_two_pow r
    omega

/-- Element `i` of a vector filled by `v[i] = f(i)`. -/
theorem getD_map_range {α : Type} (f : Nat → α) (n i : Nat) (d : α) (h : i < n) :
    ((List.range n).map f).getD i d = f i := by
  rw [List.getD_eq_getElem?_getD, List.getElem?_map, List.getElem?_range h]
  rfl

/-- The clamped boundaries of every filter are ordered and non-negative. -/
theorem mel_bounds_ordered (bin : List Int) (m : Nat) :
    0 ≤ (mel_bounds bin m).1 ∧ (mel_bounds bin m).1 ≤ (mel_bounds bin m).2.1 ∧
      (mel_bounds bin m).2.1 ≤ (mel_bounds bin m).2.2 := by
  unfold mel_bounds
  simp only []
  exact ⟨le_max_left _ _, le_max_left _ _, le_max_left _ _⟩

/-- With a monotone `pow(10, .)` and `log10` non-negative from `1` on, the bin
indices of the mel points do not decrease. -/
theorem mel_bins_mono [CMath F] [FloorRing F]
    (hpow : ∀ x y : F, x ≤ y → CMath.pow 10 x ≤ CMath.pow 10 y)
    (hlog : ∀ x : F, 1 ≤ x → 0 ≤ CMath.log10 x)
    (num_filters fft_size sample_rate : Int) (hn : 1 ≤ num_filters) (hf : 0 ≤ fft_size)
    (hs : 0 < sample_rate) (i : Nat) (hi : i + 1 < (num_filters + 2).toNat) :
    (mel_bins (F := F) num_filters fft_size sample_rate).getD i 0 ≤
      (mel_bins (F := F) num_filters fft_size sample_rate).getD (i + 1) 0 := by
  unfold mel_bins
  simp only []
  rw [getD_map_range _ _ _ _ (by omega), getD_map_range _ _ _ _ hi,
    getD_map_range _ _ _ _ (by omega), getD_map_range _ _ _ _ hi,
    getD_map_range _ _ _ _ (by omega), getD_map_range _ _ _ _ hi]
  have hsr : (0 : F) < (sample_rate : F) := by exact_mod_cast hs
  have hfs : (0 : F) ≤ (fft_size : F) + 1 := by
    have : (0 : F) ≤ (fft_size : F) := by exact_mod_cast hf
    linarith
  have hden : (0 : F) < ((num_filters + 1 : Int) : F) := by
    have : (0 : Int) < num_filters + 1 := by omega
    exact_mod_cast this
  have hhigh : (0 : F) ≤ hz_to_mel ((sample_rate : F) / 2) := by
    unfold hz_to_mel
    apply mul_nonneg (by norm_num)
    apply hlog
    have : (0 : F) ≤ (sample_rate : F) / 2 / 700 := by positivity
    linarith
  apply Int.floor_le_floor
  apply div_le_div_of_nonneg_right _ hsr.le
  apply mul_le_mul_of_nonneg_left _ hfs
  unfold mel_to_hz
  apply mul_le_mul_of_nonneg_left _ (by norm_num)
  apply sub_le_sub_right
  apply hpow
  apply div_le_div_of_nonneg_right _ (by norm_num)
  simp only [zero_add, sub_zero]
  apply div_le_div_of_nonneg_right _ hden.le
  apply mul_le_mul_of_nonneg_left _ hhigh
  push_cast
  linarith

/-- The real `pow(10, .)` is monotone. -/
theorem real_pow10_mono : ∀ x y : ℝ, x ≤ y → CMath.pow 10 x ≤ CMath.pow 10 y :=
  fun _ _ h => Real.rpow_le_rpow_of_exponent_le (by norm_num) h

/-- The real `log10` is non-negative from `1` on. -/
theorem real_log10_nonneg : ∀ x : ℝ, 1 ≤ x → 0 ≤ CMath.log10 x :=
  fun _ h => div_nonneg (Real.log_nonneg h) (Real.log_nonneg (by norm_num))

/-- The cost of a path extended by one cell. -/
theorem path_cost_append (cost : Nat → Nat → F) (p : List (Nat × Nat)) (c : Nat × Nat) :
    path_cost cost (p ++ [c]) = cost c.1 c.2 + path_cost cost p := by
  simp [path_cost, add_comm]

/-- The cells of a warping path have positive coordinates. -/
theorem warpingPath_pos {i j : Nat} {p : List (Nat × Nat)} (h : WarpingPath i j p) :
    1 ≤ i ∧ 1 ≤ j := by
  induction h with
  | start => exact ⟨le_refl _, le_refl _⟩
  | down _ ih => exact ⟨by omega, ih.2⟩
  | right _ ih => exact ⟨ih.1, by omega⟩
  | diag _ ih => exact ⟨by omega, by omega⟩

/-- The recurrence at a cell off the boundary. -/
theorem dtw_rec_succ (cost : Nat → Nat → F) (i j : Nat) :
    dtw_rec cost (i + 1) (j + 1) =
      (cost (i + 1) (j + 1) : WithTop F) +
        min (dtw_rec cost i (j + 1)) (min (dtw_rec cost (i + 1) j) (dtw_rec cost i j)) := by
  rw [dtw_rec]

/-- The value of the recurrence is a lower bound of the cost of every warping
path to the cell. -/
theorem dtw_rec_le_path (cost : Nat → Nat → F) {i j : Nat} {p : List (Nat × Nat)}
    (h : WarpingPath i j p) : dtw_rec cost i j ≤ ((path_cost cost p : F) : WithTop F) := by
  induction h with
  | start => simp [dtw_rec, path_cost]
  | @down i j p hp ih =>
    obtain ⟨_, hj⟩ := warpingPath_pos hp
    obtain ⟨j, rfl⟩ : ∃ j', j = j' + 1 := ⟨j - 1, by omega⟩
    rw [dtw_rec_succ, path_cost_append, WithTop.coe_add]
    exact add_le_add (le_refl _) (le_trans (min_le_left _ _) ih)
  | @right i j p hp ih =>
    obtain ⟨hi, _⟩ := warpingPath_pos hp
    obtain ⟨i, rfl⟩ : ∃ i', i = i' + 1 := ⟨i - 1, by omega⟩
    rw [dtw_rec_succ, path_cost_append, WithTop.coe_add]
    exact add_le_add (le_refl _) (le_trans (le_trans (min_le_right _ _) (min_le_left _ _)) ih)
  | @diag i j p hp ih =>
    rw [dtw_rec_succ, path_cost_append, WithTop.coe_add]
    exact add_le_add (le_refl _) (le_trans (le_trans (min_le_right _ _) (min_le_right _ _)) ih)

/-- Some warping path to the cell has the value of the recurrence as its cost. -/
theorem dtw_rec_eq_path (cost : Nat → Nat → F) :
    ∀ i j, ∃ p, WarpingPath (i + 1) (j + 1) p ∧
      dtw_rec cost (i + 1) (j + 1) = ((path_cost cost p : F) : WithTop F) := by
  intro i
  induction i with
  | zero =>
    intro j
    induction j with
    | zero => exact ⟨[(1, 1)], WarpingPath.start, by simp [dtw_rec, path_cost]⟩
    | succ j ihj =>
      obtain ⟨p, hp, he⟩ := ihj
      refine ⟨p ++ [(0 + 1, j + 1 + 1)], WarpingPath.right hp, ?_⟩
      rw [dtw_rec_succ, path_cost_append, WithTop.coe_add, he]
      simp [dtw_rec]
  | succ i ihi =>
    intro j
    induction j with
    | zero =>
      obtain ⟨p, hp, he⟩ := ihi 0
      refine ⟨p ++ [(i + 1 + 1, 0 + 1)], WarpingPath.down hp, ?_⟩
      rw [dtw_rec_succ, path_cost_append, WithTop.coe_add, he]
      simp [dtw_rec]
    | succ j ihj =>
      obtain ⟨p1, hp1, he1⟩ := ihi (j + 1)
      obtain ⟨p2, hp2, he2⟩ := ihj
      obtain ⟨p3, hp3, he3⟩ := ihi j
      rw [dtw_rec_succ]
      rcases min_choice (dtw_rec cost (i + 1) (j + 1 + 1))
        (min (dtw_rec cost (i + 1 + 1) (j + 1)) (dtw_rec cost (i + 1) (j + 1))) with h | h
      · exact ⟨p1 ++ [(i + 1 + 1, j + 1 + 1)], WarpingPath.down hp1, by
          rw [h, path_cost_append, WithTop.coe_add, he1]⟩
      · rcases min_choice (dtw_rec cost (i + 1 + 1) (j + 1)) (dtw_rec cost (i + 1) (j + 1))
          with h' | h'
        · exact ⟨p2 ++ [(i + 1 + 1, j + 1 + 1)], WarpingPath.right hp2, by
            rw [h, h', path_cost_append, WithTop.coe_add, he2]⟩
        · exact ⟨p3 ++ [(i + 1 + 1, j + 1 + 1)], WarpingPath.diag hp3, by
            rw [h, h', path_cost_append, WithTop.coe_add, he3]⟩

/-- The defining equation of `brev` at a positive width. -/
theorem brev_succ (s t : Nat) : brev (s + 1) t = (t % 2) * 2 ^ s + brev s (t / 2) := by
  rw [brev]

/-- A bit-reversed index is below `2 ^ s`. -/
theorem brev_lt (s t : Nat) : brev s t < 2 ^ s := by
  induction s generalizing t with
  | zero => simp [brev]
  | succ s ih =>
    rw [brev, pow_succ]
    have := ih (t / 2)
    have h2 : t % 2 < 2 := Nat.mod_lt _ (by norm_num)
    have : t % 2 * 2 ^ s ≤ 1 * 2 ^ s := Nat.mul_le_mul_right _ (by omega)
    omega

/-- Bit reversal of an index whose top bit is split off. -/
theorem brev_add_high (s : Nat) : ∀ t b, t < 2 ^ s → b < 2 →
    brev (s + 1) (t + b * 2 ^ s) = 2 * brev s t + b := by
  induction s with
  | zero =>
    intro t b ht hb
    have : t = 0 := by simpa using ht
    subst this
    simp [brev]
    omega
  | succ s ih =>
    intro t b ht hb
    rw [brev]
    have h1 : (t + b * 2 ^ (s + 1)) % 2 = t % 2 := by
      rw [pow_succ, ← mul_assoc, Nat.add_mul_mod_self_right]
    have h2 : (t + b * 2 ^ (s + 1)) / 2 = t / 2 + b * 2 ^ s := by
      rw [pow_succ, ← mul_assoc, Nat.add_mul_div_right _ _ (by norm_num)]
    rw [h1, h2, ih (t / 2) b (by rw [pow_succ] at ht; omega) hb]
    conv_rhs => rw [brev]
    rw [pow_succ]
    ring

/-- Bit reversal is an involution on the indices below `2 ^ s`. -/
theorem brev_brev (s : Nat) : ∀ t, t < 2 ^ s → brev s (brev s t) = t := by
  induction s with
  | zero => intro t ht; simp [brev]; omega
  | succ s ih =>
    intro t ht
    have h2 : t % 2 < 2 := Nat.mod_lt _ (by norm_num)
    have ht2 : t / 2 < 2 ^ s := by rw [pow_succ] at ht; omega
    rw [brev_succ s t, Nat.add_comm (t % 2 * 2 ^ s),
      brev_add_high s _ _ (brev_lt s _) h2, ih _ ht2]
    omega

/-- A loop that only sets bits, started from `r`, gives `r` or-ed with its
result started from `0`. -/
theorem foldl_lor_init (c : Nat → Prop) [DecidablePred c] (m : Nat → Nat) (idx : List Nat) :
    ∀ r, idx.foldl (fun rev j => if c j then rev ||| m j else rev) r =
      r ||| idx.foldl (fun rev j => if c j then rev ||| m j else rev) 0 := by
  induction idx with
  | nil => intro r; simp
  | cons j idx ih =>
    intro r
    rw [List.foldl_cons, List.foldl_cons, ih, ih (if c j then 0 ||| m j else 0)]
    by_cases h : c j
    · simp only [h, if_true, Nat.zero_or, Nat.or_assoc]
    · simp only [h, if_false, Nat.zero_or]

/-- The mask test `i & (1 << j)` of line 32 reads bit `j` of `i`. -/
theorem and_shiftLeft_ne_zero (i j : Nat) : i &&& (1 <<< j) ≠ 0 ↔ i.testBit j = true := by
  rw [Nat.one_shiftLeft, Nat.and_two_pow]
  cases h : i.testBit j
  · simp
  · simp

/-- The loop of lines 30-33 computes the bit reversal `brev`. -/
theorem fft_rev_eq_brev (lg_n : Nat) : ∀ i, fft_rev lg_n i = brev lg_n i := by
  induction lg_n with
  | zero => intro i; simp [fft_rev, brev]
  | succ s ih =>
    intro i
    have hs := ih (i / 2)
    unfold fft_rev at hs ⊢
    rw [List.range_succ_eq_map, List.foldl_cons, List.foldl_map, foldl_lor_init]
    have hbody : (fun (rev : Nat) (j : Nat) =>
        if i &&& (1 <<< j.succ) ≠ 0 then rev ||| (1 <<< (s + 1 - 1 - j.succ)) else rev) =
        (fun (rev : Nat) (j : Nat) =>
        if (i / 2) &&& (1 <<< j) ≠ 0 then rev ||| (1 <<< (s - 1 - j)) else rev) := by
      funext rev j
      have e1 : (i &&& (1 <<< j.succ) ≠ 0) ↔ ((i / 2) &&& (1 <<< j) ≠ 0) := by
        rw [and_shiftLeft_ne_zero, and_shiftLeft_ne_zero, Nat.testBit_succ]
      have e2 : s + 1 - 1 - j.succ = s - 1 - j := by omega
      rw [e2]
      by_cases h : i &&& (1 <<< j.succ) ≠ 0
      · rw [if_pos h, if_pos (e1.mp h)]
      · rw [if_neg h, if_neg (fun h' => h (e1.mpr h'))]
    rw [hbody, hs, brev]
    have h0 : (if i &&& (1 <<< 0) ≠ 0 then 0 ||| (1 <<< (s + 1 - 1 - 0)) else 0) =
        2 ^ s * (i % 2) := by
      have e : (i &&& (1 <<< 0) ≠ 0) ↔ i % 2 = 1 := by
        rw [and_shiftLeft_ne_zero, Nat.testBit_zero]
        simp
      have h2 : i % 2 < 2 := Nat.mod_lt _ (by norm_num)
      by_cases h : i % 2 = 1
      · rw [if_pos (e.mpr h), h, Nat.zero_or, Nat.one_shiftLeft]
        simp
      · rw [if_neg (fun h' => h (e.mp h'))]
        have : i % 2 = 0 := by omega
        rw [this]
        simp
    rw [h0, ← Nat.mul_add_lt_is_or (brev_lt s (i / 2)), mul_comm]

/-- The swap loop of lines 29-35 on a vector of `2 ^ L` elements moves element
`brev L j` to position `j`. -/
theorem fft_bit_reverse_spec (L : Nat) (a : List (cd F)) (ha : a.length = 2 ^ L) :
    (fft_bit_reverse (2 ^ L) L a).length = 2 ^ L ∧
      ∀ j, j < 2 ^ L →
        (fft_bit_reverse (2 ^ L) L a).getD j cd.zero = a.getD (brev L j) cd.zero := by
  unfold fft_bit_reverse
  have key := foldl_range_inv
    (fun k (cur : List (cd F)) => cur.length = 2 ^ L ∧
      ∀ j, j < 2 ^ L → cur.getD j cd.zero =
        if j < k ∨ brev L j < k then a.getD (brev L j) cd.zero else a.getD j cd.zero)
    (fun (a : List (cd F)) i =>
      let rev := fft_rev L i
      if i < rev then (a.set i (a.getD rev cd.zero)).set rev (a.getD i cd.zero) else a)
    (2 ^ L) a ⟨ha, fun j _ => by simp⟩
    (by
      intro k cur hk hcur
      obtain ⟨hlen, hv⟩ := hcur
      simp only [fft_rev_eq_brev]
      have hr := brev_lt L k
      have hrr := brev_brev L k hk
      by_cases hkr : k < brev L k
      · rw [if_pos hkr]
        refine ⟨by simp [hlen], ?_⟩
        intro j hj
        have hbj := brev_lt L j
        have hjj := brev_brev L j hj
        rw [getD_set_eq, getD_set_eq]
        simp only [List.length_set, hlen]
        by_cases h1 : brev L k = j
        · rw [if_pos ⟨h1, hr⟩, hv k hk, if_neg (by omega)]
          have : brev L j = k := by rw [← h1]; exact hrr
          rw [if_pos (by omega), this]
        · rw [if_neg (fun h => h1 h.1)]
          by_cases h2 : k = j
          · subst h2
            rw [if_pos ⟨rfl, hk⟩, hv _ hr, if_neg (by rw [hrr]; omega), if_pos (by omega)]
          · rw [if_neg (fun h => h2 h.1), hv j hj]
            have h3 : brev L j ≠ k := by
              intro e
              apply h1
              rw [← e, hjj]
            by_cases h4 : j < k ∨ brev L j < k
            · rw [if_pos h4, if_pos (by omega)]
            · rw [if_neg h4, if_neg (by omega)]
      · rw [if_neg hkr]
        refine ⟨hlen, ?_⟩
        intro j hj
        have hbj := brev_lt L j
        have hjj := brev_brev L j hj
        rw [hv j hj]
        by_cases h4 : j < k ∨ brev L j < k
        · rw [if_pos h4, if_pos (by omega)]
        · rw [if_neg h4]
          by_cases h5 : j < k + 1 ∨ brev L j < k + 1
          · rw [if_pos h5]
            have hjk : j = k := by
              rcases h5 with h5 | h5
              · omega
              · have e : brev L j = k := by omega
                have : j = brev L k := by rw [← e, hjj]
                omega
            subst hjk
            have : brev L j = j := by omega
            rw [this]
          · rw [if_neg h5])
  obtain ⟨hlen, hv⟩ := key
  refine ⟨hlen, fun j hj => ?_⟩
  rw [hv j hj, if_pos (Or.inl hj)]

/-- A sum over `2 * m` indices splits into the even and the odd indices. -/
theorem sum_range_even_odd {K : Type} [CommRing K] (f : Nat → K) (m : Nat) :
    Finset.sum (Finset.range (2 * m)) f =
      Finset.sum (Finset.range m) (fun t => f (2 * t)) +
        Finset.sum (Finset.range m) (fun t => f (2 * t + 1)) := by
  induction m with
  | zero => simp
  | succ m ih =>
    rw [show 2 * (m + 1) = 2 * m + 1 + 1 by ring, Finset.sum_range_succ, Finset.sum_range_succ,
      ih, Finset.sum_range_succ, Finset.sum_range_succ]
    ring

/-- The root of unity of order `2 ^ s` has order dividing `2 ^ s`. -/
theorem root_pow_eq_one {K : Type} [CommRing K] (ω : Nat → K)
    (h2 : ∀ s, ω (s + 1) ^ 2 = ω s) (hneg : ∀ s, ω (s + 1) ^ 2 ^ s = -1) (s : Nat) :
    ω s ^ 2 ^ s = 1 := by
  rw [← h2 s, ← pow_mul, mul_comm, pow_mul, hneg s]
  norm_num

/-- The transform is periodic with period `2 ^ s`. -/
theorem dft_rev_periodic {K : Type} [CommRing K] (ω : Nat → K)
    (h2 : ∀ s, ω (s + 1) ^ 2 = ω s) (hneg : ∀ s, ω (s + 1) ^ 2 ^ s = -1)
    (s : Nat) (g : Nat → K) (k : Nat) :
    dft_rev ω s g (k + 2 ^ s) = dft_rev ω s g k := by
  unfold dft_rev
  apply Finset.sum_congr rfl
  intro t _
  rw [add_mul, pow_add, pow_mul (ω s) (2 ^ s) t, root_pow_eq_one ω h2 hneg s, one_pow, mul_one]

/-- The butterfly identity: the transform of size `2 ^ (s + 1)` from the
transforms of size `2 ^ s` of the two halves of the block. -/
theorem dft_rev_succ {K : Type} [CommRing K] (ω : Nat → K)
    (h2 : ∀ s, ω (s + 1) ^ 2 = ω s) (s : Nat) (g : Nat → K) (k : Nat) :
    dft_rev ω (s + 1) g k =
      dft_rev ω s g k + dft_rev ω s (fun t => g (t + 2 ^ s)) k * ω (s + 1) ^ k := by
  unfold dft_rev
  rw [pow_succ, mul_comm (2 ^ s) 2, sum_range_even_odd, Finset.sum_mul]
  congr 1
  · apply Finset.sum_congr rfl
    intro t _
    have e : brev (s + 1) (2 * t) = brev s t := by
      rw [brev_succ]
      simp
    rw [e, ← h2 s, ← pow_mul]
    congr 2
    ring
  · apply Finset.sum_congr rfl
    intro t _
    have e : brev (s + 1) (2 * t + 1) = brev s t + 2 ^ s := by
      rw [brev_succ]
      have h1 : (2 * t + 1) % 2 = 1 := by omega
      have h3 : (2 * t + 1) / 2 = t := by omega
      rw [h1, h3]
      ring
    rw [e, ← h2 s, ← pow_mul, mul_assoc, ← pow_add]
    congr 2
    ring

/-- The butterfly identity for the upper half of the block. -/
theorem dft_rev_succ_upper {K : Type} [CommRing K] (ω : Nat → K)
    (h2 : ∀ s, ω (s + 1) ^ 2 = ω s) (hneg : ∀ s, ω (s + 1) ^ 2 ^ s = -1)
    (s : Nat) (g : Nat → K) (k : Nat) :
    dft_rev ω (s + 1) g (k + 2 ^ s) =
      dft_rev ω s g k - dft_rev ω s (fun t => g (t + 2 ^ s)) k * ω (s + 1) ^ k := by
  rw [dft_rev_succ ω h2, dft_rev_periodic ω h2 hneg, dft_rev_periodic ω h2 hneg, pow_add,
    hneg s]
  ring

/-- The map `toC` preserves sums. -/
theorem toC_add (x y : cd ℝ) : toC (cd.add x y) = toC x + toC y := by
  apply Complex.ext <;> simp [toC, cd.add]

/-- The map `toC` preserves differences. -/
theorem toC_sub (x y : cd ℝ) : toC (cd.sub x y) = toC x - toC y := by
  apply Complex.ext <;> simp [toC, cd.sub]

/-- The map `toC` preserves products. -/
theorem toC_mul (x y : cd ℝ) : toC (cd.mul x y) = toC x * toC y := by
  apply Complex.ext <;> simp [toC, cd.mul]

/-- The map `toC` preserves `1`. -/
theorem toC_one : toC cd.one = 1 := by
  apply Complex.ext <;> simp [toC, cd.one]

/-- The map `toC` preserves `0`. -/
theorem toC_zero : toC cd.zero = 0 := by
  apply Complex.ext <;> simp [toC, cd.zero]

/-- The squared magnitude `std::norm` is the complex squared norm. -/
theorem normSq_toC (x : cd ℝ) : Complex.normSq (toC x) = cd.norm x := by
  simp [toC, cd.norm, Complex.normSq_mk]

/-- The butterfly loop of lines 41-48 on the block of `2 * half` cells starting
at `i`, as complex values: cell `i + k` receives `u + v`, cell `i + k + half`
receives `u - v`, with `v` the upper cell times `wlen ^ k`; the other cells keep
their values. -/
theorem fft_butterfly_spec (wlen : cd ℝ) (i len : Nat) (a : List (cd ℝ))
    (hb : i + 2 * (len / 2) ≤ a.length) :
    (fft_butterfly wlen i len a).length = a.length ∧
      ∀ idx, toC ((fft_butterfly wlen i len a).getD idx cd.zero) =
        if i ≤ idx ∧ idx < i + len / 2 then
          toC (a.getD idx cd.zero) + toC (a.getD (idx + len / 2) cd.zero) * toC wlen ^ (idx - i)
        else if i + len / 2 ≤ idx ∧ idx < i + len / 2 + len / 2 then
          toC (a.getD (idx - len / 2) cd.zero) -
            toC (a.getD idx cd.zero) * toC wlen ^ (idx - len / 2 - i)
        else toC (a.getD idx cd.zero) := by
  unfold fft_butterfly
  generalize len / 2 = half at hb ⊢
  have key := foldl_range_inv
    (fun j (st : List (cd ℝ) × cd ℝ) => st.1.length = a.length ∧ toC st.2 = toC wlen ^ j ∧
      ∀ idx, toC (st.1.getD idx cd.zero) =
        if i ≤ idx ∧ idx < i + j then
          toC (a.getD idx cd.zero) + toC (a.getD (idx + half) cd.zero) * toC wlen ^ (idx - i)
        else if i + half ≤ idx ∧ idx < i + half + j then
          toC (a.getD (idx - half) cd.zero) -
            toC (a.getD idx cd.zero) * toC wlen ^ (idx - half - i)
        else toC (a.getD idx cd.zero))
    (fun (st : List (cd ℝ) × cd ℝ) j =>
      let u := st.1.getD (i + j) cd.zero
      let v := cd.mul (st.1.getD (i + j + half) cd.zero) st.2
      ((st.1.set (i + j) (cd.add u v)).set (i + j + half) (cd.sub u v), cd.mul st.2 wlen))
    half (a, cd.one)
    ⟨rfl, by simp [toC_one], fun idx => by
      rw [if_neg (by omega), if_neg (by omega)]⟩
    (by
      intro j st hj hst
      obtain ⟨hlen, hw, hv⟩ := hst
      have hu : toC (st.1.getD (i + j) cd.zero) = toC (a.getD (i + j) cd.zero) := by
        rw [hv (i + j), if_neg (by omega), if_neg (by omega)]
      have hv2 : toC (st.1.getD (i + j + half) cd.zero) =
          toC (a.getD (i + j + half) cd.zero) := by
        rw [hv (i + j + half), if_neg (by omega), if_neg (by omega)]
      refine ⟨by simp [hlen], by simp only []; rw [toC_mul, hw, pow_succ], ?_⟩
      intro idx
      simp only []
      rw [getD_set_eq, getD_set_eq]
      simp only [List.length_set, hlen]
      by_cases h1 : i + j + half = idx
      · rw [if_pos ⟨h1, by omega⟩, toC_sub, toC_mul, hu, hv2, hw, if_neg (by omega),
          if_pos (by omega)]
        subst h1
        rw [show i + j + half - half = i + j by omega, show i + j - i = j by omega]
      · rw [if_neg (fun h => h1 h.1)]
        by_cases h2 : i + j = idx
        · rw [if_pos ⟨h2, by omega⟩, toC_add, toC_mul, hu, hv2, hw, if_pos (by omega)]
          subst h2
          rw [show i + j - i = j by omega]
        · rw [if_neg (fun h => h2 h.1), hv idx]
          have e3 : (i ≤ idx ∧ idx < i + (j + 1)) ↔ (i ≤ idx ∧ idx < i + j) := by omega
          have e4 : (i + half ≤ idx ∧ idx < i + half + (j + 1)) ↔
              (i + half ≤ idx ∧ idx < i + half + j) := by omega
          simp only [e3, e4])
  exact ⟨key.1, key.2.2⟩

/-- The three cases of `fft_butterfly_spec`: lower half, upper half, and the
cells outside the block. -/
theorem fft_butterfly_cases (wlen : cd ℝ) (i half : Nat) (a : List (cd ℝ))
    (hb : i + 2 * half ≤ a.length) :
    (fft_butterfly wlen i (2 * half) a).length = a.length ∧
      (∀ k, k < half →
        toC ((fft_butterfly wlen i (2 * half) a).getD (i + k) cd.zero) =
          toC (a.getD (i + k) cd.zero) + toC (a.getD (i + k + half) cd.zero) * toC wlen ^ k) ∧
      (∀ k, k < half →
        toC ((fft_butterfly wlen i (2 * half) a).getD (i + k + half) cd.zero) =
          toC (a.getD (i + k) cd.zero) - toC (a.getD (i + k + half) cd.zero) * toC wlen ^ k) ∧
      ∀ idx, idx < i ∨ i + 2 * half ≤ idx →
        toC ((fft_butterfly wlen i (2 * half) a).getD idx cd.zero) =
          toC (a.getD idx cd.zero) := by
  have hdiv : 2 * half / 2 = half := Nat.mul_div_cancel_left half (by norm_num)
  obtain ⟨hl, hv⟩ := fft_butterfly_spec wlen i (2 * half) a (by rw [hdiv]; exact hb)
  rw [hdiv] at hv
  refine ⟨hl, ?_, ?_, ?_⟩
  · intro k hk
    rw [hv (i + k), if_pos ⟨by omega, by omega⟩, show i + k - i = k by omega]
  · intro k hk
    have c1 : ¬ (i ≤ i + k + half ∧ i + k + half < i + half) := by omega
    rw [hv (i + k + half), if_neg c1, if_pos ⟨by omega, by omega⟩,
      show i + k + half - half = i + k by omega, show i + k - i = k by omega]
  · intro idx hidx
    have c1 : ¬ (i ≤ idx ∧ idx < i + half) := by omega
    have c2 : ¬ (i + half ≤ idx ∧ idx < i + half + half) := by omega
    rw [hv idx, if_neg c1, if_neg c2]

/-- The block loop of lines 40-49 on a vector of `q` blocks of `2 * half`
cells, started at block `B0` with enough fuel: every block from `B0` on
receives the butterfly of its two halves, the blocks before `B0` keep their
values. -/
theorem fft_blocks_spec (wlen : cd ℝ) (half q : Nat) (hhalf : 0 < half) :
    ∀ (fuel B0 : Nat) (a : List (cd ℝ)), a.length = q * (2 * half) → q ≤ B0 + fuel →
      (fft_blocks wlen (q * (2 * half)) (2 * half) fuel (B0 * (2 * half)) a).length =
          a.length ∧
        ∀ B k, B < q → k < half →
          toC ((fft_blocks wlen (q * (2 * half)) (2 * half) fuel (B0 * (2 * half)) a).getD
              (B * (2 * half) + k) cd.zero) =
            (if B0 ≤ B then
              toC (a.getD (B * (2 * half) + k) cd.zero) +
                toC (a.getD (B * (2 * half) + k + half) cd.zero) * toC wlen ^ k
            else toC (a.getD (B * (2 * half) + k) cd.zero)) ∧
          toC ((fft_blocks wlen (q * (2 * half)) (2 * half) fuel (B0 * (2 * half)) a).getD
              (B * (2 * half) + k + half) cd.zero) =
            (if B0 ≤ B then
              toC (a.getD (B * (2 * half) + k) cd.zero) -
                toC (a.getD (B * (2 * half) + k + half) cd.zero) * toC wlen ^ k
            else toC (a.getD (B * (2 * half) + k + half) cd.zero)) := by
  intro fuel
  induction fuel with
  | zero =>
    intro B0 a _ hq
    refine ⟨rfl, fun B k hB _ => ?_⟩
    simp only [fft_blocks]
    have c2 : ¬ (B0 ≤ B) := by omega
    rw [if_neg c2, if_neg c2]
    exact ⟨rfl, rfl⟩
  | succ fuel ih =>
    intro B0 a ha hq
    rw [fft_blocks]
    by_cases hlt : B0 * (2 * half) < q * (2 * half)
    · rw [if_pos hlt]
      have hB0 : B0 < q := lt_of_mul_lt_mul_right hlt (Nat.zero_le _)
      have hq1 : (B0 + 1) * (2 * half) ≤ q * (2 * half) := Nat.mul_le_mul_right _ hB0
      rw [Nat.add_mul, Nat.one_mul] at hq1
      obtain ⟨hl1, hlo, hup, hout⟩ := fft_butterfly_cases wlen (B0 * (2 * half)) half a
        (by rw [ha]; omega)
      have hstep : B0 * (2 * half) + 2 * half = (B0 + 1) * (2 * half) := by
        rw [Nat.add_mul, Nat.one_mul]
      rw [hstep]
      obtain ⟨hl2, hv2⟩ := ih (B0 + 1) (fft_butterfly wlen (B0 * (2 * half)) (2 * half) a)
        (by rw [hl1, ha]) (by omega)
      refine ⟨by rw [hl2, hl1], fun B k hB hk => ?_⟩
      obtain ⟨h1, h2⟩ := hv2 B k hB hk
      rw [h1, h2]
      rcases Nat.lt_trichotomy B B0 with hc | hc | hc
      · have hm : (B + 1) * (2 * half) ≤ B0 * (2 * half) := Nat.mul_le_mul_right _ hc
        rw [Nat.add_mul, Nat.one_mul] at hm
        have c1 : ¬ (B0 + 1 ≤ B) := by omega
        have c2 : ¬ (B0 ≤ B) := by omega
        rw [if_neg c1, if_neg c2, if_neg c1, if_neg c2,
          hout (B * (2 * half) + k) (by omega), hout (B * (2 * half) + k + half) (by omega)]
        exact ⟨rfl, rfl⟩
      · subst hc
        have c1 : ¬ (B + 1 ≤ B) := by omega
        rw [if_neg c1, if_pos (le_refl B), if_neg c1, if_pos (le_refl B), hlo k hk, hup k hk]
        exact ⟨rfl, rfl⟩
      · have hm : (B0 + 1) * (2 * half) ≤ B * (2 * half) := Nat.mul_le_mul_right _ hc
        rw [Nat.add_mul, Nat.one_mul] at hm
        have c1 : B0 + 1 ≤ B := by omega
        have c2 : B0 ≤ B := by omega
        rw [if_pos c1, if_pos c2, if_pos c1, if_pos c2,
          hout (B * (2 * half) + k) (by omega), hout (B * (2 * half) + k + half) (by omega)]
        exact ⟨rfl, rfl⟩
    · rw [if_neg hlt]
      have hB0 : q ≤ B0 := by
        by_contra hc
        exact hlt (Nat.mul_lt_mul_of_pos_right (by omega) (by omega))
      refine ⟨rfl, fun B k hB _ => ?_⟩
      have c2 : ¬ (B0 ≤ B) := by omega
      rw [if_neg c2, if_neg c2]
      exact ⟨rfl, rfl⟩

/-- Squaring the root of order `2 ^ (s + 1)` gives the root of order `2 ^ s`. -/
theorem root_of_unity_sq (s : Nat) : root_of_unity (s + 1) ^ 2 = root_of_unity s := by
  unfold root_of_unity
  rw [← Complex.exp_nat_mul]
  congr 1
  rw [pow_succ]
  field_simp
  ring

/-- The root of order `2 ^ (s + 1)` to the power `2 ^ s` is `-1`. -/
theorem root_of_unity_half (s : Nat) : root_of_unity (s + 1) ^ 2 ^ s = -1 := by
  unfold root_of_unity
  rw [← Complex.exp_nat_mul, ← Complex.exp_pi_mul_I]
  congr 1
  rw [pow_succ]
  push_cast
  field_simp
  ring

/-- The twiddle factor `wlen` of line 39 for `len = 2 ^ (s + 1)` in the forward
transform is the root of unity of order `2 ^ (s + 1)`. -/
theorem toC_wlen (s : Nat) :
    toC ⟨CMath.cos (2 * PI / ((2 ^ (s + 1) : Nat) : ℝ) * (if false = true then -1 else 1)),
      CMath.sin (2 * PI / ((2 ^ (s + 1) : Nat) : ℝ) * (if false = true then -1 else 1))⟩ =
      root_of_unity (s + 1) := by
  have hpi : (PI : ℝ) = Real.pi := Real.arccos_neg_one
  have hx : (2 : ℂ) * (Real.pi : ℂ) * Complex.I / (2 : ℂ) ^ (s + 1) =
      ((2 * Real.pi / ((2 ^ (s + 1) : Nat) : ℝ) : ℝ) : ℂ) * Complex.I := by
    push_cast
    ring
  unfold root_of_unity
  rw [hx, hpi]
  simp only [Bool.false_eq_true, if_false, mul_one]
  apply Complex.ext
  · rw [Complex.exp_ofReal_mul_I_re]; rfl
  · rw [Complex.exp_ofReal_mul_I_im]; rfl

/-- The stage invariant holds after the bit-reversal pass, with blocks of one
cell. -/
theorem stageInv_zero (L : Nat) (a : List (cd ℝ)) (ha : a.length = 2 ^ L) :
    StageInv L 0 (fun t => toC (a.getD t cd.zero)) a := by
  refine ⟨ha, fun B k _ hk => ?_⟩
  have : k = 0 := by simpa using hk
  subst this
  simp [dft_rev, brev]

/-- One stage of `fft`: the block loop for `len = 2 ^ (s + 1)` takes the
invariant from `s` to `s + 1`. -/
theorem stageInv_step (L s : Nat) (A0 : Nat → ℂ) (a : List (cd ℝ)) (wlen : cd ℝ)
    (hs : s < L) (hw : toC wlen = root_of_unity (s + 1)) (h : StageInv L s A0 a) :
    StageInv L (s + 1) A0 (fft_blocks wlen (2 ^ L) (2 ^ (s + 1)) (2 ^ L) 0 a) := by
  obtain ⟨hlen, hv⟩ := h
  have hq : 2 ^ L = 2 ^ (L - (s + 1)) * (2 * 2 ^ s) := by
    rw [← pow_succ', ← pow_add]
    congr 1
    omega
  have hq2 : 2 ^ (L - s) = 2 * 2 ^ (L - (s + 1)) := by
    rw [← pow_succ']
    congr 1
    omega
  have hlen' : 2 ^ (s + 1) = 2 * 2 ^ s := pow_succ' 2 s
  have hfuel : 2 ^ (L - (s + 1)) ≤ 0 + 2 ^ L := by
    rw [Nat.zero_add]
    exact Nat.pow_le_pow_right (by norm_num) (by omega)
  have hpos : 0 < 2 ^ s := pow_pos (by norm_num) s
  obtain ⟨hl1, hv1⟩ := fft_blocks_spec wlen (2 ^ s) (2 ^ (L - (s + 1))) hpos (2 ^ L) 0 a
    (by rw [hlen]; exact hq) hfuel
  rw [Nat.zero_mul, ← hq, ← hlen'] at hl1 hv1
  refine ⟨by rw [hl1, hlen], ?_⟩
  intro B k hB hk
  have hBq : 2 * B + 1 < 2 ^ (L - s) := by omega
  by_cases hk2 : k < 2 ^ s
  · obtain ⟨h1, _⟩ := hv1 B k hB hk2
    rw [h1, if_pos (Nat.zero_le _), dft_rev_succ root_of_unity root_of_unity_sq, hw]
    have e1 : B * 2 ^ (s + 1) + k = 2 * B * 2 ^ s + k := by rw [hlen']; ring
    have e2 : B * 2 ^ (s + 1) + k + 2 ^ s = (2 * B + 1) * 2 ^ s + k := by rw [hlen']; ring
    rw [e2, e1, hv (2 * B) k (by omega) hk2, hv (2 * B + 1) k hBq hk2]
    congr 2
    · funext t; rw [hlen']; congr 1; ring
    · congr 1
      funext t; rw [hlen']; congr 1; ring
  · obtain ⟨k', rfl⟩ : ∃ k', k = k' + 2 ^ s := ⟨k - 2 ^ s, by omega⟩
    have hk' : k' < 2 ^ s := by omega
    obtain ⟨_, h1⟩ := hv1 B k' hB hk'
    rw [← Nat.add_assoc, h1, if_pos (Nat.zero_le _),
      dft_rev_succ_upper root_of_unity root_of_unity_sq root_of_unity_half, hw]
    have e1 : B * 2 ^ (s + 1) + k' = 2 * B * 2 ^ s + k' := by rw [hlen']; ring
    have e2 : B * 2 ^ (s + 1) + k' + 2 ^ s = (2 * B + 1) * 2 ^ s + k' := by rw [hlen']; ring
    rw [e2, e1, hv (2 * B) k' (by omega) hk', hv (2 * B + 1) k' hBq hk']
    congr 2
    · funext t; rw [hlen']; congr 1; ring
    · congr 1
      funext t; rw [hlen']; congr 1; ring

/-- The stage loop of the forward `fft` on a vector of `2 ^ L` cells, started at
`len = 2 ^ (s + 1)` with enough fuel, takes the invariant from `s` to `L`. -/
theorem fft_stages_spec (L : Nat) (A0 : Nat → ℂ) :
    ∀ (fuel s : Nat) (a : List (cd ℝ)), s ≤ L → L ≤ s + fuel → StageInv L s A0 a →
      StageInv L L A0 (fft_stages false (2 ^ L) (2 ^ L) fuel (2 ^ (s + 1)) a) := by
  intro fuel
  induction fuel with
  | zero =>
    intro s a hs hf h
    have : s = L := by omega
    subst this
    simpa [fft_stages] using h
  | succ fuel ih =>
    intro s a hs hf h
    rw [fft_stages]
    by_cases hlt : 2 ^ (s + 1) ≤ 2 ^ L
    · rw [if_pos hlt]
      have hsL : s < L := by
        have := (Nat.pow_le_pow_iff_right (by norm_num : 1 < 2)).mp hlt
        omega
      simp only []
      have e : 2 ^ (s + 1) <<< 1 = 2 ^ (s + 1 + 1) := by
        rw [Nat.shiftLeft_eq, pow_succ 2 (s + 1)]
      rw [e]
      exact ih (s + 1) _ hsL (by omega) (stageInv_step L s A0 a _ hsL (toC_wlen s) h)
    · rw [if_neg hlt]
      have : s = L := by
        by_contra hne
        exact hlt (Nat.pow_le_pow_right (by norm_num) (by omega))
      subst this
      exact h

/-- On a vector of `2 ^ L` cells the `lg_n` loop of `fft` stops at `L`. -/
theorem fft_lg_n_two_pow (L : Nat) :
    ∀ fuel lg_n, lg_n ≤ L → L ≤ lg_n + fuel → fft_lg_n (2 ^ L) fuel lg_n = L := by
  intro fuel
  induction fuel with
  | zero => intro lg_n h1 h2; simp only [fft_lg_n]; omega
  | succ fuel ih =>
    intro lg_n h1 h2
    rw [fft_lg_n, Nat.one_shiftLeft]
    by_cases h : 2 ^ lg_n < 2 ^ L
    · rw [if_pos h]
      have := (Nat.pow_lt_pow_iff_right (by norm_num : 1 < 2)).mp h
      exact ih (lg_n + 1) (by omega) (by omega)
    · rw [if_neg h]
      by_contra hne
      exact h (Nat.pow_lt_pow_right (by norm_num) (by omega))

/-- The forward `fft` on a vector of `2 ^ L` cells: cell `k` receives the sum of
`a[t] * w ^ (k * t)` with `w = exp (2 π i / 2 ^ L)`. -/
theorem fft_forward_spec (L : Nat) (a : List (cd ℝ)) (ha : a.length = 2 ^ L) :
    (fft a false).length = 2 ^ L ∧
      ∀ k, k < 2 ^ L →
        toC ((fft a false).getD k cd.zero) =
          Finset.sum (Finset.range (2 ^ L))
            (fun t => toC (a.getD t cd.zero) * root_of_unity L ^ (k * t)) := by
  unfold fft fft_with_fuel
  simp only [Bool.false_eq_true, if_false]
  rw [ha, fft_lg_n_two_pow L (2 ^ L) 0 (Nat.zero_le _) (by
    have := Nat.lt_two_pow L
    omega)]
  obtain ⟨hl0, hv0⟩ := fft_bit_reverse_spec L a ha
  have hinv := fft_stages_spec L _ (2 ^ L) 0 _ (Nat.zero_le _)
    (by have := Nat.lt_two_pow L; omega) (stageInv_zero L _ hl0)
  rw [Nat.zero_add, pow_one] at hinv
  obtain ⟨hl, hv⟩ := hinv
  refine ⟨hl, fun k hk => ?_⟩
  have := hv 0 k (by simp) hk
  rw [Nat.zero_mul, Nat.zero_add] at this
  rw [this]
  unfold dft_rev
  apply Finset.sum_congr rfl
  intro t ht
  rw [Finset.mem_range] at ht
  simp only [Nat.zero_mul, Nat.zero_add]
  rw [hv0 _ (brev_lt L t), brev_brev L t ht]

/-- A loop `v[i] = f(i)` over `[0, n)` on a vector of at least `n` elements. -/
theorem getD_foldl_set_range {α : Type} (f : Nat → α) (n : Nat) (l : List α) (d : α)
    (hn : n ≤ l.length) :
    ((List.range n).foldl (fun p i => p.set i (f i)) l).length = l.length ∧
      ∀ k, ((List.range n).foldl (fun p i => p.set i (f i)) l).getD k d =
        if k < n then f k else l.getD k d := by
  apply foldl_range_inv
    (fun j (cur : List α) => cur.length = l.length ∧
      ∀ k, cur.getD k d = if k < j then f k else l.getD k d)
  · exact ⟨rfl, fun k => by rw [if_neg (by omega)]⟩
  · intro j cur hj hcur
    obtain ⟨hl, hv⟩ := hcur
    refine ⟨by simp [hl], fun k => ?_⟩
    rw [getD_set_eq, hv k]
    by_cases h : j = k
    · subst h
      rw [if_pos ⟨rfl, by omega⟩, if_pos (by omega)]
    · rw [if_neg (fun h' => h h'.1)]
      have e : k < j + 1 ↔ k < j := by omega
      simp only [e]

/-- The FFT input of `power_spectrum`: the frame, zero-padded to the FFT size. -/
theorem power_spectrum_input (frame : List ℝ) (N : Nat) (hN : frame.length ≤ N) :
    ((List.range frame.length).foldl
        (fun (fft_input : List (cd ℝ)) i => fft_input.set i ⟨frame.getD i 0, 0⟩)
        (List.replicate N cd.zero)).length = N ∧
      ∀ t, toC (((List.range frame.length).foldl
        (fun (fft_input : List (cd ℝ)) i => fft_input.set i ⟨frame.getD i 0, 0⟩)
        (List.replicate N cd.zero)).getD t cd.zero) = ((frame.getD t 0 : ℝ) : ℂ) := by
  obtain ⟨hl, hv⟩ := getD_foldl_set_range (fun i => (⟨frame.getD i 0, 0⟩ : cd ℝ))
    frame.length (List.replicate N cd.zero) cd.zero (by simpa using hN)
  refine ⟨by rw [hl]; simp, fun t => ?_⟩
  rw [hv t]
  by_cases h : t < frame.length
  · rw [if_pos h]
    apply Complex.ext <;> simp [toC]
  · rw [if_neg h]
    have e1 : (List.replicate N (cd.zero : cd ℝ)).getD t cd.zero = cd.zero := by
      simp only [List.getD_eq_getElem?_getD, List.getElem?_replicate]
      split <;> rfl
    have e2 : frame.getD t 0 = 0 := by
      rw [List.getD_eq_getElem?_getD, List.getElem?_eq_none (by omega)]
      rfl
    rw [e1, e2, toC_zero]
    simp

/-- The forward transform with `exp (+2 π i k t / N)` of a real sequence has the
same squared magnitude as the transform with `exp (-2 π i k t / N)`. -/
theorem normSq_sum_root (x : Nat → ℝ) (L k : Nat) :
    Complex.normSq (Finset.sum (Finset.range (2 ^ L))
        (fun t => ((x t : ℝ) : ℂ) * root_of_unity L ^ (k * t))) =
      Complex.normSq (Finset.sum (Finset.range (2 ^ L))
        (fun t => ((x t : ℝ) : ℂ) *
          Complex.exp (-2 * (Real.pi : ℂ) * Complex.I * (k : ℂ) * (t : ℂ) / ((2 ^ L : Nat) : ℂ)))) := by
  rw [← Complex.normSq_conj, map_sum]
  congr 1
  apply Finset.sum_congr rfl
  intro t _
  rw [map_mul, Complex.conj_ofReal, map_pow]
  congr 1
  unfold root_of_unity
  rw [← Complex.exp_conj, ← Complex.exp_nat_mul]
  congr 1
  simp only [map_div₀, map_mul, map_pow, Complex.conj_ofReal, Complex.conj_I]
  push_cast
  simp only [map_ofNat]
  ring

/-- For a frame of at least 2 samples, `2 * power.size() - 2` is the FFT size
of `power_spectrum`, which is at least 2. -/
theorem power_spectrum_size_for_filters [CMath F] (frame : List F) (h : 2 ≤ frame.length) :
    (power_spectrum (hamming_window (pre_emphasis frame))).length =
        power_spectrum_fft_size frame.length frame.length 1 / 2 + 1 ∧
      ((power_spectrum (hamming_window (pre_emphasis frame))).length : Int) * 2 - 2 =
        (power_spectrum_fft_size frame.length frame.length 1 : Int) ∧
      (2 : Int) ≤ (power_spectrum_fft_size frame.length frame.length 1 : Int) := by
  have hlen : (hamming_window (pre_emphasis frame)).length = frame.length := by
    rw [hamming_window_length, (pre_emphasis_spec frame).1]
  obtain ⟨h2, heven⟩ := power_spectrum_fft_size_even frame.length h
  have hp : (power_spectrum (hamming_window (pre_emphasis frame))).length =
      power_spectrum_fft_size frame.length frame.length 1 / 2 + 1 := by
    rw [power_spectrum_length, hlen]
  refine ⟨hp, ?_, by omega⟩
  rw [hp]
  push_cast
  omega

/-- What `extractMFCC` computes for a frame of at least 2 samples: after the
gate of line 255 the filterbank is built for the FFT size of `power_spectrum`,
and the coefficients of `dct` pass through the gate of line 284. -/
theorem extractMFCC_eq [CMath F] [FloorRing F] (frame : List F) (h : 2 ≤ frame.length) :
    extractMFCC frame =
      if compute_energy frame < ENERGY_THRESHOLD ∨ compute_zcr frame < ZCR_THRESHOLD then []
      else if (!(dct (apply_mel_filters (power_spectrum (hamming_window (pre_emphasis frame)))
            (create_mel_filterbanks 40
              (power_spectrum_fft_size frame.length frame.length 1 : Int) SAMPLE_RATE))).isEmpty)
            = true ∧
          (dct (apply_mel_filters (power_spectrum (hamming_window (pre_emphasis frame)))
            (create_mel_filterbanks 40
              (power_spectrum_fft_size frame.length frame.length 1 : Int) SAMPLE_RATE))).getD 0 0
            ≤ C0_SILENCE_THRESHOLD then []
      else dct (apply_mel_filters (power_spectrum (hamming_window (pre_emphasis frame)))
            (create_mel_filterbanks 40
              (power_spectrum_fft_size frame.length frame.length 1 : Int) SAMPLE_RATE)) := by
  obtain ⟨hp, hN, h2⟩ := power_spectrum_size_for_filters frame h
  have hne : (power_spectrum (hamming_window (pre_emphasis frame))).isEmpty = false := by
    cases hv : power_spectrum (hamming_window (pre_emphasis frame)) with
    | nil => rw [hv] at hp; simp at hp
    | cons a l => rfl
  have hlen : ¬ frame.length ≤ 0 := by omega
  have hsz : ¬ ((power_spectrum_fft_size frame.length frame.length 1 : Int) < 2) := by omega
  unfold extractMFCC
  rw [if_neg hlen]
  simp only []
  rw [hne, hN, if_neg hsz]
  simp only [Bool.false_eq_true, if_false]

/-- On a filterbank whose filters are as long as the power spectrum,
`apply_mel_filters` sums over every bin of the power spectrum. -/
theorem apply_mel_filters_full [CMath F] (power : List F) (filterbanks : List (List F))
    (h : ∀ filt ∈ filterbanks, filt.length = power.length) :
    apply_mel_filters power filterbanks =
      filterbanks.map (fun filt =>
        if (List.range power.length).foldl
            (fun acc k => acc + power.getD k 0 * filt.getD k 0) 0 > 0 then
          CMath.log ((List.range power.length).foldl
            (fun acc k => acc + power.getD k 0 * filt.getD k 0) 0)
        else CMath.log (1 / 10000000000)) := by
  unfold apply_mel_filters
  apply List.map_congr_left
  intro filt hf
  simp only [h filt hf, min_self]

/-- The filterbank built for the FFT size `N` of an even size has 40 filters of
`N / 2 + 1` weights. -/
theorem create_mel_filterbanks_size [CMath F] [FloorRing F] (N : Nat) :
    (create_mel_filterbanks (F := F) 40 (N : Int) SAMPLE_RATE).length = 40 ∧
      ∀ filt ∈ create_mel_filterbanks (F := F) 40 (N : Int) SAMPLE_RATE,
        filt.length = N / 2 + 1 := by
  refine ⟨?_, ?_⟩
  · rw [(create_mel_filterbanks_shape _ _ _).1]; rfl
  · intro filt hf
    have := (create_mel_filterbanks_shape (F := F) _ _ _).2 filt hf
    have e : (Int.tdiv (N : Int) 2 + 1).toNat = N / 2 + 1 := by
      have : Int.tdiv (N : Int) 2 = ((N / 2 : Nat) : Int) := by
        rw [Int.tdiv_eq_ediv (by omega) (by omega)]
        norm_cast
      rw [this]
      omega
    rw [e] at this
    exact this

/-- The sum of two finite values. -/
theorem floatVal_add_fin (x y : F) : (FloatVal.fin x).add (.fin y) = .fin (x + y) := rfl

/-- NaN plus a value is NaN. -/
theorem floatVal_add_nan_left (y : FloatVal F) : FloatVal.nan.add y = .nan := by
  cases y <;> rfl

/-- A value plus NaN is NaN. -/
theorem floatVal_add_nan_right (x : FloatVal F) : x.add .nan = .nan := by
  cases x <;> rfl

/-- A finite value plus infinity is infinity. -/
theorem floatVal_add_fin_pinf (x : F) : (FloatVal.fin x).add .pinf = .pinf := rfl

/-- The negation of a finite value. -/
theorem floatVal_neg_fin (x : F) : (FloatVal.fin x).neg = .fin (-x) := rfl

/-- The negation of NaN is NaN. -/
theorem floatVal_neg_nan : (FloatVal.nan : FloatVal F).neg = .nan := rfl

/-- The negation of infinity. -/
theorem floatVal_neg_pinf : (FloatVal.pinf : FloatVal F).neg = .ninf := rfl

/-- A finite value plus negative infinity is negative infinity. -/
theorem floatVal_add_fin_ninf (x : F) : (FloatVal.fin x).add .ninf = .ninf := rfl

/-- The product of two finite values. -/
theorem floatVal_mul_fin (x y : F) : (FloatVal.fin x).mul (.fin y) = .fin (x * y) := rfl

/-- NaN times a value is NaN. -/
theorem floatVal_mul_nan_left (y : FloatVal F) : FloatVal.nan.mul y = .nan := by
  cases y <;> rfl

/-- A value times NaN is NaN. -/
theorem floatVal_mul_nan_right (x : FloatVal F) : x.mul .nan = .nan := by
  cases x <;> rfl

/-- The comparison of two finite values. -/
theorem floatVal_lt_fin (x y : F) : (FloatVal.fin x).lt (.fin y) = decide (x < y) := rfl

/-- NaN is not less than any value. -/
theorem floatVal_lt_nan_left (y : FloatVal F) : FloatVal.nan.lt y = false := by
  cases y <;> rfl

/-- No value is less than NaN. -/
theorem floatVal_lt_nan_right (x : FloatVal F) : x.lt .nan = false := by
  cases x <;> rfl

/-- Infinity is not less than any value. -/
theorem floatVal_lt_pinf_left (y : FloatVal F) : FloatVal.pinf.lt y = false := by
  cases y <;> rfl

/-- A finite value is less than infinity. -/
theorem floatVal_lt_fin_pinf (x : F) : (FloatVal.fin x).lt .pinf = true := rfl

/-- Negative infinity is less than a finite value. -/
theorem floatVal_lt_ninf_fin (x : F) : (FloatVal.ninf).lt (.fin x) = true := rfl

/-- A finite value is not less than negative infinity. -/
theorem floatVal_lt_fin_ninf (x : F) : (FloatVal.fin x).lt .ninf = false := rfl

/-- The square root of a finite value. -/
theorem floatVal_sqrt_fin [CMath F] (x : F) :
    (FloatVal.fin x).sqrt = if x < 0 then .nan else .fin (CMath.sqrt x) := rfl

/-- The square root of NaN is NaN. -/
theorem floatVal_sqrt_nan [CMath F] : (FloatVal.nan : FloatVal F).sqrt = .nan := rfl

/-- The quotient of two finite values with a non-zero divisor. -/
theorem floatVal_div_fin (x y : F) (h : y ≠ 0) : (FloatVal.fin x).div (.fin y) = .fin (x / y) := by
  simp [FloatVal.div, h]

/-- NaN divided by a value is NaN. -/
theorem floatVal_div_nan_left (y : FloatVal F) : FloatVal.nan.div y = .nan := by
  cases y <;> rfl

/-- A value divided by NaN is NaN. -/
theorem floatVal_div_nan_right (x : FloatVal F) : x.div .nan = .nan := by
  cases x <;> rfl

/-- Infinity divided by a positive finite value is infinity. -/
theorem floatVal_div_pinf_fin (y : F) (h : 0 < y) : (FloatVal.pinf).div (.fin y) = .pinf := by
  simp [FloatVal.div, not_lt.mpr h.le]

/-- Mapping a list does not change whether it is empty. -/
theorem isEmpty_map_eq {α β : Type} (f : α → β) (l : List α) : (l.map f).isEmpty = l.isEmpty := by
  cases l <;> rfl

/-- Reading a frame of a sequence of finite frames. -/
theorem getD_map_fin (s : List (List F)) (i : Nat) :
    (s.map (List.map FloatVal.fin)).getD i [] = (s.getD i []).map FloatVal.fin := by
  have := List.getD_map s [] (n := i) (List.map (FloatVal.fin (F := F)))
  simpa using this

/-- On finite values the sums of `cosineSimilarity` are those of the exact model. -/
theorem ieee_sums_fin (v w : List F) :
    Ieee.cosineSimilarity_sums (v.map .fin) (w.map .fin) =
      (.fin (cosineSimilarity_sums v w).1, .fin (cosineSimilarity_sums v w).2.1,
        .fin (cosineSimilarity_sums v w).2.2) := by
  unfold Ieee.cosineSimilarity_sums cosineSimilarity_sums
  rw [List.length_map]
  exact List.foldl_hom
    (fun s : F × F × F => (FloatVal.fin s.1, FloatVal.fin s.2.1, FloatVal.fin s.2.2)) _ _ _
    (0, 0, 0) (by intro s i; simp only [List.getD_map, floatVal_add_fin, floatVal_mul_fin])

/-- On finite values `cosineSimilarity` is that of the exact model. -/
theorem ieee_cosineSimilarity_fin [CMath F] (v w : List F) :
    Ieee.cosineSimilarity (v.map .fin) (w.map .fin) = .fin (cosineSimilarity v w) := by
  unfold Ieee.cosineSimilarity cosineSimilarity
  simp only [List.length_map, isEmpty_map_eq]
  by_cases h : v.length ≠ w.length ∨ v.isEmpty = true
  · rw [if_pos h, if_pos h]
  · rw [if_neg h, if_neg h]
    have hlen : v.length = w.length := by
      by_contra hne
      exact h (Or.inl hne)
    rw [ieee_sums_fin]
    simp only []
    have hs := cosineSimilarity_sums_eq v w hlen
    have h1 : ¬ (cosineSimilarity_sums v w).2.1 < 0 := by
      rw [hs]; exact not_lt.mpr (sq_norm_nonneg v)
    have h2 : ¬ (cosineSimilarity_sums v w).2.2 < 0 := by
      rw [hs]; exact not_lt.mpr (sq_norm_nonneg w)
    simp only [floatVal_sqrt_fin, if_neg h1, if_neg h2, floatVal_mul_fin, floatVal_lt_fin,
      decide_eq_true_eq]
    by_cases hd : CMath.sqrt (cosineSimilarity_sums v w).2.1 *
        CMath.sqrt (cosineSimilarity_sums v w).2.2 < 1 / 1000000000
    · rw [if_pos hd, if_pos hd]
      split <;> rfl
    · rw [if_neg hd, if_neg hd]
      apply floatVal_div_fin
      intro h0
      apply hd
      rw [h0]
      norm_num

/-- On finite frames the threshold test is that of the exact model. -/
theorem ieee_exceeds_fin (frame : List F) :
    Ieee.exceeds_c0_threshold (frame.map .fin) = exceeds_c0_threshold frame := by
  unfold Ieee.exceeds_c0_threshold exceeds_c0_threshold
  rw [isEmpty_map_eq, List.getD_map, floatVal_lt_fin]

/-- On finite frames `trim_silence` is that of the exact model. -/
theorem ieee_trim_silence_fin (s : List (List F)) :
    Ieee.trim_silence (s.map (List.map .fin)) = (trim_silence s).map (List.map .fin) := by
  have hstart : Ieee.trim_silence_start (s.map (List.map FloatVal.fin)) = trim_silence_start s := by
    unfold Ieee.trim_silence_start trim_silence_start
    simp only [List.length_map, getD_map_fin, ieee_exceeds_fin]
  have hend : ∀ start, Ieee.trim_silence_end (s.map (List.map FloatVal.fin)) start =
      trim_silence_end s start := by
    intro start
    unfold Ieee.trim_silence_end trim_silence_end
    simp only [List.length_map, getD_map_fin, ieee_exceeds_fin]
  unfold Ieee.trim_silence trim_silence
  simp only [isEmpty_map_eq, hstart, hend]
  split
  · rfl
  · split
    · rfl
    · rw [List.map_take, List.map_drop]

/-- On finite frames the frame-copy loop is that of the exact model. -/
theorem ieee_readFrames_fin (s : List (List F)) :
    Ieee.readFrames (s.map (List.map .fin)) =
      (readFrames s).map (fun seq => seq.map (List.map FloatVal.fin)) := by
  induction s with
  | nil => rfl
  | cons frame rest ih =>
    rw [List.map_cons, Ieee.readFrames, readFrames, List.length_map, ih]
    split
    · rfl
    · cases readFrames rest <;> rfl

/-- The comparison of two table cells. -/
theorem floatVal_lt_ofWithTop (a b : WithTop F) :
    (FloatVal.ofWithTop a).lt (FloatVal.ofWithTop b) = decide (a < b) := by
  cases a using Option.rec with
  | none =>
    cases b using Option.rec with
    | none => simp [FloatVal.ofWithTop, FloatVal.lt]
    | some y =>
      simp [FloatVal.ofWithTop, FloatVal.lt]
  | some x =>
    cases b using Option.rec with
    | none =>
      simp [FloatVal.ofWithTop, FloatVal.lt]
    | some y =>
      have : (((x : F) : WithTop F) < ((y : F) : WithTop F)) ↔ x < y := WithTop.coe_lt_coe
      simp only [FloatVal.ofWithTop, FloatVal.lt]
      exact (decide_eq_decide.mpr this).symm

/-- On table cells of the exact model `std::min({a, b, c})` is the minimum. -/
theorem floatVal_std_min3_ofWithTop (a b c : WithTop F) :
    FloatVal.std_min3 (FloatVal.ofWithTop a) (FloatVal.ofWithTop b) (FloatVal.ofWithTop c) =
      FloatVal.ofWithTop (min a (min b c)) := by
  unfold FloatVal.std_min3
  simp only []
  have h1 : (if (FloatVal.ofWithTop b).lt (FloatVal.ofWithTop a) = true then FloatVal.ofWithTop b
      else FloatVal.ofWithTop a) = FloatVal.ofWithTop (min a b) := by
    rw [floatVal_lt_ofWithTop]
    by_cases h : b < a
    · simp [h, min_eq_right h.le]
    · simp [h, min_eq_left (not_lt.mp h)]
  rw [h1, floatVal_lt_ofWithTop, ← min_assoc]
  by_cases h : c < min a b
  · simp [h, min_eq_right h.le]
  · simp [h, min_eq_left (not_lt.mp h)]

/-- Adding a finite cost to a table cell. -/
theorem floatVal_add_ofWithTop (x : F) (m : WithTop F) :
    (FloatVal.fin x).add (FloatVal.ofWithTop m) = FloatVal.ofWithTop ((x : WithTop F) + m) := by
  cases m using Option.rec with
  | none => rfl
  | some y => rfl

/-- Reading a cell of the table of the exact model. -/
theorem ieee_get2_map (dp : List (List (WithTop F))) (i j : Nat) :
    Ieee.get2 (dp.map (List.map FloatVal.ofWithTop)) i j = FloatVal.ofWithTop (get2 dp i j) := by
  unfold Ieee.get2 get2
  have h1 := List.getD_map dp [] (n := i) (List.map (FloatVal.ofWithTop (F := F)))
  simp only [List.map_nil] at h1
  rw [h1]
  exact List.getD_map _ ⊤ FloatVal.ofWithTop

/-- Writing a cell of the table of the exact model. -/
theorem ieee_set2_map (dp : List (List (WithTop F))) (i j : Nat) (v : WithTop F) :
    Ieee.set2 (dp.map (List.map FloatVal.ofWithTop)) i j (FloatVal.ofWithTop v) =
      (set2 dp i j v).map (List.map FloatVal.ofWithTop) := by
  unfold Ieee.set2 set2
  have h1 := List.getD_map dp [] (n := i) (List.map (FloatVal.ofWithTop (F := F)))
  simp only [List.map_nil] at h1
  rw [h1, List.map_set, List.map_set]

/-- On finite frames the loop body of the DTW table is that of the exact model. -/
theorem ieee_dtw_cell_fin [CMath F] (s1 s2 : List (List F)) (i j : Nat)
    (dp : List (List (WithTop F))) :
    Ieee.dtw_cell (s1.map (List.map .fin)) (s2.map (List.map .fin)) i
        (dp.map (List.map FloatVal.ofWithTop)) j =
      (dtw_cell s1 s2 i dp j).map (List.map FloatVal.ofWithTop) := by
  unfold Ieee.dtw_cell dtw_cell
  simp only [getD_map_fin, ieee_cosineSimilarity_fin, ieee_get2_map, floatVal_std_min3_ofWithTop,
    FloatVal.sub, floatVal_neg_fin, floatVal_add_fin, floatVal_add_ofWithTop, ieee_set2_map]
  rw [sub_eq_add_neg]

/-- On finite frames the DTW table is that of the exact model. -/
theorem ieee_dtw_table_fin [CMath F] (s1 s2 : List (List F)) :
    Ieee.dtw_table (s1.map (List.map .fin)) (s2.map (List.map .fin)) =
      (dtw_table s1 s2).map (List.map FloatVal.ofWithTop) := by
  unfold Ieee.dtw_table dtw_table
  simp only [List.length_map]
  have h0 : Ieee.set2 (List.replicate (s1.length + 1)
        (List.replicate (s2.length + 1) (FloatVal.pinf : FloatVal F))) 0 0 (.fin 0) =
      (set2 (List.replicate (s1.length + 1) (List.replicate (s2.length + 1) (⊤ : WithTop F)))
        0 0 0).map (List.map FloatVal.ofWithTop) := by
    rw [← ieee_set2_map]
    simp only [List.map_replicate]
    rfl
  rw [h0]
  apply List.foldl_hom (fun dp : List (List (WithTop F)) => dp.map (List.map FloatVal.ofWithTop))
  intro dp i
  apply List.foldl_hom (fun dp : List (List (WithTop F)) => dp.map (List.map FloatVal.ofWithTop))
  intro dp j
  exact ieee_dtw_cell_fin s1 s2 i j dp

/-- On a table cell of the exact model and a finite denominator the score
computation is that of the exact model. -/
theorem ieee_dtw_similarity_fin (cell : WithTop F) (d : F) (R C : Nat) :
    Ieee.dtw_similarity (FloatVal.ofWithTop cell) (.fin d) R C =
      .fin (dtw_similarity cell d R C) := by
  have hclamp : ∀ s : F, FloatVal.std_max (.fin 0) (FloatVal.std_min (.fin 1) (.fin s)) =
      .fin (max 0 (min 1 s)) := by
    intro s
    unfold FloatVal.std_max FloatVal.std_min
    simp only [floatVal_lt_fin, decide_eq_true_eq]
    by_cases h1 : s < 1
    · rw [if_pos h1, min_eq_right h1.le, floatVal_lt_fin]
      by_cases h0 : 0 < s
      · simp [h0, max_eq_right h0.le]
      · simp [h0, max_eq_left (not_lt.mp h0)]
    · rw [if_neg h1, min_eq_left (not_lt.mp h1), floatVal_lt_fin]
      simp
  unfold Ieee.dtw_similarity dtw_similarity
  cases cell using Option.rec with
  | none =>
    simp only [FloatVal.ofWithTop, floatVal_lt_fin, decide_eq_true_eq, floatVal_lt_pinf_left,
      Bool.false_eq_true, false_and, if_false]
    by_cases hd : 1 / 1000000 < d
    · rw [if_pos hd, floatVal_div_pinf_fin d (lt_trans (by norm_num) hd)]
      simp [FloatVal.sub, FloatVal.neg, FloatVal.add, FloatVal.std_min, FloatVal.std_max,
        FloatVal.lt]
    · rw [if_neg hd]
      have := hclamp 0
      simpa using this
  | some x =>
    simp only [FloatVal.ofWithTop, floatVal_lt_fin, decide_eq_true_eq]
    by_cases hd : 1 / 1000000 < d
    · have hd0 : d ≠ 0 := ne_of_gt (lt_trans (by norm_num) hd)
      rw [if_pos hd, if_pos hd, floatVal_div_fin _ _ hd0]
      simp only [FloatVal.sub, floatVal_neg_fin, floatVal_add_fin]
      rw [hclamp, sub_eq_add_neg]
    · rw [if_neg hd, if_neg hd]
      split
      · exact hclamp 1
      · exact hclamp 0

/-- On finite frames the score of the trimmed sequences is that of the exact model. -/
theorem ieee_dtw_score_fin [CMath F] (s1 s2 : List (List F)) :
    Ieee.dtw_score (s1.map (List.map .fin)) (s2.map (List.map .fin)) =
      .fin (dtw_score s1 s2) := by
  unfold Ieee.dtw_score dtw_score
  simp only [ieee_trim_silence_fin, isEmpty_map_eq, List.length_map]
  split
  · rfl
  · rw [ieee_dtw_table_fin, ieee_get2_map, ieee_dtw_similarity_fin]

/-- On frames of finite values the IEEE model of `computeDTW` returns the value
of the exact model. -/
theorem ieee_computeDTW_fin [CMath F] (A B : List (List F)) :
    Ieee.computeDTW (A.map (List.map .fin)) (B.map (List.map .fin)) = .fin (computeDTW A B) := by
  unfold Ieee.computeDTW computeDTW
  simp only [List.length_map, ieee_readFrames_fin]
  split
  · rfl
  · cases readFrames A with
    | none => rfl
    | some seq1 =>
      cases readFrames B with
      | none => rfl
      | some seq2 => exact ieee_dtw_score_fin seq1 seq2

/-- The cosine similarity of the NaN frame and the unit frame is NaN. -/
theorem ieee_cosineSimilarity_nan_left :
    Ieee.cosineSimilarity (nan_frame (F := ℝ)) unit_frame = .nan := by
  norm_num [Ieee.cosineSimilarity, Ieee.cosineSimilarity_sums, nan_frame, unit_frame, List.range,
    List.range.loop, floatVal_add_fin, floatVal_add_nan_left, floatVal_add_nan_right,
    floatVal_mul_fin, floatVal_mul_nan_left, floatVal_mul_nan_right, floatVal_sqrt_fin,
    floatVal_sqrt_nan, floatVal_lt_nan_left, floatVal_div_nan_right]

/-- The cosine similarity of the unit frame and the NaN frame is NaN. -/
theorem ieee_cosineSimilarity_nan_right :
    Ieee.cosineSimilarity (unit_frame (F := ℝ)) nan_frame = .nan := by
  norm_num [Ieee.cosineSimilarity, Ieee.cosineSimilarity_sums, nan_frame, unit_frame, List.range,
    List.range.loop, floatVal_add_fin, floatVal_add_nan_left, floatVal_add_nan_right,
    floatVal_mul_fin, floatVal_mul_nan_left, floatVal_mul_nan_right, floatVal_sqrt_fin,
    floatVal_sqrt_nan, floatVal_lt_nan_left, floatVal_div_nan_right]

/-- The cosine similarity of the unit frame with itself is `1`. -/
theorem ieee_cosineSimilarity_unit :
    Ieee.cosineSimilarity (unit_frame (F := ℝ)) unit_frame = .fin 1 := by
  norm_num [Ieee.cosineSimilarity, Ieee.cosineSimilarity_sums, unit_frame, List.range,
    List.range.loop, floatVal_add_fin, floatVal_mul_fin, floatVal_sqrt_fin, floatVal_lt_fin,
    CMath.sqrt]
  rw [floatVal_div_fin _ _ (by norm_num)]
  norm_num

/-- The NaN frame passes the threshold test: its first value is `1`. -/
theorem ieee_exceeds_nan_frame : Ieee.exceeds_c0_threshold (nan_frame (F := ℝ)) = true := by
  norm_num [Ieee.exceeds_c0_threshold, nan_frame, floatVal_lt_fin, C0_SILENCE_THRESHOLD]

/-- The unit frame passes the threshold test. -/
theorem ieee_exceeds_unit_frame : Ieee.exceeds_c0_threshold (unit_frame (F := ℝ)) = true := by
  norm_num [Ieee.exceeds_c0_threshold, unit_frame, floatVal_lt_fin, C0_SILENCE_THRESHOLD]

/-- Nothing is trimmed from the sequence of the NaN frame and the unit frame. -/
theorem ieee_trim_silence_nan_unit :
    Ieee.trim_silence [nan_frame (F := ℝ), unit_frame] = [nan_frame, unit_frame] := by
  simp [Ieee.trim_silence, Ieee.trim_silence_start, Ieee.trim_silence_end, List.range,
    List.range.loop, List.range', ieee_exceeds_nan_frame, ieee_exceeds_unit_frame, List.find?]

/-- Nothing is trimmed from the sequence of the unit frame. -/
theorem ieee_trim_silence_unit :
    Ieee.trim_silence [unit_frame (F := ℝ)] = [unit_frame] := by
  simp [Ieee.trim_silence, Ieee.trim_silence_start, Ieee.trim_silence_end, List.range,
    List.range.loop, List.range', ieee_exceeds_unit_frame, List.find?]

/-- Both frames have 13 values. -/
theorem ieee_readFrames_nan_unit :
    Ieee.readFrames [nan_frame (F := ℝ), unit_frame] = some [nan_frame, unit_frame] := by
  simp [Ieee.readFrames, nan_frame, unit_frame]

/-- The unit frame has 13 values. -/
theorem ieee_readFrames_unit :
    Ieee.readFrames [unit_frame (F := ℝ)] = some [unit_frame] := by
  simp [Ieee.readFrames, unit_frame]

/-- With the NaN frame in the first sequence the NaN cost reaches the final cell
through `val_a`, the first argument of `std::min`, and the clamp returns `1`. -/
theorem ieee_computeDTW_nan_left :
    Ieee.computeDTW [nan_frame (F := ℝ), unit_frame] [unit_frame] = .fin 1 := by
  norm_num [Ieee.computeDTW, ieee_readFrames_nan_unit, ieee_readFrames_unit, Ieee.dtw_score,
    ieee_trim_silence_nan_unit, ieee_trim_silence_unit, Ieee.dtw_table,
    Ieee.dtw_cell, Ieee.get2, Ieee.set2, List.range', ieee_cosineSimilarity_nan_left,
    ieee_cosineSimilarity_unit, FloatVal.sub,
    floatVal_add_fin, floatVal_add_nan_left, floatVal_add_nan_right, floatVal_neg_fin,
    floatVal_neg_nan, FloatVal.std_min3, floatVal_lt_fin, floatVal_lt_nan_left,
    floatVal_lt_nan_right, floatVal_lt_pinf_left, floatVal_lt_fin_pinf, Ieee.dtw_similarity,
    floatVal_div_nan_left, FloatVal.std_min, FloatVal.std_max, List.replicate]

/-- With the NaN frame in the second sequence the NaN cost is `val_b`, the
second argument of `std::min`, which drops it: the final cell is infinite and
the clamp returns `0`. -/
theorem ieee_computeDTW_nan_right :
    Ieee.computeDTW [unit_frame (F := ℝ)] [nan_frame, unit_frame] = .fin 0 := by
  norm_num [Ieee.computeDTW, ieee_readFrames_nan_unit, ieee_readFrames_unit, Ieee.dtw_score,
    ieee_trim_silence_nan_unit, ieee_trim_silence_unit, Ieee.dtw_table,
    Ieee.dtw_cell, Ieee.get2, Ieee.set2, List.range', ieee_cosineSimilarity_nan_right,
    ieee_cosineSimilarity_unit, FloatVal.sub,
    floatVal_add_fin, floatVal_add_nan_left, floatVal_add_nan_right, floatVal_neg_fin,
    floatVal_neg_nan, floatVal_neg_pinf, floatVal_add_fin_pinf, floatVal_add_fin_ninf,
    FloatVal.std_min3, floatVal_lt_fin, floatVal_lt_nan_left,
    floatVal_lt_nan_right, floatVal_lt_pinf_left, floatVal_lt_fin_pinf, floatVal_lt_ninf_fin,
    floatVal_lt_fin_ninf, Ieee.dtw_similarity,
    floatVal_div_nan_left, FloatVal.std_min, FloatVal.std_max, List.replicate]
  rw [floatVal_div_pinf_fin _ (by norm_num)]
  norm_num [floatVal_neg_pinf, floatVal_add_fin_ninf, floatVal_lt_ninf_fin, floatVal_lt_fin_ninf]

end Lemmas

/-! ## The claims -/

section Claims

variable {F : Type} [LinearOrderedField F]

/-- C2. `computeDTW` is reflexive: for a non-empty sequence `S` whose frames all
have 13 coefficients, the final cell of the DTW table of `S` against itself
is `0` and `computeDTW S S = 1`.  The square root is assumed non-negative and
inverse to squaring on the non-negative numbers; no condition on the norms of
the frames is needed. -/
theorem computeDTW_reflexive [CMath F]
    (hsqrt : ∀ x : F, 0 ≤ x → 0 ≤ CMath.sqrt x ∧ CMath.sqrt x * CMath.sqrt x = x)
    (S : List (List F)) (hne : S ≠ []) (h13 : ∀ frame ∈ S, frame.length = 13) :
    get2 (dtw_table (trim_silence S) (trim_silence S))
        (trim_silence S).length (trim_silence S).length = 0 ∧
      computeDTW S S = 1 := by
  refine ⟨dtw_final_self hsqrt _ ?_, computeDTW_self (fun x hx => (hsqrt x hx).2) S hne h13⟩
  intro frame hf e
  have := h13 frame (mem_of_mem_trim_silence S frame hf)
  rw [e] at this
  simp at this

/-- Witness for C2: a two-frame sequence over the reals. -/
theorem computeDTW_reflexive_witness :
    get2 (dtw_table
        (trim_silence ([[1, 2, 3, 4, 5, 6, 7, 8, 9, 10, 11, 12, 13],
          [-50, 0, 0, 0, 0, 0, 0, 0, 0, 0, 0, 0, 1]] : List (List ℝ)))
        (trim_silence [[1, 2, 3, 4, 5, 6, 7, 8, 9, 10, 11, 12, 13],
          [-50, 0, 0, 0, 0, 0, 0, 0, 0, 0, 0, 0, 1]]))
        (trim_silence ([[1, 2, 3, 4, 5, 6, 7, 8, 9, 10, 11, 12, 13],
          [-50, 0, 0, 0, 0, 0, 0, 0, 0, 0, 0, 0, 1]] : List (List ℝ))).length
        (trim_silence ([[1, 2, 3, 4, 5, 6, 7, 8, 9, 10, 11, 12, 13],
          [-50, 0, 0, 0, 0, 0, 0, 0, 0, 0, 0, 0, 1]] : List (List ℝ))).length = 0 ∧
      computeDTW ([[1, 2, 3, 4, 5, 6, 7, 8, 9, 10, 11, 12, 13],
          [-50, 0, 0, 0, 0, 0, 0, 0, 0, 0, 0, 0, 1]] : List (List ℝ))
        [[1, 2, 3, 4, 5, 6, 7, 8, 9, 10, 11, 12, 13],
          [-50, 0, 0, 0, 0, 0, 0, 0, 0, 0, 0, 0, 1]] = 1 :=
  computeDTW_reflexive real_sqrt_spec _ (by simp)
    (by intro frame hf; simp at hf; rcases hf with rfl | rfl <;> rfl)

/-- C3. `computeDTW` returns `0` whenever either input sequence is empty or
some frame of either sequence has a length other than 13, whatever the other
frames contain. -/
theorem computeDTW_rejects_invalid [CMath F] (A B : List (List F))
    (h : A = [] ∨ B = [] ∨ (∃ frame ∈ A, frame.length ≠ 13) ∨
      (∃ frame ∈ B, frame.length ≠ 13)) :
    computeDTW A B = 0 :=
  computeDTW_invalid A B h

/-- Witness for C3: the second sequence has a frame of 2 coefficients. -/
theorem computeDTW_rejects_invalid_witness :
    computeDTW ([[1, 2, 3, 4, 5, 6, 7, 8, 9, 10, 11, 12, 13]] : List (List ℝ))
      [[1, 2, 3, 4, 5, 6, 7, 8, 9, 10, 11, 12, 13], [1, 2]] = 0 :=
  computeDTW_rejects_invalid _ _
    (Or.inr (Or.inr (Or.inr ⟨[1, 2], by simp, by simp⟩)))

/-- C4 (failing input). A sequence of 10 frames of 13 coefficients, all with
`C0 = -50`, is returned unchanged by `trim_silence`, and `computeDTW` of it
against itself is `1`, not `0`. -/
theorem computeDTW_all_silent_not_zero :
    trim_silence (List.replicate 10 ([-50, 0, 0, 0, 0, 0, 0, 0, 0, 0, 0, 0, 0] : List ℝ)) =
        List.replicate 10 [-50, 0, 0, 0, 0, 0, 0, 0, 0, 0, 0, 0, 0] ∧
      computeDTW (List.replicate 10 ([-50, 0, 0, 0, 0, 0, 0, 0, 0, 0, 0, 0, 0] : List ℝ))
        (List.replicate 10 [-50, 0, 0, 0, 0, 0, 0, 0, 0, 0, 0, 0, 0]) = 1 := by
  constructor
  · apply trim_silence_all_silent
    intro frame hf
    rw [List.eq_of_mem_replicate hf]
    simp [exceeds_c0_threshold, C0_SILENCE_THRESHOLD]
    norm_num
  · apply computeDTW_self (fun x hx => (real_sqrt_spec x hx).2) _ (by simp)
    intro frame hf
    rw [List.eq_of_mem_replicate hf]
    rfl

/-- C5 (failing input). On a three-frame sequence whose `C0` values `-50`,
`-45`, `-60` are all at most `-40`, `trim_silence` returns the whole
sequence: the result is not empty and neither its first nor its last frame
has a `C0` above the threshold. -/
theorem trim_silence_all_silent_kept :
    trim_silence ([[-50, 1, 0, 0, 0, 0, 0, 0, 0, 0, 0, 0, 0],
        [-45, 2, 0, 0, 0, 0, 0, 0, 0, 0, 0, 0, 0],
        [-60, 3, 0, 0, 0, 0, 0, 0, 0, 0, 0, 0, 0]] : List (List ℚ)) =
      [[-50, 1, 0, 0, 0, 0, 0, 0, 0, 0, 0, 0, 0],
        [-45, 2, 0, 0, 0, 0, 0, 0, 0, 0, 0, 0, 0],
        [-60, 3, 0, 0, 0, 0, 0, 0, 0, 0, 0, 0, 0]] ∧
      ¬ ((-50 : ℚ) > C0_SILENCE_THRESHOLD) ∧ ¬ ((-60 : ℚ) > C0_SILENCE_THRESHOLD) := by
  decide

/-- C6. For every input frame, `extractMFCC` returns either the empty sequence
or a sequence of exactly 13 coefficients whose first element `C0` is strictly
greater than the silence threshold `-40`. -/
theorem extractMFCC_empty_or_13 [CMath F] [FloorRing F] (frame : List F) :
    extractMFCC frame = [] ∨
      ((extractMFCC frame).length = 13 ∧ (extractMFCC frame).getD 0 0 > -40) :=
  extractMFCC_nil_or frame

/-- C7. For sequences `A` and `B` of 13-coefficient frames that trim to
non-empty sequences of lengths `R` and `C`, the final cell `dp[R][C]` of the DTW
table is a finite number `d` and `computeDTW A B` is `1 - d / (R + C)` clamped
to `[0, 1]`; and for every input the result lies in `[0, 1]`. -/
theorem computeDTW_score_formula [CMath F] (A B : List (List F)) :
    ((∀ frame ∈ A, frame.length = 13) → (∀ frame ∈ B, frame.length = 13) →
      trim_silence A ≠ [] → trim_silence B ≠ [] →
      ∃ d : F,
        get2 (dtw_table (trim_silence A) (trim_silence B))
          (trim_silence A).length (trim_silence B).length = (d : WithTop F) ∧
        computeDTW A B =
          max 0 (min 1 (1 - d /
            (((trim_silence A).length : F) + ((trim_silence B).length : F))))) ∧
      (0 ≤ computeDTW A B ∧ computeDTW A B ≤ 1) := by
  refine ⟨?_, computeDTW_range A B⟩
  intro hA hB tA tB
  have hA' : A ≠ [] := fun e => tA ((trim_silence_nil_iff A).mpr e)
  have hB' : B ≠ [] := fun e => tB ((trim_silence_nil_iff B).mpr e)
  obtain ⟨d, hd, hs⟩ := dtw_score_eq A B tA tB
  refine ⟨d, hd, ?_⟩
  rw [computeDTW_eq_dtw_score A B hA' hB' hA hB, hs, Nat.cast_add]

/-- Witness for C7: two one-frame sequences over the reals. -/
theorem computeDTW_score_formula_witness :
    ∃ d : ℝ,
      get2 (dtw_table
          (trim_silence ([[1, 2, 3, 4, 5, 6, 7, 8, 9, 10, 11, 12, 13]] : List (List ℝ)))
          (trim_silence ([[13, 12, 11, 10, 9, 8, 7, 6, 5, 4, 3, 2, 1]] : List (List ℝ))))
        (trim_silence ([[1, 2, 3, 4, 5, 6, 7, 8, 9, 10, 11, 12, 13]] : List (List ℝ))).length
        (trim_silence ([[13, 12, 11, 10, 9, 8, 7, 6, 5, 4, 3, 2, 1]] : List (List ℝ))).length
          = (d : WithTop ℝ) ∧
      computeDTW ([[1, 2, 3, 4, 5, 6, 7, 8, 9, 10, 11, 12, 13]] : List (List ℝ))
          [[13, 12, 11, 10, 9, 8, 7, 6, 5, 4, 3, 2, 1]] =
        max 0 (min 1 (1 - d /
          (((trim_silence
              ([[1, 2, 3, 4, 5, 6, 7, 8, 9, 10, 11, 12, 13]] : List (List ℝ))).length : ℝ) +
            ((trim_silence
              ([[13, 12, 11, 10, 9, 8, 7, 6, 5, 4, 3, 2, 1]] : List (List ℝ))).length : ℝ)))) :=
  (computeDTW_score_formula _ _).1 (by simp) (by simp)
    (trim_silence_ne_nil _ (by simp)) (trim_silence_ne_nil _ (by simp))

/-- C13. For every signal `s` of length `n`, `pre_emphasis` keeps the length,
keeps `s[0]`, and sets `out[i] = s[i] - 0.95 * s[i - 1]` for `1 ≤ i < n`, where
`s[i - 1]` is the value before filtering; a signal with fewer than 2 samples
is unchanged. -/
theorem pre_emphasis_original_neighbour (signal : List F) :
    (pre_emphasis signal).length = signal.length ∧
      (pre_emphasis signal).getD 0 0 = signal.getD 0 0 ∧
      (∀ i, 1 ≤ i → i < signal.length →
        (pre_emphasis signal).getD i 0 = signal.getD i 0 - 95 / 100 * signal.getD (i - 1) 0) ∧
      (signal.length < 2 → pre_emphasis signal = signal) := by
  obtain ⟨hl, hv⟩ := pre_emphasis_spec signal
  refine ⟨hl, ?_, ?_, ?_⟩
  · rw [hv 0, if_neg (by omega)]
  · intro i h1 h2
    rw [hv i, if_pos ⟨h1, h2⟩]
  · intro h
    unfold pre_emphasis
    rw [if_pos h]

/-- Witness for C13: the second sample of a three-sample signal. -/
theorem pre_emphasis_original_neighbour_witness :
    (pre_emphasis ([1, 2, 4] : List ℚ)).getD 1 0 =
      ([1, 2, 4] : List ℚ).getD 1 0 - 95 / 100 * ([1, 2, 4] : List ℚ).getD (1 - 1) 0 :=
  (pre_emphasis_original_neighbour [1, 2, 4]).2.2.1 1 (by decide) (by decide)

/-- C16. When frame `s` is the first and frame `l` the last frame that passes
the threshold test (non-empty, with `C0 > -40`), `trim_silence` returns the
contiguous sub-sequence `[s, l + 1)`.  The test holds exactly for the frames
`c0 :: rest` with `c0 > -40`, so a frame of length 0 counts as silent. -/
theorem trim_silence_first_last (mfcc_seq : List (List F)) (s l : Nat)
    (hl : l < mfcc_seq.length)
    (hps : exceeds_c0_threshold (mfcc_seq.getD s []) = true)
    (hfirst : ∀ i, i < s → exceeds_c0_threshold (mfcc_seq.getD i []) = false)
    (hpl : exceeds_c0_threshold (mfcc_seq.getD l []) = true)
    (hlast : ∀ i, l < i → i < mfcc_seq.length →
      exceeds_c0_threshold (mfcc_seq.getD i []) = false) :
    trim_silence mfcc_seq = (mfcc_seq.drop s).take (l + 1 - s) ∧
      (∀ frame : List F,
        exceeds_c0_threshold frame = true ↔ ∃ c0 rest, frame = c0 :: rest ∧ c0 > -40) ∧
      exceeds_c0_threshold ([] : List F) = false := by
  have hs : s < mfcc_seq.length := by
    by_contra hc
    rw [List.getD_eq_getElem?_getD, List.getElem?_eq_none (by omega)] at hps
    simp [exceeds_c0_threshold] at hps
  refine ⟨(trim_silence_range mfcc_seq s (l + 1) hs hps hfirst (by omega)
    (by simpa using hpl) (fun i hi hi2 => hlast i (by omega) hi2)).2.2,
    exceeds_c0_threshold_iff, rfl⟩

/-- Witness for C16: silence, two loud frames around a silent one, silence. -/
theorem trim_silence_first_last_witness :
    trim_silence ([[-50], [1], [-60], [2], [-70]] : List (List ℚ)) =
        (([[-50], [1], [-60], [2], [-70]] : List (List ℚ)).drop 1).take (3 + 1 - 1) ∧
      (∀ frame : List ℚ,
        exceeds_c0_threshold frame = true ↔ ∃ c0 rest, frame = c0 :: rest ∧ c0 > -40) ∧
      exceeds_c0_threshold ([] : List ℚ) = false :=
  trim_silence_first_last _ 1 3 (by decide) (by decide)
    (by intro i hi; interval_cases i; decide) (by decide)
    (by intro i h1 h2; simp at h2; interval_cases i; decide)

/-- C18. `trim_silence` returns the empty sequence only for the empty input;
for a non-empty input the scan indices satisfy `start < end`, so the branch
`start >= end` is not taken; and when no frame passes the threshold test the
result is the whole input. -/
theorem trim_silence_empty_only_on_empty (mfcc_seq : List (List F)) :
    (trim_silence mfcc_seq = [] ↔ mfcc_seq = []) ∧
      (mfcc_seq ≠ [] →
        trim_silence_start mfcc_seq <
          trim_silence_end mfcc_seq (trim_silence_start mfcc_seq)) ∧
      ((∀ frame ∈ mfcc_seq, exceeds_c0_threshold frame = false) →
        trim_silence mfcc_seq = mfcc_seq) :=
  ⟨trim_silence_nil_iff mfcc_seq,
    fun h => (trim_silence_end_bounds mfcc_seq _ (trim_silence_start_lt mfcc_seq h)).1,
    trim_silence_all_silent mfcc_seq⟩

/-- Witness for C18: a sequence of two silent frames is returned whole. -/
theorem trim_silence_empty_only_on_empty_witness :
    trim_silence ([[-50, 1], [-41, 2]] : List (List ℚ)) = [[-50, 1], [-41, 2]] :=
  (trim_silence_empty_only_on_empty _).2.2 (by decide)

/-- C19. Leading and trailing silence does not change the score: for a
sequence `A` of 13-coefficient frames whose first and last frames have
`C0 > -40`, sequences `P` and `Q` of 13-coefficient frames all with
`C0 ≤ -40`, and every sequence `B`, `computeDTW (P ++ A ++ Q) B = computeDTW A B`. -/
theorem computeDTW_silence_padding [CMath F] (P A Q B : List (List F)) (hA : A ≠ [])
    (h13A : ∀ frame ∈ A, frame.length = 13)
    (h13P : ∀ frame ∈ P, frame.length = 13) (h13Q : ∀ frame ∈ Q, frame.length = 13)
    (hfirst : (A.getD 0 []).getD 0 0 > -40)
    (hlast : (A.getD (A.length - 1) []).getD 0 0 > -40)
    (hP : ∀ frame ∈ P, frame.getD 0 0 ≤ -40) (hQ : ∀ frame ∈ Q, frame.getD 0 0 ≤ -40) :
    computeDTW (P ++ A ++ Q) B = computeDTW A B := by
  have hl : 0 < A.length := List.length_pos.mpr hA
  apply computeDTW_append_silence P A Q B hA h13A h13P h13Q
  · rw [exceeds_c0_threshold_of_ne_nil _
      (ne_nil_of_length_13 _ (h13A _ (getD_mem A 0 [] hl)))]
    exact decide_eq_true hfirst
  · rw [exceeds_c0_threshold_of_ne_nil _
      (ne_nil_of_length_13 _ (h13A _ (getD_mem A _ [] (by omega))))]
    exact decide_eq_true hlast
  · intro frame hf
    rw [exceeds_c0_threshold_of_ne_nil _ (ne_nil_of_length_13 _ (h13P _ hf))]
    exact decide_eq_false (not_lt.mpr (hP _ hf))
  · intro frame hf
    rw [exceeds_c0_threshold_of_ne_nil _ (ne_nil_of_length_13 _ (h13Q _ hf))]
    exact decide_eq_false (not_lt.mpr (hQ _ hf))

/-- Witness for C19: one silent frame before and one after a loud frame. -/
theorem computeDTW_silence_padding_witness :
    computeDTW
        ([[-50, 0, 0, 0, 0, 0, 0, 0, 0, 0, 0, 0, 0]] ++
          [[1, 2, 3, 4, 5, 6, 7, 8, 9, 10, 11, 12, 13]] ++
          [[-41, 0, 0, 0, 0, 0, 0, 0, 0, 0, 0, 0, 0]] : List (List ℝ))
        [[3, 1, 4, 1, 5, 9, 2, 6, 5, 3, 5, 8, 9]] =
      computeDTW ([[1, 2, 3, 4, 5, 6, 7, 8, 9, 10, 11, 12, 13]] : List (List ℝ))
        [[3, 1, 4, 1, 5, 9, 2, 6, 5, 3, 5, 8, 9]] :=
  computeDTW_silence_padding _ _ _ _ (by simp) (by simp) (by simp) (by simp)
    (by norm_num) (by norm_num) (by simp; norm_num) (by simp; norm_num)

/-- C20. With a square root that is non-negative and inverse to squaring on
the non-negative numbers: `cosineSimilarity` lies in `[-1, 1]`, the cell cost
`1 - cosineSimilarity` lies in `[0, 2]`, and every finite cell of the DTW table
is non-negative. -/
theorem cosineSimilarity_bounds [CMath F]
    (hsqrt : ∀ x : F, 0 ≤ x → 0 ≤ CMath.sqrt x ∧ CMath.sqrt x * CMath.sqrt x = x) :
    (∀ v w : List F, -1 ≤ cosineSimilarity v w ∧ cosineSimilarity v w ≤ 1) ∧
      (∀ v w : List F, 0 ≤ 1 - cosineSimilarity v w ∧ 1 - cosineSimilarity v w ≤ 2) ∧
      (∀ (seq1 seq2 : List (List F)) (a b : Nat) (d : F),
        a ≤ seq1.length → b ≤ seq2.length →
        get2 (dtw_table seq1 seq2) a b = (d : WithTop F) → 0 ≤ d) := by
  refine ⟨cosineSimilarity_abs_le_one hsqrt, ?_, ?_⟩
  · intro v w
    obtain ⟨h1, h2⟩ := cosineSimilarity_abs_le_one hsqrt v w
    constructor <;> linarith
  · intro seq1 seq2 a b d ha hb hd
    rw [dtw_table_spec seq1 seq2 a b ha hb] at hd
    have := dtw_rec_nonneg (dtw_cost seq1 seq2) (by
      intro i j
      unfold dtw_cost
      have := (cosineSimilarity_abs_le_one hsqrt (seq1.getD (i - 1) []) (seq2.getD (j - 1) [])).2
      linarith) a b
    rw [hd] at this
    exact_mod_cast this

/-- Witness for C20: the cosine similarity of two real vectors. -/
theorem cosineSimilarity_bounds_witness :
    -1 ≤ cosineSimilarity ([1, 2] : List ℝ) [3, -4] ∧
      cosineSimilarity ([1, 2] : List ℝ) [3, -4] ≤ 1 :=
  (cosineSimilarity_bounds real_sqrt_spec).1 _ _

/-- C11. In `create_mel_filterbanks`, with `pow(10, .)` monotone and `log10`
non-negative from `1` on: for `num_filters ≥ 1`, `fft_size ≥ 0` and
`sample_rate > 0` the clamped bin boundaries satisfy
`0 ≤ start(m) ≤ center(m) ≤ end(m)` for every filter `m`, and
`start(m - 1) ≤ start(m)` for every `m` from 2 to `num_filters`. -/
theorem mel_filter_bounds_monotone [CMath F] [FloorRing F]
    (hpow : ∀ x y : F, x ≤ y → CMath.pow 10 x ≤ CMath.pow 10 y)
    (hlog : ∀ x : F, 1 ≤ x → 0 ≤ CMath.log10 x)
    (num_filters fft_size sample_rate : Int) (hn : 1 ≤ num_filters) (hf : 0 ≤ fft_size)
    (hs : 0 < sample_rate) :
    (∀ m : Nat, 1 ≤ m → (m : Int) ≤ num_filters →
      0 ≤ (mel_bounds (mel_bins (F := F) num_filters fft_size sample_rate) m).1 ∧
        (mel_bounds (mel_bins (F := F) num_filters fft_size sample_rate) m).1 ≤
          (mel_bounds (mel_bins (F := F) num_filters fft_size sample_rate) m).2.1 ∧
        (mel_bounds (mel_bins (F := F) num_filters fft_size sample_rate) m).2.1 ≤
          (mel_bounds (mel_bins (F := F) num_filters fft_size sample_rate) m).2.2) ∧
      (∀ m : Nat, 2 ≤ m → (m : Int) ≤ num_filters →
        (mel_bounds (mel_bins (F := F) num_filters fft_size sample_rate) (m - 1)).1 ≤
          (mel_bounds (mel_bins (F := F) num_filters fft_size sample_rate) m).1) := by
  constructor
  · intro m _ _
    exact mel_bounds_ordered _ m
  · intro m h2 hm
    unfold mel_bounds
    simp only []
    apply max_le_max (le_refl _)
    have := mel_bins_mono hpow hlog num_filters fft_size sample_rate hn hf hs (m - 2) (by omega)
    rw [show m - 1 - 1 = m - 2 by omega, show m - 1 = m - 2 + 1 by omega]
    exact this

/-- Witness for C11: the configuration of `extractMFCC` for a 1024-point FFT,
filters 1 and 2. -/
theorem mel_filter_bounds_monotone_witness :
    (mel_bounds (mel_bins (F := ℝ) 40 1024 SAMPLE_RATE) (2 - 1)).1 ≤
      (mel_bounds (mel_bins (F := ℝ) 40 1024 SAMPLE_RATE) 2).1 :=
  (mel_filter_bounds_monotone real_pow10_mono real_log10_nonneg 40 1024 SAMPLE_RATE
    (by norm_num) (by norm_num) (by norm_num [SAMPLE_RATE])).2 2 (by norm_num) (by norm_num)

/-- C14. For non-empty sequences of lengths `R` and `C`, every cell of the DTW
table filled by the loops of `computeDTW` holds the value of the recurrence
(`dp[0][0] = 0`, the other boundary cells `+infinity`, `dp[i][j] = cost(i, j)`
plus the minimum of the three predecessors), and `dp[R][C]` is the minimum,
over the warping paths from `(1, 1)` to `(R, C)`, of the sum of
`cost(i, j) = 1 - cosineSimilarity(seq1[i - 1], seq2[j - 1])` along the path. -/
theorem dtw_table_min_warping_path [CMath F] (seq1 seq2 : List (List F))
    (h1 : seq1 ≠ []) (h2 : seq2 ≠ []) :
    (∀ a b, a ≤ seq1.length → b ≤ seq2.length →
      get2 (dtw_table seq1 seq2) a b = dtw_rec (dtw_cost seq1 seq2) a b) ∧
      ∃ p, WarpingPath seq1.length seq2.length p ∧
        get2 (dtw_table seq1 seq2) seq1.length seq2.length =
          ((path_cost (dtw_cost seq1 seq2) p : F) : WithTop F) ∧
        ∀ q, WarpingPath seq1.length seq2.length q →
          path_cost (dtw_cost seq1 seq2) p ≤ path_cost (dtw_cost seq1 seq2) q := by
  refine ⟨fun a b ha hb => dtw_table_spec seq1 seq2 a b ha hb, ?_⟩
  obtain ⟨R, hR⟩ : ∃ R, seq1.length = R + 1 :=
    ⟨seq1.length - 1, by have := List.length_pos.mpr h1; omega⟩
  obtain ⟨C, hC⟩ : ∃ C, seq2.length = C + 1 :=
    ⟨seq2.length - 1, by have := List.length_pos.mpr h2; omega⟩
  rw [dtw_table_spec seq1 seq2 _ _ (le_refl _) (le_refl _), hR, hC]
  obtain ⟨p, hp, he⟩ := dtw_rec_eq_path (dtw_cost seq1 seq2) R C
  refine ⟨p, hp, he, ?_⟩
  intro q hq
  have := dtw_rec_le_path (dtw_cost seq1 seq2) hq
  rw [he] at this
  exact_mod_cast this

/-- Witness for C14: two one-frame sequences. -/
theorem dtw_table_min_warping_path_witness :
    ∃ p, WarpingPath ([[1, 2]] : List (List ℝ)).length ([[2, 1]] : List (List ℝ)).length p ∧
      get2 (dtw_table ([[1, 2]] : List (List ℝ)) [[2, 1]])
          ([[1, 2]] : List (List ℝ)).length ([[2, 1]] : List (List ℝ)).length =
        ((path_cost (dtw_cost ([[1, 2]] : List (List ℝ)) [[2, 1]]) p : ℝ) : WithTop ℝ) ∧
      ∀ q, WarpingPath ([[1, 2]] : List (List ℝ)).length ([[2, 1]] : List (List ℝ)).length q →
        path_cost (dtw_cost ([[1, 2]] : List (List ℝ)) [[2, 1]]) p ≤
          path_cost (dtw_cost ([[1, 2]] : List (List ℝ)) [[2, 1]]) q :=
  (dtw_table_min_warping_path _ _ (by simp) (by simp)).2

/-- C15. For every real frame `x` of length `n`, with `N` the FFT size of
`power_spectrum` (the least power of two with `n ≤ N`) and `x` zero-padded to `N`
(`frame.getD t 0`), `power_spectrum` returns at every bin `k ≤ N / 2` the value
`|X[k]|² / N`, where `X[k]` is the sum over `t < N` of
`x[t] * exp (-2 π i k t / N)`: the iterative radix-2 `fft` with bit reversal
agrees with the discrete Fourier transform on the power of every bin. -/
theorem power_spectrum_eq_dft (frame : List ℝ) (k : Nat)
    (hk : k ≤ power_spectrum_fft_size frame.length frame.length 1 / 2) :
    (∃ L, power_spectrum_fft_size frame.length frame.length 1 = 2 ^ L ∧
      frame.length ≤ 2 ^ L ∧ ∀ m, frame.length ≤ 2 ^ m → 2 ^ L ≤ 2 ^ m) ∧
      (power_spectrum frame).getD k 0 =
        Complex.normSq (Finset.sum
          (Finset.range (power_spectrum_fft_size frame.length frame.length 1))
          (fun t => ((frame.getD t 0 : ℝ) : ℂ) *
            Complex.exp (-2 * (Real.pi : ℂ) * Complex.I * (k : ℂ) * (t : ℂ) /
              ((power_spectrum_fft_size frame.length frame.length 1 : Nat) : ℂ)))) /
          ((power_spectrum_fft_size frame.length frame.length 1 : Nat) : ℝ) := by
  obtain ⟨L, hL, hle, hmin⟩ := power_spectrum_fft_size_spec frame.length frame.length 0
    (by simpa using (Nat.lt_two_pow frame.length).le) (Or.inl rfl)
  rw [pow_zero] at hL
  constructor
  · refine ⟨L, hL, hle, fun m hm => ?_⟩
    rcases hmin with h0 | hlt
    · rw [h0]; simpa using Nat.one_le_two_pow
    · have h1 : 2 ^ (L - 1) < 2 ^ m := lt_of_lt_of_le hlt hm
      have h2 := (Nat.pow_lt_pow_iff_right (by norm_num : 1 < 2)).mp h1
      exact Nat.pow_le_pow_right (by norm_num) (by omega)
  · rw [hL] at hk ⊢
    unfold power_spectrum
    simp only []
    rw [hL]
    obtain ⟨hil, hiv⟩ := power_spectrum_input frame (2 ^ L) hle
    obtain ⟨hfl, hfv⟩ := fft_forward_spec L _ hil
    have hpos : 0 < 2 ^ L := pow_pos (by norm_num) L
    have hk2 : k < 2 ^ L := by
      have := Nat.div_lt_self hpos (by norm_num : 1 < 2)
      omega
    obtain ⟨_, hpv⟩ := getD_foldl_set_range
      (fun i => cd.norm ((fft ((List.range frame.length).foldl
        (fun (fft_input : List (cd ℝ)) i => fft_input.set i ⟨frame.getD i 0, 0⟩)
        (List.replicate (2 ^ L) cd.zero)) false).getD i cd.zero) / ((2 ^ L : Nat) : ℝ))
      (2 ^ L / 2 + 1) (List.replicate (2 ^ L / 2 + 1) (0 : ℝ)) 0 (by simp)
    rw [hpv k, if_pos (by omega), ← normSq_toC, hfv k hk2, ← normSq_sum_root]
    congr 2
    apply Finset.sum_congr rfl
    intro t _
    rw [hiv t]

/-- Witness for C15: bin 1 of the spectrum of a three-sample frame (`N = 4`). -/
theorem power_spectrum_eq_dft_witness :
    (power_spectrum ([1, 2, 3] : List ℝ)).getD 1 0 =
      Complex.normSq (Finset.sum
        (Finset.range (power_spectrum_fft_size ([1, 2, 3] : List ℝ).length
          ([1, 2, 3] : List ℝ).length 1))
        (fun t => ((([1, 2, 3] : List ℝ).getD t 0 : ℝ) : ℂ) *
          Complex.exp (-2 * (Real.pi : ℂ) * Complex.I * ((1 : Nat) : ℂ) * (t : ℂ) /
            ((power_spectrum_fft_size ([1, 2, 3] : List ℝ).length
              ([1, 2, 3] : List ℝ).length 1 : Nat) : ℂ)))) /
        ((power_spectrum_fft_size ([1, 2, 3] : List ℝ).length
          ([1, 2, 3] : List ℝ).length 1 : Nat) : ℝ) :=
  (power_spectrum_eq_dft [1, 2, 3] 1 (by decide)).2

/-- C17. In `extractMFCC`, for a frame of length at least 2: the conditioned
frame keeps the length, so `power_spectrum` uses the FFT size `N` of the frame
length; `fft_size_for_filters = 2 * power.size() - 2` equals `N` and is not
below 2 (line 274 leaves it alone); `extractMFCC` returns, after the two gates,
the `dct` of `apply_mel_filters` on the power spectrum and the filterbank
built for `N`; that filterbank has 40 filters, each with `N / 2 + 1` weights,
the length of the power spectrum; and `apply_mel_filters` sums over all
`power.size()` bins for every filter. -/
theorem extractMFCC_filterbank_size [CMath F] [FloorRing F] (frame : List F)
    (h : 2 ≤ frame.length) :
    let power := power_spectrum (hamming_window (pre_emphasis frame))
    let N := power_spectrum_fft_size frame.length frame.length 1
    let filterbanks := create_mel_filterbanks (F := F) 40 (N : Int) SAMPLE_RATE
    let mfcc := dct (apply_mel_filters power filterbanks)
    (hamming_window (pre_emphasis frame)).length = frame.length ∧
      (power.length : Int) * 2 - 2 = (N : Int) ∧
      ¬ ((power.length : Int) * 2 - 2 < 2) ∧
      extractMFCC frame =
        (if compute_energy frame < ENERGY_THRESHOLD ∨ compute_zcr frame < ZCR_THRESHOLD then []
          else if (!mfcc.isEmpty) = true ∧ mfcc.getD 0 0 ≤ C0_SILENCE_THRESHOLD then []
          else mfcc) ∧
      filterbanks.length = 40 ∧
      (∀ filt ∈ filterbanks, filt.length = N / 2 + 1 ∧ filt.length = power.length) ∧
      apply_mel_filters power filterbanks =
        filterbanks.map (fun filt =>
          if (List.range power.length).foldl
              (fun acc k => acc + power.getD k 0 * filt.getD k 0) 0 > 0 then
            CMath.log ((List.range power.length).foldl
              (fun acc k => acc + power.getD k 0 * filt.getD k 0) 0)
          else CMath.log (1 / 10000000000)) := by
  intro power N filterbanks mfcc
  have hlen : (hamming_window (pre_emphasis frame)).length = frame.length := by
    rw [hamming_window_length, (pre_emphasis_spec frame).1]
  obtain ⟨hp, hN, h2⟩ := power_spectrum_size_for_filters frame h
  have hfilt : ∀ filt ∈ filterbanks, filt.length = power.length := by
    intro filt hf
    rw [(create_mel_filterbanks_size (F := F) N).2 filt hf]
    exact hp.symm
  refine ⟨hlen, hN, ?_, extractMFCC_eq frame h, (create_mel_filterbanks_size (F := F) N).1,
    ?_, apply_mel_filters_full power filterbanks hfilt⟩
  · rw [hN]; omega
  · intro filt hf
    exact ⟨(create_mel_filterbanks_size (F := F) N).2 filt hf, hfilt filt hf⟩

/-- Witness for C17: a frame of three samples. -/
theorem extractMFCC_filterbank_size_witness :
    ((power_spectrum (hamming_window (pre_emphasis ([1, -1, 1] : List ℝ)))).length : Int) * 2 - 2 =
        (power_spectrum_fft_size ([1, -1, 1] : List ℝ).length ([1, -1, 1] : List ℝ).length 1 : Int) ∧
      (create_mel_filterbanks (F := ℝ) 40
        (power_spectrum_fft_size ([1, -1, 1] : List ℝ).length ([1, -1, 1] : List ℝ).length 1 : Int)
        SAMPLE_RATE).length = 40 :=
  ⟨(extractMFCC_filterbank_size ([1, -1, 1] : List ℝ) (by simp)).2.1,
    (extractMFCC_filterbank_size ([1, -1, 1] : List ℝ) (by simp)).2.2.2.2.1⟩

/-- C1 (the claim fails on frames that hold NaN).  With `N = [1, NaN, 0, ..., 0]`
and `x = [1, 0, ..., 0]`, `computeDTW([N, x], [x])` is `1` and
`computeDTW([x], [N, x])` is `0`: the cost against `N` is NaN, and
`std::min({val_a, val_b, val_c})` keeps a NaN in the first position and drops
one in the second. -/
theorem computeDTW_nan_not_symmetric :
    Ieee.computeDTW [nan_frame (F := ℝ), unit_frame] [unit_frame] = .fin 1 ∧
      Ieee.computeDTW [unit_frame (F := ℝ)] [nan_frame, unit_frame] = .fin 0 ∧
      Ieee.computeDTW [nan_frame (F := ℝ), unit_frame] [unit_frame] ≠
        Ieee.computeDTW [unit_frame (F := ℝ)] [nan_frame, unit_frame] := by
  refine ⟨ieee_computeDTW_nan_left, ieee_computeDTW_nan_right, ?_⟩
  rw [ieee_computeDTW_nan_left, ieee_computeDTW_nan_right]
  intro h
  injection h with h
  exact one_ne_zero h

/-- C1 (amended).  On sequences whose frames hold finite values only (no NaN,
no infinity) `computeDTW` is symmetric: for all such `A` and `B`,
`computeDTW(A, B) = computeDTW(B, A)`, in the model with IEEE special values
and in the exact model, whose value the IEEE model returns; this covers the
inputs that fail validation and those that trim to the empty sequence. -/
theorem computeDTW_symmetric [CMath F] (A B : List (List F)) :
    Ieee.computeDTW (A.map (List.map .fin)) (B.map (List.map .fin)) =
        Ieee.computeDTW (B.map (List.map .fin)) (A.map (List.map .fin)) ∧
      Ieee.computeDTW (A.map (List.map .fin)) (B.map (List.map .fin)) = .fin (computeDTW A B) ∧
      computeDTW A B = computeDTW B A := by
  refine ⟨?_, ieee_computeDTW_fin A B, computeDTW_comm A B⟩
  rw [ieee_computeDTW_fin, ieee_computeDTW_fin, computeDTW_comm]

/-- Witness for C1: a sequence of one frame and a sequence of two frames. -/
theorem computeDTW_symmetric_witness :
    computeDTW ([[1, 0, 0, 0, 0, 0, 0, 0, 0, 0, 0, 0, 0]] : List (List ℝ))
        [[0, 1, 0, 0, 0, 0, 0, 0, 0, 0, 0, 0, 0], [1, 2, 0, 0, 0, 0, 0, 0, 0, 0, 0, 0, 0]] =
      computeDTW ([[0, 1, 0, 0, 0, 0, 0, 0, 0, 0, 0, 0, 0], [1, 2, 0, 0, 0, 0, 0, 0, 0, 0, 0, 0, 0]] :
          List (List ℝ))
        [[1, 0, 0, 0, 0, 0, 0, 0, 0, 0, 0, 0, 0]] :=
  (computeDTW_symmetric _ _).2.2

end Claims

end AudioMatcher
